import Mathlib

/-!
heco: the array-backed heterogeneous store (`heco_1_map_array.h`)

Shallow embedding of `heco::HeterogeneousArray`.

* A C++ type `T` is represented by a `TypeInfo`: its `type_id<T>()`, `sizeof(T)`,
  `alignof(T)`, `std::is_empty_v<T>` and `std::is_trivially_destructible_v<T>`.
* `size_t` / `uintptr_t` arithmetic is arithmetic on `Nat` reduced modulo `2 ^ 64`
  (`to_size_t`), a conversion to `offset_t` (`std::uint32_t`) is reduction modulo
  `2 ^ 32` (`to_offset_t`).
* The arena `data` is a `std::vector<std::byte, aligned_allocator<std::byte, 64>>`:
  its `size()` and the bytes found at each index from `data.data()`. `operator[]` is
  unchecked, so the bytes are a total function of the index.  The address
  `data.data()` is chosen by the allocator, it is an argument `base` of every
  operation that reads it.
* `assert` failures, `std::out_of_range` and failed `static_assert`s are the three
  `Fault`s; an operation returns `Except Fault _`.
* An object of type `T` is its object representation, a list of `sizeof(T)` bytes.
-/

namespace heco

/-! ## Machine integers -/

/-- Reduction to `size_t` / `uintptr_t` (64 bits). -/
def to_size_t (x : Nat) : Nat := x % 2 ^ 64

/-- Conversion to `offset_t = std::uint32_t`. -/
def to_offset_t (x : Nat) : Nat := x % 2 ^ 32

/-- The constant `default_alignment`. -/
def default_alignment : Nat := 64

/-- What the store knows of a C++ type `T` at compile time. -/
structure TypeInfo where
  /-- The value of `type_id<T>()`. -/
  id : Nat
  /-- The value of `sizeof(T)`. -/
  size : Nat
  /-- The value of `alignof(T)`. -/
  align : Nat
  /-- The value of `std::is_empty_v<T>`. -/
  is_empty : Bool
  /-- The value of `std::is_trivially_destructible_v<T>`. -/
  trivially_destructible : Bool
deriving DecidableEq

/-- The expression `((~ptr_end + 1) & (alignment - 1))` of `do_allocate_1` and
`do_allocate_n`, on 64-bit unsigned integers. -/
def padding_of (ptr_end alignment : Nat) : Nat :=
  to_size_t ((2 ^ 64 - 1 - to_size_t ptr_end) + 1) &&& to_size_t (alignment + (2 ^ 64 - 1))

/-! ## The arena -/

/-- The member `data`: a byte vector, seen as its size and its bytes by index. -/
structure Arena where
  /-- The value of `data.size()`. -/
  size : Nat
  /-- The byte at `data.data() + i`. -/
  mem : Nat → Nat

/-- `data.resize(n)`: bytes appended by a growing resize are value-initialised (zero),
the bytes below the old size are kept (moved along on reallocation). -/
def Arena.resize (d : Arena) (n : Nat) : Arena :=
  { size := n, mem := fun i => if d.size ≤ i ∧ i < n then 0 else d.mem i }

/-- `data.clear()`. -/
def Arena.clear (d : Arena) : Arena :=
  { size := 0, mem := d.mem }

/-- Placement of the bytes `bs` at `&data[n]`. It stands for the write of the program
when the bytes lie inside the arena, `n + bs.length ≤ d.size`. `operator[]` checks no
bound: a write outside the arena is undefined behaviour in the program (a crash on an
empty vector, whose `data()` is null), and the value given here has no meaning then. -/
def Arena.write (d : Arena) (n : Nat) (bs : List Nat) : Arena :=
  { size := d.size, mem := fun i => if n ≤ i ∧ i < n + bs.length then bs.getD (i - n) 0 else d.mem i }

/-- The `k` bytes found at `&data[n]`. -/
def Arena.read (d : Arena) (n k : Nat) : List Nat :=
  (List.range k).map (fun j => d.mem (n + j))

/-! ## `std::min_element`, `std::max_element` -/

/-- `std::min_element(first, last, comp)`: the first smallest element. -/
def min_element (comp : Nat → Nat → Bool) : List Nat → Option Nat
  | [] => none
  | first :: rest =>
    some (rest.foldl (fun smallest x => if comp x smallest then x else smallest) first)

/-- `std::max_element(first, last, comp)`: the first largest element. -/
def max_element (comp : Nat → Nat → Bool) : List Nat → Option Nat
  | [] => none
  | first :: rest =>
    some (rest.foldl (fun largest x => if comp largest x then x else largest) first)

/-! ## The batch allocator `do_allocate_n` -/

/-- The locals of `do_allocate_n` that live across iterations of its `while` loop.
The array `paddings` is refilled for all pending indices at the start of every
iteration and read only at pending indices, and the first `n_min` cells of
`min_paddings` are rewritten before they are read: both are locals of one iteration
in `do_allocate_n_body`. -/
structure AllocState where
  /-- The array `output`. -/
  output : List Nat
  /-- The counter `to_allocate`. -/
  to_allocate : Nat
  /-- The address `ptr_end`. -/
  ptr_end : Nat
  /-- The vector `indices` of the indices still to visit. -/
  indices : List Nat

/-- One iteration of the `while (!indices.empty())` loop of `do_allocate_n`. -/
def do_allocate_n_body (alignments sizes : List Nat) (size_before : Nat)
    (st : AllocState) : AllocState :=
  let paddings : Nat → Nat := fun i => padding_of st.ptr_end (alignments.getD i 0)
  match min_element (fun i j => decide (paddings i < paddings j)) st.indices with
  | none => st
  | some i_min =>
    let min_padding := paddings i_min
    let min_paddings := st.indices.filter (fun id => paddings id == min_padding)
    match max_element (fun i j => decide (sizes.getD i 0 < sizes.getD j 0)) min_paddings with
    | none => st
    | some id_element =>
      { output := st.output.set id_element
          (to_offset_t (to_size_t (size_before + st.to_allocate + min_padding)))
        to_allocate := to_size_t (st.to_allocate + (min_padding + sizes.getD id_element 0))
        ptr_end := to_size_t (st.ptr_end + (min_padding + sizes.getD id_element 0))
        indices := st.indices.erase id_element }

/-- The `while (!indices.empty())` loop of `do_allocate_n`, run for at most `fuel`
iterations. -/
def do_allocate_n_loop (alignments sizes : List Nat) (size_before : Nat) :
    Nat → AllocState → AllocState
  | 0, st => st
  | fuel + 1, st =>
    if st.indices.isEmpty then st
    else do_allocate_n_loop alignments sizes size_before fuel
      (do_allocate_n_body alignments sizes size_before st)

/-- The state of `do_allocate_n` when it enters its loop: `indices` is
`[0, 1, ..., N-1]`. -/
def do_allocate_n_init (base size_before N : Nat) : AllocState :=
  { output := List.replicate N 0
    to_allocate := 0
    ptr_end := to_size_t (base + size_before)
    indices := List.range N }

/-- The state of `do_allocate_n` when it leaves its loop. Every iteration erases one
index, so `N` iterations are all the loop runs (`do_allocate_n_final_indices`). -/
def do_allocate_n_final (base size_before : Nat) (Ts : List TypeInfo) : AllocState :=
  do_allocate_n_loop (Ts.map (fun T => T.align)) (Ts.map (fun T => T.size)) size_before
    Ts.length (do_allocate_n_init base size_before Ts.length)

/-! ## The two tables and the store -/

/-- The ways an operation ends without returning. -/
inductive Fault
  /-- A failed `assert`: the program aborts. -/
  | assertion
  /-- The exception `std::out_of_range` thrown by `offsets.at` or `destructors.at`. -/
  | out_of_range
  /-- A failed `static_assert`: the call does not compile. -/
  | ill_formed
deriving DecidableEq

/-- The two function pointers `record_dtor` stores as a `destructor_t`. -/
inductive destructor_t
  /-- The lambda `[](This& c) {}` stored for an empty type. -/
  | noop
  /-- The lambda `[](This& c) { std::destroy_at(&c.get<U>()); }`. -/
  | destroy_at (U : TypeInfo)
deriving DecidableEq

/-- An object: the bytes of its object representation. -/
abbrev Val := List Nat

/-- Lookup in a `map<type_id_t, V>` (`find`). -/
def map_find {V : Type} (k : Nat) : List (Nat × V) → Option V
  | [] => none
  | e :: rest => if e.1 = k then some e.2 else map_find k rest

/-- `m.count(k)` converted to `bool`. -/
def map_count {V : Type} (m : List (Nat × V)) (k : Nat) : Bool :=
  (map_find k m).isSome

/-- `m.emplace(k, v)`: nothing happens when the key is present. -/
def map_emplace {V : Type} (m : List (Nat × V)) (k : Nat) (v : V) : List (Nat × V) :=
  if map_count m k then m else (k, v) :: m

/-- `m.erase(k)`. -/
def map_erase {V : Type} (m : List (Nat × V)) (k : Nat) : List (Nat × V) :=
  m.filter (fun e => decide (e.1 ≠ k))

/-- `m[k]` on `map<type_id_t, offset_t>`: a missing key is inserted with the value `0`. -/
def map_index (m : List (Nat × Nat)) (k : Nat) : List (Nat × Nat) × Nat :=
  match map_find k m with
  | some v => (m, v)
  | none => ((k, 0) :: m, 0)

/-- The class `HeterogeneousArray`: its three data members. -/
structure HeterogeneousArray where
  /-- The member `offsets`, the offset directory. -/
  offsets : List (Nat × Nat)
  /-- The member `data`, the arena. -/
  data : Arena
  /-- The member `destructors`, the destructor registry. -/
  destructors : List (Nat × destructor_t)

namespace HeterogeneousArray

/-- The default-constructed store. -/
def empty : HeterogeneousArray :=
  { offsets := [], data := { size := 0, mem := fun _ => 0 }, destructors := [] }

/-- `is_allocated<T>()`. -/
def is_allocated (c : HeterogeneousArray) (T : TypeInfo) : Bool :=
  map_count c.offsets T.id

/-- `is_constructed<T>()`. -/
def is_constructed (c : HeterogeneousArray) (T : TypeInfo) : Bool :=
  map_count c.destructors T.id

/-- `contains<Ts...>()`: the fold of `contains(type_id<Ts>())` over `&&`. -/
def contains (c : HeterogeneousArray) (Ts : List TypeInfo) : Bool :=
  Ts.all (fun T => c.is_constructed T)

/-- `offset_of<T, Rest...>()`: `offsets.at` of every type, in order. -/
def offset_of (c : HeterogeneousArray) : List TypeInfo → Except Fault (List Nat)
  | [] => .ok []
  | T :: Rest =>
    match map_find T.id c.offsets with
    | none => .error .out_of_range
    | some off =>
      match offset_of c Rest with
      | .error e => .error e
      | .ok offs => .ok (off :: offs)

/-- `do_get<T>(n)`: the object of type `T` found at `&data[n]`. -/
def do_get (c : HeterogeneousArray) (T : TypeInfo) (n : Nat) : Val :=
  c.data.read n T.size

/-- The `assert` of `get(Id off, Ids... offs)`, evaluated left to right. -/
def check_offsets (c : HeterogeneousArray) : List TypeInfo → List Nat → Except Fault Unit
  | T :: Rest, off :: offs =>
    match map_find T.id c.offsets with
    | none => .error .out_of_range
    | some recorded => if recorded = off then check_offsets c Rest offs else .error .assertion
  | _, _ => .ok ()

/-- `get<T, Rest...>(off, offs...)`, the overload that takes the offsets one by one. -/
def get_at (c : HeterogeneousArray) (Ts : List TypeInfo) (offs : List Nat) :
    Except Fault (List Val) :=
  if Ts.length ≠ offs.length ∨ Ts.any (fun T => T.is_empty) then .error .ill_formed
  else
    match check_offsets c Ts offs with
    | .error e => .error e
    | .ok _ => .ok (List.zipWith (fun T off => c.do_get T off) Ts offs)

/-- `get<Ts...>()`. -/
def get (c : HeterogeneousArray) (Ts : List TypeInfo) : Except Fault (List Val) :=
  if Ts.length = 0 ∨ Ts.any (fun T => T.is_empty) then .error .ill_formed
  else
    match c.offset_of Ts with
    | .error e => .error e
    | .ok offs => c.get_at Ts offs

/-- `get<Ts...>(const array<offset_t, N>& offs)`, the overload that takes an array. -/
def get_array (c : HeterogeneousArray) (Ts : List TypeInfo) (offs : List Nat) :
    Except Fault (List Val) :=
  if Ts.length ≠ offs.length ∨ Ts.any (fun T => T.is_empty) then .error .ill_formed
  else .ok (List.zipWith (fun T off => c.do_get T off) Ts offs)

/-- The variable template `all_types_different<T, Ts...>`:
`!disjunction_v<is_same<T, Ts>...> && (sizeof...(Ts) > 0) ? all_types_different<Ts...> : true`,
where `?:` binds weaker than `&&`. -/
def all_types_different : List TypeInfo → Bool
  | [] => true
  | T :: Ts =>
    if !(Ts.any (fun U => decide (T = U))) && decide (Ts.length > 0) then all_types_different Ts
    else true

/-- The two `static_assert`s of `do_allocate<Ts...>`. -/
def do_allocate_static (Ts : List TypeInfo) : Bool :=
  Ts.all (fun T => decide (T.align ≤ default_alignment)) && all_types_different Ts

/-- `do_allocate_1<T>()`; `base` is the address `data.data()` when it is called. -/
def do_allocate_1 (base : Nat) (c : HeterogeneousArray) (T : TypeInfo) :
    HeterogeneousArray × List Nat :=
  let alignment := T.align
  let size := T.size
  let n := c.data.size
  let ptr_end := to_size_t (base + n)
  let padding := padding_of ptr_end alignment
  ({ c with data := c.data.resize (to_size_t (n + padding + size)) },
    [to_offset_t (to_size_t (n + padding))])

/-- `do_allocate_n<Ts...>()`; `base` is the address `data.data()` when it is called. -/
def do_allocate_n (base : Nat) (c : HeterogeneousArray) (Ts : List TypeInfo) :
    HeterogeneousArray × List Nat :=
  let size_before := c.data.size
  let st := do_allocate_n_final base size_before Ts
  let size_after := to_size_t (size_before + st.to_allocate)
  ({ c with data := c.data.resize size_after }, st.output)

/-- `do_allocate<Ts...>()`. -/
def do_allocate (base : Nat) (c : HeterogeneousArray) (Ts : List TypeInfo) :
    Except Fault (HeterogeneousArray × List Nat) :=
  if !(do_allocate_static Ts) then .error .ill_formed
  else
    match Ts with
    | [T] => .ok (c.do_allocate_1 base T)
    | _ => .ok (c.do_allocate_n base Ts)

/-- `record_type(type, to_add)`. -/
def record_type (c : HeterogeneousArray) (type : Nat) (to_add : Nat) : HeterogeneousArray :=
  { c with offsets := map_emplace c.offsets type to_add }

/-- `record_dtor<T>(type)`. -/
def record_dtor (c : HeterogeneousArray) (T : TypeInfo) (type : Nat) : HeterogeneousArray :=
  if T.is_empty then { c with destructors := map_emplace c.destructors type .noop }
  else { c with destructors := map_emplace c.destructors type (.destroy_at T) }

/-- The fold `(offsets.emplace(type_id<Ts>(), offsets_to_insert[i++]), ...)` of `reserve`. -/
def emplace_offsets (m : List (Nat × Nat)) : List TypeInfo → List Nat → List (Nat × Nat)
  | T :: Ts, off :: offs => emplace_offsets (map_emplace m T.id off) Ts offs
  | _, _ => m

/-- `reserve<Ts...>()`. The `static_assert`s of `do_allocate` are checked when the call
is compiled, so they come before the `assert` on the store. -/
def reserve (base : Nat) (c : HeterogeneousArray) (Ts : List TypeInfo) :
    Except Fault (HeterogeneousArray × List Nat) :=
  if !(do_allocate_static Ts) then .error .ill_formed
  else if Ts.any (fun T => c.is_allocated T) then .error .assertion
  else
    match c.do_allocate base Ts with
    | .error e => .error e
    | .ok (c1, offsets_to_insert) =>
      .ok ({ c1 with offsets := emplace_offsets c1.offsets Ts offsets_to_insert },
        offsets_to_insert)

/-- `reserve(n_bytes, n_types, n_destructors)`: only capacities change. -/
def reserve_bytes (c : HeterogeneousArray) (_n_bytes _n_types _n_destructors : Nat) :
    HeterogeneousArray := c

/-- `do_construct<T>(n, args...)`: placement of `U{args...}`, here the object `v`, at
`&data[n]`; the result is the address of the new object, as an index into `data`. The
placement is defined when the object lies inside the arena (`within_arena`), as it does
in a slot that `reserve` has allotted. -/
def do_construct (c : HeterogeneousArray) (_T : TypeInfo) (n : Nat) (v : Val) :
    HeterogeneousArray × Nat :=
  ({ c with data := c.data.write n v }, n)

/-- `do_assign<T>(n, args...)`: `do_get<U>(n) = v`. The assignment is defined when the
object lies inside the arena (`within_arena`). -/
def do_assign (c : HeterogeneousArray) (_T : TypeInfo) (n : Nat) (v : Val) :
    HeterogeneousArray × Nat :=
  ({ c with data := c.data.write n v }, n)

/-- `construct_1<T>(offset, args...)`. -/
def construct_1 (c : HeterogeneousArray) (T : TypeInfo) (offset : Nat) (v : Val) :
    Except Fault (HeterogeneousArray × Nat) :=
  if T.is_empty then .error .ill_formed
  else if c.is_constructed T then .error .assertion
  else .ok ((c.record_dtor T T.id).do_construct T offset v)

/-- `construct_n(offs, args...)`: the braced list constructs left to right. -/
def construct_n (c : HeterogeneousArray) :
    List (TypeInfo × Val) → List Nat → Except Fault (HeterogeneousArray × List Nat)
  | [], _ => .ok (c, [])
  | (T, v) :: rest, offs =>
    match c.construct_1 T (offs.headD 0) v with
    | .error e => .error e
    | .ok (c1, r) =>
      match construct_n c1 rest offs.tail with
      | .error e => .error e
      | .ok (c2, rs) => .ok (c2, r :: rs)

/-- `construct<T>(args...)` and `construct(values...)`: each argument is a type with
the object to construct. The references returned are indices into `data`. -/
def construct (c : HeterogeneousArray) (args : List (TypeInfo × Val)) :
    Except Fault (HeterogeneousArray × List Nat) :=
  if args.any (fun a => a.1.is_empty) then .error .ill_formed
  else
    match args with
    | [(T, v)] =>
      match c.offset_of [T] with
      | .error e => .error e
      | .ok offs =>
        match c.construct_1 T (offs.headD 0) v with
        | .error e => .error e
        | .ok (c1, r) => .ok (c1, [r])
    | _ =>
      if args.length ≤ 1 then .error .ill_formed
      else
        match c.offset_of (args.map (fun a => a.1)) with
        | .error e => .error e
        | .ok offs => c.construct_n args offs

/-- `insert_1<T>(args...)`; an empty type returns nothing. -/
def insert_1 (base : Nat) (c : HeterogeneousArray) (T : TypeInfo) (v : Val) :
    Except Fault (HeterogeneousArray × List Nat) :=
  if T.is_empty then
    let tid := T.id
    .ok ((c.record_type tid 0).record_dtor T tid, [])
  else if !(do_allocate_static [T]) then .error .ill_formed
  else if c.contains [T] then .error .assertion
  else
    match c.reserve base [T] with
    | .error e => .error e
    | .ok (c1, n) =>
      match c1.construct_1 T (n.headD 0) v with
      | .error e => .error e
      | .ok (c2, r) => .ok (c2, [r])

/-- `insert_n(values...)`. -/
def insert_n (base : Nat) (c : HeterogeneousArray) (args : List (TypeInfo × Val)) :
    Except Fault (HeterogeneousArray × List Nat) :=
  let Ts := args.map (fun a => a.1)
  let all_empty := Ts.all (fun T => T.is_empty)
  let none_empty := Ts.all (fun T => !T.is_empty)
  if !(all_empty || none_empty) then .error .ill_formed
  else if all_empty then
    let c1 := Ts.foldl (fun c T => c.record_type T.id 0) c
    let c2 := Ts.foldl (fun c T => c.record_dtor T T.id) c1
    .ok (c2, [])
  else if !(do_allocate_static Ts) || decide (Ts.length ≤ 1) then .error .ill_formed
  else if Ts.any (fun T => c.contains [T]) then .error .assertion
  else
    match c.reserve base Ts with
    | .error e => .error e
    | .ok (c1, new_offsets) => c1.construct_n args new_offsets

/-- `insert<T>(args...)` and `insert(values...)`. -/
def insert (base : Nat) (c : HeterogeneousArray) (args : List (TypeInfo × Val)) :
    Except Fault (HeterogeneousArray × List Nat) :=
  match args with
  | [(T, v)] => c.insert_1 base T v
  | _ => c.insert_n base args

/-- `assign_1<T>(args...)`. -/
def assign_1 (c : HeterogeneousArray) (T : TypeInfo) (v : Val) :
    Except Fault (HeterogeneousArray × Nat) :=
  if T.is_empty then .error .ill_formed
  else if !(c.is_constructed T) then
    let r := map_index c.offsets T.id
    construct_1 { c with offsets := r.1 } T r.2 v
  else
    let r := map_index c.offsets T.id
    .ok (do_assign { c with offsets := r.1 } T r.2 v)

/-- `assign_n(args...)`: the braced list assigns left to right. -/
def assign_n (c : HeterogeneousArray) :
    List (TypeInfo × Val) → Except Fault (HeterogeneousArray × List Nat)
  | [] => .ok (c, [])
  | (T, v) :: rest =>
    match c.assign_1 T v with
    | .error e => .error e
    | .ok (c1, r) =>
      match assign_n c1 rest with
      | .error e => .error e
      | .ok (c2, rs) => .ok (c2, r :: rs)

/-- `assign<T>(args...)` and `assign(values...)`. -/
def assign (c : HeterogeneousArray) (args : List (TypeInfo × Val)) :
    Except Fault (HeterogeneousArray × List Nat) :=
  match args with
  | [(T, v)] =>
    match c.assign_1 T v with
    | .error e => .error e
    | .ok (c1, r) => .ok (c1, [r])
  | _ => if args.length ≤ 1 then .error .ill_formed else c.assign_n args

/-- `insert_or_assign_1<T>(args...)`. Both branches are instantiated, so an empty type
is rejected by the `static_assert` of `do_construct`. -/
def insert_or_assign_1 (base : Nat) (c : HeterogeneousArray) (T : TypeInfo) (v : Val) :
    Except Fault (HeterogeneousArray × List Nat) :=
  if T.is_empty || !(do_allocate_static [T]) then .error .ill_formed
  else if !(c.is_allocated T) then c.insert base [(T, v)]
  else c.assign [(T, v)]

/-- `insert_or_assign<T>(args...)` and `insert_or_assign(values...)`: one
`insert_or_assign_1` per argument, left to right. -/
def insert_or_assign (base : Nat) (c : HeterogeneousArray) :
    List (TypeInfo × Val) → Except Fault (HeterogeneousArray × List Nat)
  | [] => .ok (c, [])
  | (T, v) :: rest =>
    match c.insert_or_assign_1 base T v with
    | .error e => .error e
    | .ok (c1, r) =>
      match insert_or_assign base c1 rest with
      | .error e => .error e
      | .ok (c2, rs) => .ok (c2, r ++ rs)

/-- A call of a stored `destructor_t` on the store. The destructor of the object runs,
the bytes of the arena stay as they are. -/
def invoke (c : HeterogeneousArray) : destructor_t → Except Fault Unit
  | .noop => .ok ()
  | .destroy_at U =>
    match c.get [U] with
    | .error e => .error e
    | .ok _ => .ok ()

/-- `do_destruct<T>()`; with the store it returns the type ids whose stored destructor
it has called. -/
def do_destruct (c : HeterogeneousArray) (T : TypeInfo) :
    Except Fault (HeterogeneousArray × List Nat) :=
  if !(c.contains [T]) then .error .assertion
  else
    let type_index := T.id
    if !T.trivially_destructible then
      match map_find type_index c.destructors with
      | none => .error .out_of_range
      | some d =>
        match c.invoke d with
        | .error e => .error e
        | .ok _ =>
          .ok ({ c with destructors := map_erase c.destructors type_index }, [type_index])
    else .ok ({ c with destructors := map_erase c.destructors type_index }, [])

/-- `destruct<Ts...>()`: the fold of `do_destruct<Ts>()` over the comma operator. -/
def destruct (c : HeterogeneousArray) :
    List TypeInfo → Except Fault (HeterogeneousArray × List Nat)
  | [] => .ok (c, [])
  | T :: Ts =>
    match c.do_destruct T with
    | .error e => .error e
    | .ok (c1, called) =>
      match destruct c1 Ts with
      | .error e => .error e
      | .ok (c2, called2) => .ok (c2, called ++ called2)

/-- The loop `for (auto [tid, destructor] : destructors) destructor(*this);` of `clear`
and of the class destructor: the type ids whose stored destructor is called. -/
def invoke_all (c : HeterogeneousArray) :
    List (Nat × destructor_t) → Except Fault (List Nat)
  | [] => .ok []
  | (tid, destructor) :: rest =>
    match c.invoke destructor with
    | .error e => .error e
    | .ok _ =>
      match invoke_all c rest with
      | .error e => .error e
      | .ok called => .ok (tid :: called)

/-- `clear()`; with the store it returns the type ids whose stored destructor it has
called. -/
def clear (c : HeterogeneousArray) : Except Fault (HeterogeneousArray × List Nat) :=
  match c.invoke_all c.destructors with
  | .error e => .error e
  | .ok called => .ok ({ offsets := [], data := c.data.clear, destructors := [] }, called)

end HeterogeneousArray

/-! ## Predicates used in the proofs -/

/-- The shape of the loop state: `output` has `N` cells, the pending indices are
distinct and below `N`. -/
def AllocState.shaped (N : Nat) (st : AllocState) : Prop :=
  st.output.length = N ∧ st.indices.Nodup ∧ ∀ i ∈ st.indices, i < N

/-- The alignment of a type is one the store accepts: a power of two, at most
`default_alignment` (the first `static_assert` of `do_allocate`). -/
def valid_align (a : Nat) : Prop :=
  (∃ k, a = 2 ^ k) ∧ a ≤ default_alignment

/-- The loop invariant behind the alignment of the offsets of `do_allocate_n`. -/
def AllocState.aligned (alignments : List Nat) (base size_before : Nat)
    (st : AllocState) : Prop :=
  st.shaped alignments.length ∧
  st.ptr_end = to_size_t (base + (size_before + st.to_allocate)) ∧
  ∀ i, i < alignments.length → i ∉ st.indices →
    st.output.getD i 0 % alignments.getD i 0 = 0

/-! ## Concrete types and stores used in the examples -/

/-- The store an operation leaves, the store itself when the operation faults. -/
def store_after {α : Type} (c : HeterogeneousArray)
    (r : Except Fault (HeterogeneousArray × α)) : HeterogeneousArray :=
  match r with
  | .ok (c1, _) => c1
  | .error _ => c

/-- What an operation returns, `none` when it faults. -/
def returned {α : Type} (r : Except Fault (HeterogeneousArray × α)) : Option α :=
  match r with
  | .ok (_, x) => some x
  | .error _ => none

/-- The type `char`. -/
def char_t : TypeInfo :=
  { id := 0, size := 1, align := 1, is_empty := false, trivially_destructible := true }

/-- The type `int`. -/
def int_t : TypeInfo :=
  { id := 1, size := 4, align := 4, is_empty := false, trivially_destructible := true }

/-- The type `double`. -/
def double_t : TypeInfo :=
  { id := 2, size := 8, align := 8, is_empty := false, trivially_destructible := true }

/-- The type `bool`. -/
def bool_t : TypeInfo :=
  { id := 3, size := 1, align := 1, is_empty := false, trivially_destructible := true }

/-- The `struct A` of the tests: an `int`, a `char` and a user-provided destructor. -/
def A_t : TypeInfo :=
  { id := 4, size := 8, align := 4, is_empty := false, trivially_destructible := false }

/-- The `struct alignas(8) C` of the tests. -/
def C_t : TypeInfo :=
  { id := 5, size := 8, align := 8, is_empty := false, trivially_destructible := true }

/-- A type of `2 ^ 32 - 4` bytes, such as `struct Big { char b[4294967292]; }`. -/
def big_t : TypeInfo :=
  { id := 6, size := 2 ^ 32 - 4, align := 1, is_empty := false,
    trivially_destructible := true }

/-- The loop invariant behind the layout of `do_allocate_n` on an arena that stays
below `B` bytes: every placed type lies in `[size_before, size_before + to_allocate)`,
two placed types do not overlap, and the last placed type ends at
`size_before + to_allocate`. -/
def AllocState.packed (alignments sizes : List Nat) (base size_before B : Nat)
    (st : AllocState) : Prop :=
  st.shaped alignments.length ∧
  st.ptr_end = to_size_t (base + (size_before + st.to_allocate)) ∧
  size_before + st.to_allocate +
    (st.indices.map (fun i => sizes.getD i 0 + alignments.getD i 0)).sum ≤ B ∧
  (∀ i, i < alignments.length → i ∉ st.indices →
    size_before ≤ st.output.getD i 0 ∧
      st.output.getD i 0 + sizes.getD i 0 ≤ size_before + st.to_allocate) ∧
  (∀ i j, i < alignments.length → j < alignments.length → i ∉ st.indices →
    j ∉ st.indices → i ≠ j →
      st.output.getD i 0 + sizes.getD i 0 ≤ st.output.getD j 0 ∨
        st.output.getD j 0 + sizes.getD j 0 ≤ st.output.getD i 0) ∧
  (st.indices.length < alignments.length →
    ∃ i, i < alignments.length ∧ i ∉ st.indices ∧
      st.output.getD i 0 + sizes.getD i 0 = size_before + st.to_allocate)

/-- The store after `insert<int>(7)` on a fresh store. -/
def int_store : HeterogeneousArray :=
  store_after HeterogeneousArray.empty
    (HeterogeneousArray.empty.insert 0 [(int_t, [7, 0, 0, 0])])

/-- The store after `insert<int>(7)` and `reserve<Big>()` on a fresh store: its arena
has `2 ^ 32` bytes. -/
def int_big_store : HeterogeneousArray :=
  store_after int_store (int_store.reserve 0 [big_t])

/-- The store after `insert<char>('a')` on a fresh store. -/
def char_store : HeterogeneousArray :=
  store_after HeterogeneousArray.empty
    (HeterogeneousArray.empty.insert 0 [(char_t, [97])])

/-- Two states of the loop of `do_allocate_n` that differ at most in `ptr_end`, and
there by a multiple of 64. -/
def AllocState.same_layout (N : Nat) (st st1 : AllocState) : Prop :=
  st.shaped N ∧ st1.output = st.output ∧ st1.to_allocate = st.to_allocate ∧
    st1.indices = st.indices ∧ st1.ptr_end % 64 = st.ptr_end % 64

/-- The least padding `p` that makes `e + p` a multiple of the power of two `a`. -/
def aligned_padding (e a : Nat) : Nat := (a - e % a) % a

/-- Every type in the destructor registry is in the offset directory. -/
def HeterogeneousArray.registered_allocated (c : HeterogeneousArray) : Prop :=
  ∀ k, map_count c.destructors k = true → map_count c.offsets k = true

/-- The arguments of a call are well typed: every type is one of the program's types
`U`, and every object has the size of its type. -/
def well_typed (U : TypeInfo → Prop) (args : List (TypeInfo × Val)) : Prop :=
  ∀ a ∈ args, U a.1 ∧ a.2.length = a.1.size

/-- The stores a program whose types are `U` reaches from the default-constructed store
through the public operations that return: `reserve<Ts...>()`, `construct`, `insert`,
`assign`, `insert_or_assign`, `destruct<Ts...>()` and `clear()`. The arena's base
address is a multiple of 64 at every call (`aligned_allocator<std::byte, 64>`).
`reserve(n_bytes, ...)` leaves the store as it is, and a move leaves the target with
the store and the source empty. -/
inductive Reachable (U : TypeInfo → Prop) : HeterogeneousArray → Prop
  | empty : Reachable U HeterogeneousArray.empty
  | reserve {c c1 : HeterogeneousArray} {base : Nat} {Ts : List TypeInfo} {r : List Nat} :
      Reachable U c → base % 64 = 0 → (∀ T ∈ Ts, U T) →
      c.reserve base Ts = .ok (c1, r) → Reachable U c1
  | construct {c c1 : HeterogeneousArray} {args : List (TypeInfo × Val)} {r : List Nat} :
      Reachable U c → well_typed U args →
      c.construct args = .ok (c1, r) → Reachable U c1
  | insert {c c1 : HeterogeneousArray} {base : Nat} {args : List (TypeInfo × Val)}
      {r : List Nat} :
      Reachable U c → base % 64 = 0 → well_typed U args →
      c.insert base args = .ok (c1, r) → Reachable U c1
  | assign {c c1 : HeterogeneousArray} {args : List (TypeInfo × Val)} {r : List Nat} :
      Reachable U c → well_typed U args →
      c.assign args = .ok (c1, r) → Reachable U c1
  | insert_or_assign {c c1 : HeterogeneousArray} {base : Nat}
      {args : List (TypeInfo × Val)} {r : List Nat} :
      Reachable U c → base % 64 = 0 → well_typed U args →
      c.insert_or_assign base args = .ok (c1, r) → Reachable U c1
  | destruct {c c1 : HeterogeneousArray} {Ts : List TypeInfo} {called : List Nat} :
      Reachable U c → (∀ T ∈ Ts, U T) →
      c.destruct Ts = .ok (c1, called) → Reachable U c1
  | clear {c c1 : HeterogeneousArray} {called : List Nat} :
      Reachable U c → c.clear = .ok (c1, called) → Reachable U c1

/-- The object of type `T` at `&data[n]` lies inside the arena. Only then are
`new(&data[n]) U{...}` of `do_construct` and the assignment of `do_assign` defined. -/
def HeterogeneousArray.within_arena (c : HeterogeneousArray) (T : TypeInfo) (n : Nat) :
    Prop :=
  n + T.size ≤ c.data.size

instance within_arena_decidable (c : HeterogeneousArray) (T : TypeInfo) (n : Nat) :
    Decidable (c.within_arena T n) :=
  inferInstanceAs (Decidable (n + T.size ≤ c.data.size))

/-- The store after the `insert` of the `double` `vd` on a fresh store. -/
def double_store (vd : Val) : HeterogeneousArray :=
  { offsets := map_emplace HeterogeneousArray.empty.offsets double_t.id 0
    data := (HeterogeneousArray.empty.data.resize 8).write 0 vd
    destructors := map_emplace HeterogeneousArray.empty.destructors double_t.id
      (destructor_t.destroy_at double_t) }

/-- The store after the `insert` of the `double` `vd` and then of the `int` `vi` on a
fresh store. -/
def double_int_store (vd vi : Val) : HeterogeneousArray :=
  { offsets := map_emplace (double_store vd).offsets int_t.id 8
    data := ((double_store vd).data.resize 12).write 8 vi
    destructors := map_emplace (double_store vd).destructors int_t.id
      (destructor_t.destroy_at int_t) }

/-! ## `has` -/

/-- What `has<T>()` returns: a `bool` for an empty type, a `U*` otherwise, which is the
address of the object as an index into `data`, or `nullptr` (`none`). -/
inductive has_result
  /-- The `bool` returned for an empty type. -/
  | flag (present : Bool)
  /-- The pointer returned for a type that is not empty. -/
  | pointer (p : Option Nat)
deriving DecidableEq

/-- `has<T>()`. -/
def HeterogeneousArray.has (c : HeterogeneousArray) (T : TypeInfo) : Except Fault has_result :=
  let tid := T.id
  if T.is_empty then .ok (.flag (c.contains [T]))
  else if c.contains [T] then
    match map_find tid c.offsets with
    | none => .error .out_of_range
    | some off =>
      match c.get_at [T] [off] with
      | .error e => .error e
      | .ok _ => .ok (.pointer (some off))
  else .ok (.pointer none)

/-! ## The destructor registry along a run -/

/-- The function pointer `record_dtor<T>` stores for the type `T`. -/
def dtor_of (T : TypeInfo) : destructor_t :=
  if T.is_empty then .noop else .destroy_at T

/-- The registry `d1` comes from the registry `d` by steps of `record_dtor<T>(type_id<T>())`,
of `erase` and of `clear`: the only writes to `destructors` in the class. -/
inductive registry_evolves :
    List (Nat × destructor_t) → List (Nat × destructor_t) → Prop
  | refl (d : List (Nat × destructor_t)) : registry_evolves d d
  | record {d d1 : List (Nat × destructor_t)} (T : TypeInfo) :
      registry_evolves d d1 → registry_evolves d (map_emplace d1 T.id (dtor_of T))
  | erase {d d1 : List (Nat × destructor_t)} (k : Nat) :
      registry_evolves d d1 → registry_evolves d (map_erase d1 k)
  | clear {d d1 : List (Nat × destructor_t)} :
      registry_evolves d d1 → registry_evolves d []

/-- The registry holds one entry per type id, and the entry of a type id is the
destructor `record_dtor` stores for a type with that id. -/
def registry_ok (d : List (Nat × destructor_t)) : Prop :=
  (d.map (fun e => e.1)).Nodup ∧ ∀ e ∈ d, ∃ T : TypeInfo, T.id = e.1 ∧ e.2 = dtor_of T

/-- The fault of an operation, `none` when it returns. -/
def fault_of {α : Type} (r : Except Fault α) : Option Fault :=
  match r with
  | .ok _ => none
  | .error e => some e

/-- The type `float`. -/
def float_t : TypeInfo :=
  { id := 8, size := 4, align := 4, is_empty := false, trivially_destructible := true }

/-- The store after `insert<int>(7)` and `assign<float>(1.5f)` on a fresh store: `float`
was never reserved, and the arena has the four bytes of the `int`. -/
def int_float_store : HeterogeneousArray :=
  store_after int_store (int_store.assign [(float_t, [0, 0, 192, 63])])

/-- The empty `struct D` of the test `empty_type`. -/
def D_t : TypeInfo :=
  { id := 9, size := 1, align := 1, is_empty := true, trivially_destructible := true }

/-- The reservation of the types `Ts` on the store `c` keeps the arena within `2 ^ 32`
bytes, the range of `offset_t`, whatever padding it inserts. -/
def fits (c : HeterogeneousArray) (Ts : List TypeInfo) : Prop :=
  c.data.size + (Ts.map (fun T => T.size + T.align)).sum ≤ 2 ^ 32

/-- The arena invariant for the types `U` of a program: the byte range of every type
that is not empty and has an entry in the offset directory lies within the arena, and
the byte ranges of two such types do not overlap. -/
def arena_invariant (U : TypeInfo → Prop) (c : HeterogeneousArray) : Prop :=
  (∀ T off, U T → T.is_empty = false → map_find T.id c.offsets = some off →
    off + T.size ≤ c.data.size) ∧
  ∀ T V off off1, U T → U V → T.is_empty = false → V.is_empty = false → T ≠ V →
    map_find T.id c.offsets = some off → map_find V.id c.offsets = some off1 →
    off + T.size ≤ off1 ∨ off1 + V.size ≤ off

/-- The types `U` of a program: their alignments are powers of two of at most 64, and
two of them with the same `type_id` are the same type. -/
def program_types (U : TypeInfo → Prop) : Prop :=
  (∀ T, U T → valid_align T.align) ∧ ∀ T V, U T → U V → T.id = V.id → T = V

/-- The writes of the operations to the offset directory and to the arena length, from
the store `c` to the store `c1`: `Rs` lists the types given to `reserve`, `Is` the types
that `offsets[type_id<T>()]` of `assign_1` has inserted with the offset 0. A `frame`
step leaves both as they are, a `record_type` step is `record_type(tid, 0)` for an empty
type. -/
inductive arena_steps (U : TypeInfo → Prop) (c : HeterogeneousArray) :
    List TypeInfo → List TypeInfo → HeterogeneousArray → Prop
  | refl : arena_steps U c [] [] c
  | frame {c1 c2 : HeterogeneousArray} {Rs Is : List TypeInfo} :
      arena_steps U c Rs Is c1 → c2.offsets = c1.offsets → c2.data.size = c1.data.size →
      arena_steps U c Rs Is c2
  | reserve {c1 c2 : HeterogeneousArray} {Rs Is : List TypeInfo} {base : Nat}
      {Ts : List TypeInfo} {r : List Nat} :
      arena_steps U c Rs Is c1 → (∀ T ∈ Ts, U T) → c1.reserve base Ts = .ok (c2, r) →
      arena_steps U c (Rs ++ Ts) Is c2
  | record_type {c1 c2 : HeterogeneousArray} {Rs Is : List TypeInfo} {D : TypeInfo} :
      arena_steps U c Rs Is c1 → U D → D.is_empty = true →
      c2.offsets = map_emplace c1.offsets D.id 0 → c2.data.size = c1.data.size →
      arena_steps U c Rs Is c2
  | index {c1 c2 : HeterogeneousArray} {Rs Is : List TypeInfo} {T : TypeInfo} :
      arena_steps U c Rs Is c1 → U T → c1.is_allocated T = false →
      c2.offsets = (T.id, 0) :: c1.offsets → c2.data.size = c1.data.size →
      arena_steps U c Rs (Is ++ [T]) c2

/-- The stores a program whose types are `U` reaches from the default-constructed store
through the public operations that return, when every `reserve`, `insert` and
`insert_or_assign` keeps the arena within `2 ^ 32` bytes (`fits`) and `assign` is only
called on types that are reserved. -/
inductive ReachableBounded (U : TypeInfo → Prop) : HeterogeneousArray → Prop
  | empty : ReachableBounded U HeterogeneousArray.empty
  | reserve {c c1 : HeterogeneousArray} {base : Nat} {Ts : List TypeInfo} {r : List Nat} :
      ReachableBounded U c → base % 64 = 0 → (∀ T ∈ Ts, U T) → fits c Ts →
      c.reserve base Ts = .ok (c1, r) → ReachableBounded U c1
  | construct {c c1 : HeterogeneousArray} {args : List (TypeInfo × Val)} {r : List Nat} :
      ReachableBounded U c → well_typed U args →
      c.construct args = .ok (c1, r) → ReachableBounded U c1
  | insert {c c1 : HeterogeneousArray} {base : Nat} {args : List (TypeInfo × Val)}
      {r : List Nat} :
      ReachableBounded U c → base % 64 = 0 → well_typed U args →
      fits c (args.map (fun a => a.1)) →
      c.insert base args = .ok (c1, r) → ReachableBounded U c1
  | assign {c c1 : HeterogeneousArray} {args : List (TypeInfo × Val)} {r : List Nat} :
      ReachableBounded U c → well_typed U args →
      (∀ a ∈ args, c.is_allocated a.1 = true) →
      c.assign args = .ok (c1, r) → ReachableBounded U c1
  | insert_or_assign {c c1 : HeterogeneousArray} {base : Nat}
      {args : List (TypeInfo × Val)} {r : List Nat} :
      ReachableBounded U c → base % 64 = 0 → well_typed U args →
      fits c (args.map (fun a => a.1)) →
      c.insert_or_assign base args = .ok (c1, r) → ReachableBounded U c1
  | destruct {c c1 : HeterogeneousArray} {Ts : List TypeInfo} {called : List Nat} :
      ReachableBounded U c → (∀ T ∈ Ts, U T) →
      c.destruct Ts = .ok (c1, called) → ReachableBounded U c1
  | clear {c c1 : HeterogeneousArray} {called : List Nat} :
      ReachableBounded U c → c.clear = .ok (c1, called) → ReachableBounded U c1

/-- The store after `insert<int>(7)`, `reserve<Big>()` and `insert<char>('a')` on a
fresh store. -/
def int_big_char_store : HeterogeneousArray :=
  store_after int_big_store (int_big_store.insert 0 [(char_t, [97])])

/-- The store after `insert<int>(7)` and `insert<double>(v)` on a fresh store. -/
def int_double_store : HeterogeneousArray :=
  store_after int_store (int_store.insert 64 [(double_t, [1, 2, 3, 4, 5, 6, 7, 8])])

instance fits_decidable (c : HeterogeneousArray) (Ts : List TypeInfo) :
    Decidable (fits c Ts) :=
  inferInstanceAs (Decidable (c.data.size + (Ts.map (fun T => T.size + T.align)).sum ≤ 2 ^ 32))

/-- Modelled from the spec: the move of a `std::unordered_map`, with the map of the
target and the map left in the source. The target holds the entries and the source is
left empty ("the moved-from store's tables and arena become empty"), as the test
`move_container` expects. -/
def move_map {V : Type} (m : List (Nat × V)) : List (Nat × V) × List (Nat × V) :=
  (m, [])

/-- Modelled from the spec: the move of the `std::vector` `data`, with the vector of the
target and the vector left in the source. The target takes the buffer with its bytes, the
source is left with no element and no buffer (`a.data.capacity() == 0` in the test
`move_container`). -/
def move_vector (d : Arena) : Arena × Arena :=
  (d, { size := 0, mem := fun _ => 0 })

/-- `HeterogeneousArray(HeterogeneousArray&&) = default`: the members are moved one by
one. It returns the new store and the source as the move leaves it. -/
def HeterogeneousArray.move_construct (a : HeterogeneousArray) :
    HeterogeneousArray × HeterogeneousArray :=
  let offsets := move_map a.offsets
  let data := move_vector a.data
  let destructors := move_map a.destructors
  ({ offsets := offsets.1, data := data.1, destructors := destructors.1 },
    { offsets := offsets.2, data := data.2, destructors := destructors.2 })

/-- `~HeterogeneousArray()`: the type ids whose stored destructor it calls. -/
def HeterogeneousArray.destructor (c : HeterogeneousArray) : Except Fault (List Nat) :=
  c.invoke_all c.destructors

/-- Arithmetic of `type_id_t`, `std::uint32_t`. -/
def to_type_id_t (x : Nat) : Nat := x % 2 ^ 32

/-- A type as `type_id<T>()` receives it: a value type, here its name, with its `const`,
`volatile` and reference qualifiers. -/
structure QualType where
  /-- The value type: the type without qualifiers at the top level. -/
  name : Nat
  /-- Whether the type is `const`. -/
  is_const : Bool
  /-- Whether the type is `volatile`. -/
  is_volatile : Bool
  /-- Whether the type is a reference. -/
  is_reference : Bool
  deriving DecidableEq

/-- `rm_cvref_t<T>`: `std::remove_cv_t<std::remove_reference_t<T>>`. -/
def rm_cvref_t (T : QualType) : QualType :=
  { name := T.name, is_const := false, is_volatile := false, is_reference := false }

/-- The class `TypeCounter`: its static counter `i`, and the variables `id<T>` that have
been initialised, each value type with its value. -/
structure TypeCounter where
  /-- The static member `i`. -/
  i : Nat
  /-- The initialised specialisations of the variable template `id`. -/
  id : List (Nat × Nat)

/-- The initialisation of `TypeCounter::id<T>`, `static inline const auto id = i++;`.
A variable is initialised once: nothing happens when `id<T>` is initialised already. -/
def TypeCounter.init_id (tc : TypeCounter) (T : Nat) : TypeCounter :=
  if map_count tc.id T then tc
  else { i := to_type_id_t (tc.i + 1), id := (T, tc.i) :: tc.id }

/-- The state of `TypeCounter` after the variables `id<T>` of the value types `Ts` are
initialised, in this order, from `i = 0`. -/
def TypeCounter.run (Ts : List Nat) : TypeCounter :=
  Ts.foldl TypeCounter.init_id { i := 0, id := [] }

/-- `type_id<T>()`: the value of `TypeCounter::id<rm_cvref_t<T>>`, `none` while that
variable is not initialised. -/
def type_id (tc : TypeCounter) (T : QualType) : Option Nat :=
  map_find (rm_cvref_t T).name tc.id

/-- The state of `TypeCounter` is consistent: `i` is the number of initialised
variables `id<T>` in 32-bit arithmetic, the values handed out are `0, 1, 2, ...` in
32-bit arithmetic, the last one first in the list, and every value type has one
variable. -/
def TypeCounter.consistent (tc : TypeCounter) : Prop :=
  tc.i = to_type_id_t tc.id.length ∧
  tc.id.map (fun e => e.2) = (List.range tc.id.length).reverse.map to_type_id_t ∧
  (tc.id.map (fun e => e.1)).Nodup

/-- The state of `do_allocate_n<Ts...>()` after `k` iterations of its loop, or when it
has left the loop if that takes fewer iterations. -/
def do_allocate_n_after (base size_before : Nat) (Ts : List TypeInfo) (k : Nat) :
    AllocState :=
  do_allocate_n_loop (Ts.map (fun T => T.align)) (Ts.map (fun T => T.size)) size_before k
    (do_allocate_n_init base size_before Ts.length)

/-- The reservation of the types `Ts` on the store `c` does not wrap the 64-bit
arithmetic of `size_t`, whatever padding it inserts. -/
def no_wrap (c : HeterogeneousArray) (Ts : List TypeInfo) : Prop :=
  c.data.size + (Ts.map (fun T => T.size + T.align)).sum < 2 ^ 64

instance no_wrap_decidable (c : HeterogeneousArray) (Ts : List TypeInfo) :
    Decidable (no_wrap c Ts) :=
  inferInstanceAs (Decidable (c.data.size + (Ts.map (fun T => T.size + T.align)).sum < 2 ^ 64))

/-- Every entry of the offset directory of `c` is an entry of the offset directory of
`c1`, with the same offset. -/
def directory_kept (c c1 : HeterogeneousArray) : Prop :=
  ∀ k off, map_find k c.offsets = some off → map_find k c1.offsets = some off

/-- The loop invariant behind the growth of the arena in `do_allocate_n`: the bytes
allotted and the sizes and alignments of the pending types stay within `B`. -/
def AllocState.bounded (alignments sizes : List Nat) (B : Nat) (st : AllocState) : Prop :=
  st.shaped alignments.length ∧
  st.to_allocate + (st.indices.map (fun i => sizes.getD i 0 + alignments.getD i 0)).sum ≤ B

/-- A type of `2 ^ 63 - 2` bytes, `struct H1 { char a[(1ull << 63) - 2]; }`. -/
def huge1_t : TypeInfo :=
  { id := 10, size := 2 ^ 63 - 2, align := 1, is_empty := false,
    trivially_destructible := true }

/-- A second type of `2 ^ 63 - 2` bytes. -/
def huge2_t : TypeInfo :=
  { id := 11, size := 2 ^ 63 - 2, align := 1, is_empty := false,
    trivially_destructible := true }

/-- Conversion to `std::uint8_t`. -/
def to_uint8_t (x : Int) : Nat := (x % 256).toNat

/-- `v.resize(n, x)` on a `std::vector` of bytes. -/
def vector_resize (l : List Nat) (n x : Nat) : List Nat :=
  l.take n ++ List.replicate (n - l.length) x

/-- The struct `HeterogeneousContainer_SparseSet1` of `heco_1_sparseset_stable.h`: its
data members. An element of `data` is `any { tag, ptr }`, here the tag and the object. -/
structure HeterogeneousContainer_SparseSet1 where
  /-- The member `sparse`, a vector of `std::uint8_t`. -/
  sparse : List Nat
  /-- The member `data`. -/
  data : List (Nat × Val)

/-- The struct `HeterogeneousContainer_SparseSet2` of `heco_1_sparseset_stable.h`: its
data members. An element of `data` is the object its pointer owns. -/
structure HeterogeneousContainer_SparseSet2 where
  /-- The member `sparse`, a vector of `std::uint8_t`. -/
  sparse : List Nat
  /-- The member `tags`. -/
  tags : List Nat
  /-- The member `data`. -/
  data : List Val

namespace HeterogeneousContainer_SparseSet1

/-- The default-constructed container. -/
def empty : HeterogeneousContainer_SparseSet1 :=
  { sparse := [], data := [] }

/-- `contains<Ts...>()`:
`((sparse.size() > type_id<Ts>() && sparse[type_id<Ts>()] != index(-1)) && ...)`, where
`index(-1)` is the `std::uint8_t` 255. -/
def contains (c : HeterogeneousContainer_SparseSet1) (Ts : List TypeInfo) : Bool :=
  Ts.all (fun T => decide (c.sparse.length > T.id) &&
    decide (c.sparse.getD T.id 0 ≠ to_uint8_t (-1)))

/-- `insert_1<T>(args...)`; `id + 1` is computed in `std::uint32_t`. -/
def insert_1 (c : HeterogeneousContainer_SparseSet1) (T : TypeInfo) (v : Val) :
    HeterogeneousContainer_SparseSet1 :=
  let id := T.id
  let data := c.data ++ [(id, v)]
  let sparse :=
    if id ≥ c.sparse.length then
      vector_resize c.sparse (to_type_id_t (id + 1)) (to_uint8_t (-1))
    else c.sparse
  { sparse := sparse.set id (to_uint8_t ((data.length : Int) - 1)), data := data }

end HeterogeneousContainer_SparseSet1

namespace HeterogeneousContainer_SparseSet2

/-- The default-constructed container. -/
def empty : HeterogeneousContainer_SparseSet2 :=
  { sparse := [], tags := [], data := [] }

/-- `contains<Ts...>()`:
`((sparse.size() > type_id<Ts>() && sparse[type_id<Ts>()] != -1) && ...)`. The
`std::uint8_t` cell is promoted to `int` for the comparison with the `int` `-1`. -/
def contains (c : HeterogeneousContainer_SparseSet2) (Ts : List TypeInfo) : Bool :=
  Ts.all (fun T => decide (c.sparse.length > T.id) &&
    decide ((c.sparse.getD T.id 0 : Int) ≠ -1))

/-- `insert_1<T>(args...)`; `id + 1` is computed in `std::uint32_t`. -/
def insert_1 (c : HeterogeneousContainer_SparseSet2) (T : TypeInfo) (v : Val) :
    HeterogeneousContainer_SparseSet2 :=
  let id := T.id
  let data := c.data ++ [v]
  let tags := c.tags ++ [id]
  let sparse :=
    if id ≥ c.sparse.length then
      vector_resize c.sparse (to_type_id_t (id + 1)) (to_uint8_t (-1))
    else c.sparse
  { sparse := sparse.set id (to_uint8_t ((data.length : Int) - 1)), tags := tags,
    data := data }

end HeterogeneousContainer_SparseSet2

/-! ## Arithmetic of the padding -/

/-- The alignments the store accepts: powers of two up to `default_alignment`. -/
theorem align_cases {a : Nat} (hpow : ∃ k, a = 2 ^ k) (hle : a ≤ default_alignment) :
    a = 1 ∨ a = 2 ∨ a = 4 ∨ a = 8 ∨ a = 16 ∨ a = 32 ∨ a = 64 := by
  obtain ⟨k, rfl⟩ := hpow
  have hk : k < 7 := by
    by_contra h
    have h7 : 7 ≤ k := by omega
    have : 2 ^ 7 ≤ 2 ^ k := Nat.pow_le_pow_right (by norm_num) h7
    simp [default_alignment] at hle
    omega
  interval_cases k <;> simp

theorem and_mask (x k : Nat) (m : Nat) (hm : m = 2 ^ k - 1) : x &&& m = x % 2 ^ k := by
  subst hm; exact Nat.and_pow_two_sub_one_eq_mod x k

theorem padding_of_eq {a : Nat} (hpow : ∃ k, a = 2 ^ k) (hle : a ≤ default_alignment)
    (ptr : Nat) : padding_of ptr a = (a - ptr % a) % a := by
  rcases align_cases hpow hle with h | h | h | h | h | h | h <;> subst h
  · simp [padding_of, to_size_t, Nat.mod_one]
  · rw [padding_of, and_mask _ 1 _ (by simp [to_size_t])]; simp only [to_size_t]; omega
  · rw [padding_of, and_mask _ 2 _ (by simp [to_size_t])]; simp only [to_size_t]; omega
  · rw [padding_of, and_mask _ 3 _ (by simp [to_size_t])]; simp only [to_size_t]; omega
  · rw [padding_of, and_mask _ 4 _ (by simp [to_size_t])]; simp only [to_size_t]; omega
  · rw [padding_of, and_mask _ 5 _ (by simp [to_size_t])]; simp only [to_size_t]; omega
  · rw [padding_of, and_mask _ 6 _ (by simp [to_size_t])]; simp only [to_size_t]; omega


theorem padding_of_base {a : Nat} (hpow : ∃ k, a = 2 ^ k) (hle : a ≤ default_alignment)
    {base : Nat} (hbase : base % 64 = 0) (n : Nat) :
    padding_of (to_size_t (base + n)) a = (a - n % a) % a := by
  rw [padding_of_eq hpow hle]
  rcases align_cases hpow hle with h | h | h | h | h | h | h <;> subst h <;>
    simp only [to_size_t] <;> omega

theorem foldl_min_spec (key : Nat → Nat) (rest : List Nat) (first : Nat) :
    (rest.foldl (fun smallest x => if decide (key x < key smallest) then x else smallest) first
        ∈ first :: rest) ∧
      ∀ j ∈ first :: rest,
        key (rest.foldl (fun smallest x => if decide (key x < key smallest) then x else smallest)
          first) ≤ key j := by
  induction rest generalizing first with
  | nil => simp
  | cons y ys ih =>
    simp only [List.foldl_cons]
    have hacc : (key (if decide (key y < key first) then y else first) ≤ key first ∧
        key (if decide (key y < key first) then y else first) ≤ key y) ∧
        ((if decide (key y < key first) then y else first) = first ∨
          (if decide (key y < key first) then y else first) = y) := by
      by_cases hc : key y < key first
      · simp [hc]; omega
      · simp [hc]; omega
    generalize (if decide (key y < key first) then y else first) = acc at hacc
    obtain ⟨hmem, hle⟩ := ih acc
    have hacc_le := hle acc (List.mem_cons_self _ _)
    constructor
    · rcases List.mem_cons.1 hmem with h | h
      · rw [h]; rcases hacc.2 with h2 | h2 <;> simp [h2]
      · exact List.mem_cons_of_mem _ (List.mem_cons_of_mem _ h)
    · intro j hj
      rcases List.mem_cons.1 hj with h | h
      · subst h; omega
      · rcases List.mem_cons.1 h with h2 | h2
        · subst h2; omega
        · exact hle j (List.mem_cons_of_mem _ h2)

theorem foldl_max_spec (key : Nat → Nat) (rest : List Nat) (first : Nat) :
    (rest.foldl (fun largest x => if decide (key largest < key x) then x else largest) first
        ∈ first :: rest) ∧
      ∀ j ∈ first :: rest,
        key j ≤ key (rest.foldl (fun largest x => if decide (key largest < key x) then x else largest)
          first) := by
  induction rest generalizing first with
  | nil => simp
  | cons y ys ih =>
    simp only [List.foldl_cons]
    have hacc : (key first ≤ key (if decide (key first < key y) then y else first) ∧
        key y ≤ key (if decide (key first < key y) then y else first)) ∧
        ((if decide (key first < key y) then y else first) = first ∨
          (if decide (key first < key y) then y else first) = y) := by
      by_cases hc : key first < key y
      · simp [hc]; omega
      · simp [hc]; omega
    generalize (if decide (key first < key y) then y else first) = acc at hacc
    obtain ⟨hmem, hle⟩ := ih acc
    have hacc_le := hle acc (List.mem_cons_self _ _)
    constructor
    · rcases List.mem_cons.1 hmem with h | h
      · rw [h]; rcases hacc.2 with h2 | h2 <;> simp [h2]
      · exact List.mem_cons_of_mem _ (List.mem_cons_of_mem _ h)
    · intro j hj
      rcases List.mem_cons.1 hj with h | h
      · subst h; omega
      · rcases List.mem_cons.1 h with h2 | h2
        · subst h2; omega
        · exact hle j (List.mem_cons_of_mem _ h2)

theorem min_element_spec (key : Nat → Nat) {l : List Nat} (h : l ≠ []) :
    ∃ m, min_element (fun i j => decide (key i < key j)) l = some m ∧ m ∈ l ∧
      ∀ j ∈ l, key m ≤ key j := by
  cases l with
  | nil => exact absurd rfl h
  | cons x xs => exact ⟨_, rfl, (foldl_min_spec key xs x).1, (foldl_min_spec key xs x).2⟩

theorem max_element_spec (key : Nat → Nat) {l : List Nat} (h : l ≠ []) :
    ∃ m, max_element (fun i j => decide (key i < key j)) l = some m ∧ m ∈ l ∧
      ∀ j ∈ l, key j ≤ key m := by
  cases l with
  | nil => exact absurd rfl h
  | cons x xs => exact ⟨_, rfl, (foldl_max_spec key xs x).1, (foldl_max_spec key xs x).2⟩

/-- What one iteration of the loop of `do_allocate_n` does, when an index is pending. -/
theorem do_allocate_n_body_spec (alignments sizes : List Nat) (size_before : Nat)
    (st : AllocState) (h : st.indices ≠ []) :
    ∃ id, id ∈ st.indices ∧
      (∀ j ∈ st.indices, padding_of st.ptr_end (alignments.getD id 0) ≤
        padding_of st.ptr_end (alignments.getD j 0)) ∧
      (∀ j ∈ st.indices, padding_of st.ptr_end (alignments.getD j 0) =
        padding_of st.ptr_end (alignments.getD id 0) → sizes.getD j 0 ≤ sizes.getD id 0) ∧
      do_allocate_n_body alignments sizes size_before st =
        { output := st.output.set id (to_offset_t (to_size_t
            (size_before + st.to_allocate + padding_of st.ptr_end (alignments.getD id 0))))
          to_allocate := to_size_t (st.to_allocate +
            (padding_of st.ptr_end (alignments.getD id 0) + sizes.getD id 0))
          ptr_end := to_size_t (st.ptr_end +
            (padding_of st.ptr_end (alignments.getD id 0) + sizes.getD id 0))
          indices := st.indices.erase id } := by
  obtain ⟨m, hm, hmem, hmin⟩ :=
    min_element_spec (fun i => padding_of st.ptr_end (alignments.getD i 0)) h
  have hcand : st.indices.filter (fun id => padding_of st.ptr_end (alignments.getD id 0) ==
      padding_of st.ptr_end (alignments.getD m 0)) ≠ [] := by
    intro hnil
    have : m ∈ st.indices.filter (fun id => padding_of st.ptr_end (alignments.getD id 0) ==
      padding_of st.ptr_end (alignments.getD m 0)) := by
      simp [List.mem_filter, hmem]
    rw [hnil] at this
    exact absurd this (List.not_mem_nil _)
  obtain ⟨e, he, hemem, hmax⟩ := max_element_spec (fun i => sizes.getD i 0) hcand
  have hemem2 := List.mem_filter.1 hemem
  have hpe : padding_of st.ptr_end (alignments.getD e 0) =
      padding_of st.ptr_end (alignments.getD m 0) := by simpa using hemem2.2
  refine ⟨e, hemem2.1, ?_, ?_, ?_⟩
  · intro j hj; rw [hpe]; exact hmin j hj
  · intro j hj hjp
    apply hmax
    refine List.mem_filter.2 ⟨hj, ?_⟩
    simp only [hjp, hpe, beq_self_eq_true]
  · simp only [do_allocate_n_body, hm, he, hpe]

/-! ## The loop of `do_allocate_n` -/

/-- A property kept by every iteration is kept by the loop. -/
theorem do_allocate_n_loop_induct (alignments sizes : List Nat) (size_before : Nat)
    (P : AllocState → Prop)
    (hstep : ∀ st, P st → st.indices ≠ [] →
      P (do_allocate_n_body alignments sizes size_before st)) :
    ∀ (fuel : Nat) (st : AllocState), P st →
      P (do_allocate_n_loop alignments sizes size_before fuel st) := by
  intro fuel
  induction fuel with
  | zero => intro st h; exact h
  | succ n ih =>
    intro st h
    rw [do_allocate_n_loop]
    split
    · exact h
    · rename_i hne
      apply ih
      apply hstep st h
      intro hnil
      apply hne
      simp [hnil]

/-- An iteration with a pending index removes one index. -/
theorem do_allocate_n_body_length (alignments sizes : List Nat) (size_before : Nat)
    (st : AllocState) (h : st.indices ≠ []) :
    (do_allocate_n_body alignments sizes size_before st).indices.length + 1 =
      st.indices.length := by
  obtain ⟨id, hmem, -, -, heq⟩ := do_allocate_n_body_spec alignments sizes size_before st h
  rw [heq]
  simp only [List.length_erase_of_mem hmem]
  have : 0 < st.indices.length := List.length_pos_of_mem hmem
  omega

/-- With as much fuel as pending indices, the loop ends with no index pending. -/
theorem do_allocate_n_loop_indices (alignments sizes : List Nat) (size_before : Nat) :
    ∀ (fuel : Nat) (st : AllocState), st.indices.length ≤ fuel →
      (do_allocate_n_loop alignments sizes size_before fuel st).indices = [] := by
  intro fuel
  induction fuel with
  | zero =>
    intro st h
    rw [do_allocate_n_loop]
    exact List.length_eq_zero.1 (Nat.le_zero.1 h)
  | succ n ih =>
    intro st h
    rw [do_allocate_n_loop]
    split
    · rename_i he
      simpa using he
    · rename_i hne
      apply ih
      have hne2 : st.indices ≠ [] := by
        intro hnil; apply hne; simp [hnil]
      have := do_allocate_n_body_length alignments sizes size_before st hne2
      omega

/-- The loop of `do_allocate_n` ends with no index pending. -/
theorem do_allocate_n_final_indices (base size_before : Nat) (Ts : List TypeInfo) :
    (do_allocate_n_final base size_before Ts).indices = [] := by
  apply do_allocate_n_loop_indices
  simp [do_allocate_n_init]

theorem do_allocate_n_init_shaped (base size_before N : Nat) :
    (do_allocate_n_init base size_before N).shaped N := by
  refine ⟨by simp [do_allocate_n_init], ?_, ?_⟩
  · simp [do_allocate_n_init, List.nodup_range]
  · intro i hi
    simpa [do_allocate_n_init] using hi

theorem do_allocate_n_body_shaped (alignments sizes : List Nat) (size_before N : Nat)
    (st : AllocState) (hs : st.shaped N) (h : st.indices ≠ []) :
    (do_allocate_n_body alignments sizes size_before st).shaped N := by
  obtain ⟨id, hmem, -, -, heq⟩ := do_allocate_n_body_spec alignments sizes size_before st h
  rw [heq]
  obtain ⟨h1, h2, h3⟩ := hs
  refine ⟨by simp [h1], h2.erase _, ?_⟩
  intro i hi
  exact h3 i (List.mem_of_mem_erase hi)

theorem getD_set_self {l : List Nat} {i : Nat} (h : i < l.length) (a d : Nat) :
    (l.set i a).getD i d = a := by
  simp [List.getD_eq_getElem?_getD, List.getElem?_set, h]

theorem getD_set_ne {l : List Nat} {i j : Nat} (h : i ≠ j) (a d : Nat) :
    (l.set i a).getD j d = l.getD j d := by
  simp [List.getD_eq_getElem?_getD, List.getElem?_set, h]

theorem getD_mem {l : List Nat} {i : Nat} (h : i < l.length) (d : Nat) :
    l.getD i d ∈ l := by
  rw [List.getD_eq_getElem?_getD, List.getElem?_eq_getElem h]
  exact List.getElem_mem h

/-- The offset computed for a type is a multiple of its alignment. -/
theorem placed_aligned {a : Nat} (ha : valid_align a) {base : Nat} (hbase : base % 64 = 0)
    (n : Nat) :
    to_offset_t (to_size_t (n + padding_of (to_size_t (base + n)) a)) % a = 0 := by
  rw [padding_of_base ha.1 ha.2 hbase]
  rcases align_cases ha.1 ha.2 with h | h | h | h | h | h | h <;> subst h <;>
    simp only [to_size_t, to_offset_t] <;> omega

theorem ptr_end_step (base x d : Nat) :
    to_size_t (to_size_t (base + x) + d) = to_size_t (base + x + d) := by
  simp only [to_size_t]; omega

theorem do_allocate_n_body_aligned (alignments sizes : List Nat) (base size_before : Nat)
    (hbase : base % 64 = 0) (hal : ∀ a ∈ alignments, valid_align a)
    (st : AllocState) (hs : st.aligned alignments base size_before) (h : st.indices ≠ []) :
    (do_allocate_n_body alignments sizes size_before st).aligned alignments base
      size_before := by
  have hshape := do_allocate_n_body_shaped alignments sizes size_before _ st hs.1 h
  obtain ⟨id, hmem, -, -, heq⟩ := do_allocate_n_body_spec alignments sizes size_before st h
  rw [heq] at hshape ⊢
  obtain ⟨hsh, hptr, hout⟩ := hs
  have hid : id < alignments.length := hsh.2.2 id hmem
  refine ⟨hshape, ?_, ?_⟩
  · simp only [hptr, to_size_t]; omega
  · intro i hi hnot
    by_cases hii : id = i
    · subst hii
      simp only
      rw [getD_set_self (by rw [hsh.1]; exact hid), hptr]
      have := placed_aligned (hal _ (getD_mem hid 0)) hbase (size_before + st.to_allocate)
      simpa [Nat.add_assoc] using this
    · simp only
      rw [getD_set_ne hii]
      apply hout i hi
      intro hmi
      exact hnot ((List.mem_erase_of_ne (Ne.symm hii)).2 hmi)

theorem do_allocate_n_init_aligned (alignments : List Nat) (base size_before : Nat) :
    (do_allocate_n_init base size_before alignments.length).aligned alignments base
      size_before := by
  refine ⟨do_allocate_n_init_shaped _ _ _, by simp [do_allocate_n_init], ?_⟩
  intro i hi hnot
  exact absurd (by simpa [do_allocate_n_init] using hi) hnot

/-- Every offset in the output of `do_allocate_n` is a multiple of the alignment of its
type. -/
theorem do_allocate_n_final_aligned (base size_before : Nat) (hbase : base % 64 = 0)
    (Ts : List TypeInfo) (hal : ∀ T ∈ Ts, valid_align T.align) :
    (do_allocate_n_final base size_before Ts).output.length = Ts.length ∧
    ∀ i, i < Ts.length →
      (do_allocate_n_final base size_before Ts).output.getD i 0 %
        (Ts.map (fun T => T.align)).getD i 0 = 0 := by
  have hal2 : ∀ a ∈ Ts.map (fun T => T.align), valid_align a := by
    intro a ha
    obtain ⟨T, hT, rfl⟩ := List.mem_map.1 ha
    exact hal T hT
  have hinv : (do_allocate_n_final base size_before Ts).aligned (Ts.map (fun T => T.align))
      base size_before := by
    unfold do_allocate_n_final
    apply do_allocate_n_loop_induct (Ts.map (fun T => T.align)) (Ts.map (fun T => T.size))
      size_before (fun st => st.aligned (Ts.map (fun T => T.align)) base size_before)
    · intro st hst hne
      exact do_allocate_n_body_aligned _ _ base size_before hbase hal2 st hst hne
    · have h0 := do_allocate_n_init_aligned (Ts.map (fun T => T.align)) base size_before
      rw [List.length_map] at h0
      exact h0
  have hfin := do_allocate_n_final_indices base size_before Ts
  constructor
  · simpa using hinv.1.1
  · intro i hi
    apply hinv.2.2 i (by simpa using hi)
    rw [hfin]
    exact List.not_mem_nil _

/-! ## `do_allocate` and `reserve` -/

/-- The variable template `all_types_different` is `true` for every list of types. -/
theorem all_types_different_eq_true (Ts : List TypeInfo) :
    HeterogeneousArray.all_types_different Ts = true := by
  induction Ts with
  | nil => rfl
  | cons T Ts ih =>
    rw [HeterogeneousArray.all_types_different]
    split
    · exact ih
    · rfl

theorem do_allocate_static_eq_true {Ts : List TypeInfo}
    (h : ∀ T ∈ Ts, T.align ≤ default_alignment) :
    HeterogeneousArray.do_allocate_static Ts = true := by
  simp only [HeterogeneousArray.do_allocate_static, all_types_different_eq_true,
    Bool.and_true, List.all_eq_true, decide_eq_true_eq]
  exact h

theorem any_is_allocated_eq_false {c : HeterogeneousArray} {Ts : List TypeInfo}
    (h : ∀ T ∈ Ts, c.is_allocated T = false) :
    Ts.any (fun T => c.is_allocated T) = false := by
  simp only [List.any_eq_false]
  intro T hT
  simp [h T hT]

/-- `reserve<T>()` on a type that is not allocated. -/
theorem reserve_single_eq (base : Nat) (c : HeterogeneousArray) (T : TypeInfo)
    (hle : T.align ≤ default_alignment) (hnot : c.is_allocated T = false) :
    c.reserve base [T] =
      .ok ({ (c.do_allocate_1 base T).1 with
              offsets := map_emplace c.offsets T.id ((c.do_allocate_1 base T).2.headD 0) },
        (c.do_allocate_1 base T).2) := by
  have hs : HeterogeneousArray.do_allocate_static [T] = true :=
    do_allocate_static_eq_true (by simpa using hle)
  simp [HeterogeneousArray.reserve, HeterogeneousArray.do_allocate, hs, hnot,
    HeterogeneousArray.emplace_offsets, HeterogeneousArray.do_allocate_1]

/-- `reserve<Ts...>()` on two types or more (or none), none of them allocated. -/
theorem reserve_batch_eq (base : Nat) (c : HeterogeneousArray) (Ts : List TypeInfo)
    (hlen : Ts.length ≠ 1)
    (hle : ∀ T ∈ Ts, T.align ≤ default_alignment)
    (hnot : ∀ T ∈ Ts, c.is_allocated T = false) :
    c.reserve base Ts =
      .ok ({ (c.do_allocate_n base Ts).1 with
              offsets := HeterogeneousArray.emplace_offsets c.offsets Ts
                (c.do_allocate_n base Ts).2 },
        (c.do_allocate_n base Ts).2) := by
  have hs : HeterogeneousArray.do_allocate_static Ts = true := do_allocate_static_eq_true hle
  have ha := any_is_allocated_eq_false hnot
  match Ts, hlen with
  | [], _ =>
    simp [HeterogeneousArray.reserve, HeterogeneousArray.do_allocate, hs,
      HeterogeneousArray.do_allocate_n]
  | [T], h => exact absurd rfl h
  | T :: U :: Ts, _ =>
    simp only [HeterogeneousArray.reserve, HeterogeneousArray.do_allocate, hs, ha]
    simp [HeterogeneousArray.do_allocate_n]

/-- The padding `do_allocate_1` inserts and the offset it returns. -/
theorem do_allocate_1_eq (base : Nat) (hbase : base % 64 = 0) (c : HeterogeneousArray)
    (T : TypeInfo) (hT : valid_align T.align) :
    c.do_allocate_1 base T =
      ({ c with data := c.data.resize (to_size_t
            (c.data.size + (T.align - c.data.size % T.align) % T.align + T.size)) },
        [to_offset_t (to_size_t
            (c.data.size + (T.align - c.data.size % T.align) % T.align))]) := by
  simp only [HeterogeneousArray.do_allocate_1, padding_of_base hT.1 hT.2 hbase]

/-- The least padding that aligns `n` to `a`. -/
theorem least_padding {a : Nat} (ha : valid_align a) (n : Nat) :
    (n + (a - n % a) % a) % a = 0 ∧ (a - n % a) % a < a ∧
      ∀ q, (n + q) % a = 0 → (a - n % a) % a ≤ q := by
  rcases align_cases ha.1 ha.2 with h | h | h | h | h | h | h <;> subst h <;>
    refine ⟨by omega, by omega, fun q hq => by omega⟩

theorem add_base_mod {a : Nat} (ha : valid_align a) {base : Nat} (hbase : base % 64 = 0)
    {off : Nat} (hoff : off % a = 0) : (base + off) % a = 0 := by
  rcases align_cases ha.1 ha.2 with h | h | h | h | h | h | h <;> subst h <;> omega

/-! ## Alignment of the offsets (C1) -/

theorem getD_map_align (Ts : List TypeInfo) (i : Nat) (h : i < Ts.length) :
    (Ts.map (fun T => T.align)).getD i 0 = Ts[i].align := by
  simp [List.getD_eq_getElem?_getD, List.getElem?_eq_getElem, h]

theorem do_allocate_n_aligned (base base' : Nat) (hbase : base % 64 = 0)
    (hbase' : base' % 64 = 0) (c : HeterogeneousArray) (Ts : List TypeInfo)
    (hal : ∀ T ∈ Ts, valid_align T.align) :
    (c.do_allocate_n base Ts).2.length = Ts.length ∧
      ∀ i (h : i < Ts.length),
        (base' + (c.do_allocate_n base Ts).2.getD i 0) % Ts[i].align = 0 := by
  obtain ⟨h1, h2⟩ := do_allocate_n_final_aligned base c.data.size hbase Ts hal
  refine ⟨h1, fun i h => ?_⟩
  have := h2 i h
  rw [getD_map_align Ts i h] at this
  exact add_base_mod (hal _ (List.getElem_mem h)) hbase' this

theorem do_allocate_1_aligned (base base' : Nat) (hbase : base % 64 = 0)
    (hbase' : base' % 64 = 0) (c : HeterogeneousArray) (T : TypeInfo)
    (hT : valid_align T.align) :
    (c.do_allocate_1 base T).2.length = 1 ∧
      (base' + (c.do_allocate_1 base T).2.getD 0 0) % T.align = 0 := by
  refine ⟨rfl, ?_⟩
  apply add_base_mod hT hbase'
  have := placed_aligned hT hbase c.data.size
  simpa [HeterogeneousArray.do_allocate_1] using this

/-- C1. When the arena's base address is a multiple of 64, before the call (`base`) and
after it (`base'`), and every type has a power-of-two alignment of at most 64, every
offset returned by `do_allocate_1`, by `do_allocate_n` and by `reserve` (which calls
one of the two) is aligned for its type: `(base' + offset) mod alignof(T) = 0`. -/
theorem reserve_offsets_aligned (base base' : Nat) (hbase : base % 64 = 0)
    (hbase' : base' % 64 = 0) (c : HeterogeneousArray) (Ts : List TypeInfo)
    (hal : ∀ T ∈ Ts, valid_align T.align)
    (hnot : ∀ T ∈ Ts, c.is_allocated T = false) :
    (∀ T ∈ Ts, ∀ off ∈ (c.do_allocate_1 base T).2, (base' + off) % T.align = 0) ∧
    ((c.do_allocate_n base Ts).2.length = Ts.length ∧
      ∀ i (h : i < Ts.length),
        (base' + (c.do_allocate_n base Ts).2.getD i 0) % Ts[i].align = 0) ∧
    ∃ c1 offs, c.reserve base Ts = .ok (c1, offs) ∧ offs.length = Ts.length ∧
      ∀ i (h : i < Ts.length), (base' + offs.getD i 0) % Ts[i].align = 0 := by
  refine ⟨?_, do_allocate_n_aligned base base' hbase hbase' c Ts hal, ?_⟩
  · intro T hT off hoff
    have h1 := (do_allocate_1_aligned base base' hbase hbase' c T (hal T hT)).2
    have : off = (c.do_allocate_1 base T).2.getD 0 0 := by
      simpa [HeterogeneousArray.do_allocate_1] using hoff
    rw [this]; exact h1
  · by_cases hlen : Ts.length = 1
    · obtain ⟨T, rfl⟩ := List.length_eq_one.1 hlen
      have hT := hal T (List.mem_singleton_self T)
      refine ⟨_, _, reserve_single_eq base c T hT.2 (hnot T (List.mem_singleton_self T)),
        rfl, ?_⟩
      intro i h
      have hi : i = 0 := by simpa using h
      subst hi
      exact (do_allocate_1_aligned base base' hbase hbase' c T hT).2
    · refine ⟨_, _, reserve_batch_eq base c Ts hlen (fun T hT => (hal T hT).2) hnot, ?_⟩
      exact do_allocate_n_aligned base base' hbase hbase' c Ts hal

theorem valid_align_pow (k : Nat) (hk : k ≤ 6) : valid_align (2 ^ k) := by
  refine ⟨⟨k, rfl⟩, ?_⟩
  have : 2 ^ k ≤ 2 ^ 6 := Nat.pow_le_pow_right (by norm_num) hk
  simpa [default_alignment] using this

/-- C1, at the batch `reserve<A, C>()` of the test `aligned_allocation`, on the store
that holds a `char`, with the arena at address 64 before the call and 128 after it. -/
theorem reserve_offsets_aligned_witness :
    (64 % 64 = 0 ∧ 128 % 64 = 0 ∧ (∀ T ∈ [A_t, C_t], valid_align T.align) ∧
      (∀ T ∈ [A_t, C_t], char_store.is_allocated T = false)) ∧
    ((∀ T ∈ [A_t, C_t], ∀ off ∈ (char_store.do_allocate_1 64 T).2,
        (128 + off) % T.align = 0) ∧
    ((char_store.do_allocate_n 64 [A_t, C_t]).2.length = [A_t, C_t].length ∧
      ∀ i (h : i < [A_t, C_t].length),
        (128 + (char_store.do_allocate_n 64 [A_t, C_t]).2.getD i 0) %
          [A_t, C_t][i].align = 0) ∧
    ∃ c1 offs, char_store.reserve 64 [A_t, C_t] = .ok (c1, offs) ∧
      offs.length = [A_t, C_t].length ∧
      ∀ i (h : i < [A_t, C_t].length), (128 + offs.getD i 0) % [A_t, C_t][i].align = 0) :=
  have hal : ∀ T ∈ [A_t, C_t], valid_align T.align := by
    intro T hT
    rcases List.mem_cons.1 hT with h | h
    · subst h; exact valid_align_pow 2 (by decide)
    · rw [List.mem_singleton.1 h]; exact valid_align_pow 3 (by decide)
  have hnot : ∀ T ∈ [A_t, C_t], char_store.is_allocated T = false := by decide
  ⟨⟨by decide, by decide, hal, hnot⟩,
    reserve_offsets_aligned 64 128 (by decide) (by decide) char_store [A_t, C_t] hal hnot⟩

/-! ## Layout of a batch (C2) -/

theorem padding_of_lt {a : Nat} (ha : valid_align a) (ptr : Nat) : padding_of ptr a < a := by
  rw [padding_of_eq ha.1 ha.2]
  apply Nat.mod_lt
  obtain ⟨k, hk⟩ := ha.1
  rw [hk]
  exact Nat.pos_pow_of_pos k (by norm_num)

theorem not_mem_erase_cases {l : List Nat} {i id : Nat} (h : i ∉ l.erase id) :
    i = id ∨ i ∉ l := by
  by_cases hi : i = id
  · exact Or.inl hi
  · exact Or.inr (fun hm => h ((List.mem_erase_of_ne hi).2 hm))

theorem do_allocate_n_body_packed (alignments sizes : List Nat) (base size_before B : Nat)
    (hB : B ≤ 2 ^ 32) (hal : ∀ a ∈ alignments, valid_align a)
    (st : AllocState) (hs : st.packed alignments sizes base size_before B)
    (h : st.indices ≠ []) :
    (do_allocate_n_body alignments sizes size_before st).packed alignments sizes base
      size_before B := by
  have hshape := do_allocate_n_body_shaped alignments sizes size_before _ st hs.1 h
  have hlen := do_allocate_n_body_length alignments sizes size_before st h
  obtain ⟨id, hmem, -, -, heq⟩ := do_allocate_n_body_spec alignments sizes size_before st h
  rw [heq] at hshape hlen ⊢
  obtain ⟨hsh, hptr, hsum, hin, hdis, hlast⟩ := hs
  have hid : id < alignments.length := hsh.2.2 id hmem
  have hpad := padding_of_lt (hal _ (getD_mem hid 0)) st.ptr_end
  have hsplit := List.sum_map_erase (fun i => sizes.getD i 0 + alignments.getD i 0) hmem
  simp only at hsplit
  unfold AllocState.packed
  dsimp only
  generalize padding_of st.ptr_end (alignments.getD id 0) = pad at *
  generalize (List.map (fun i => sizes.getD i 0 + alignments.getD i 0)
    (st.indices.erase id)).sum = rest at *
  generalize (List.map (fun i => sizes.getD i 0 + alignments.getD i 0) st.indices).sum =
    total at *
  have hta : to_size_t (st.to_allocate + (pad + sizes.getD id 0)) =
      st.to_allocate + (pad + sizes.getD id 0) := by
    simp only [to_size_t]; omega
  have hoff : to_offset_t (to_size_t (size_before + st.to_allocate + pad)) =
      size_before + st.to_allocate + pad := by
    simp only [to_size_t, to_offset_t]; omega
  have hset : (st.output.set id (size_before + st.to_allocate + pad)).getD id 0 =
      size_before + st.to_allocate + pad := getD_set_self (by rw [hsh.1]; exact hid) _ _
  simp only [hta, hoff] at hshape ⊢
  refine ⟨hshape, ?_, ?_, ?_, ?_, ?_⟩
  · simp only [hptr, to_size_t]; omega
  · omega
  · intro i hi hnot
    rcases not_mem_erase_cases hnot with hii | hii
    · subst hii
      rw [hset]; omega
    · by_cases hne : id = i
      · subst hne; rw [hset]; omega
      · rw [getD_set_ne hne]
        have := hin i hi hii
        omega
  · intro i j hi hj hni hnj hij
    have key : ∀ k, k < alignments.length → k ∉ st.indices.erase id → k ≠ id →
        (st.output.set id (size_before + st.to_allocate + pad)).getD k 0 = st.output.getD k 0 ∧
          st.output.getD k 0 + sizes.getD k 0 ≤ size_before + st.to_allocate ∧
          k ∉ st.indices := by
      intro k hk hnk hkid
      rcases not_mem_erase_cases hnk with h1 | h1
      · exact absurd h1 hkid
      · exact ⟨getD_set_ne (Ne.symm hkid) _ _, (hin k hk h1).2, h1⟩
    by_cases hi2 : i = id
    · have hj2 : j ≠ id := fun hh => hij (hi2.trans hh.symm)
      obtain ⟨e1, e2, -⟩ := key j hj hnj hj2
      rw [hi2, hset, e1]
      right; omega
    · obtain ⟨e1, e2, e3⟩ := key i hi hni hi2
      by_cases hj2 : j = id
      · rw [hj2, hset, e1]
        left; omega
      · obtain ⟨f1, f2, f3⟩ := key j hj hnj hj2
        rw [e1, f1]
        exact hdis i j hi hj e3 f3 hij
  · intro _
    refine ⟨id, hid, ?_, ?_⟩
    · exact fun hm => (List.Nodup.mem_erase_iff hsh.2.1).1 hm |>.1 rfl
    · rw [hset]; omega

theorem getD_map_size (Ts : List TypeInfo) (i : Nat) (h : i < Ts.length) :
    (Ts.map (fun T => T.size)).getD i 0 = Ts[i].size := by
  simp [List.getD_eq_getElem?_getD, List.getElem?_eq_getElem, h]

theorem range_map_weights (Ts : List TypeInfo) :
    (List.range Ts.length).map (fun i => (Ts.map (fun T => T.size)).getD i 0 +
      (Ts.map (fun T => T.align)).getD i 0) = Ts.map (fun T => T.size + T.align) := by
  apply List.ext_getElem
  · simp
  · intro i h1 h2
    have hi : i < Ts.length := by simpa using h2
    simp only [List.getElem_map, List.getElem_range]
    rw [getD_map_size Ts i hi, getD_map_align Ts i hi]

theorem valid_align_map {Ts : List TypeInfo} (hal : ∀ T ∈ Ts, valid_align T.align) :
    ∀ a ∈ Ts.map (fun T => T.align), valid_align a := by
  intro a ha
  obtain ⟨T, hT, rfl⟩ := List.mem_map.1 ha
  exact hal T hT

/-- The layout `do_allocate_n` computes on an arena that stays below `2 ^ 32` bytes. -/
theorem do_allocate_n_final_packed (base size_before : Nat) (Ts : List TypeInfo)
    (hal : ∀ T ∈ Ts, valid_align T.align)
    (hB : size_before + (Ts.map (fun T => T.size + T.align)).sum ≤ 2 ^ 32) :
    (do_allocate_n_final base size_before Ts).packed (Ts.map (fun T => T.align))
      (Ts.map (fun T => T.size)) base size_before
      (size_before + (Ts.map (fun T => T.size + T.align)).sum) := by
  unfold do_allocate_n_final
  apply do_allocate_n_loop_induct (Ts.map (fun T => T.align)) (Ts.map (fun T => T.size))
    size_before (fun st => st.packed (Ts.map (fun T => T.align)) (Ts.map (fun T => T.size))
      base size_before (size_before + (Ts.map (fun T => T.size + T.align)).sum))
  · intro st hst hne
    exact do_allocate_n_body_packed _ _ base size_before _ hB (valid_align_map hal) st hst hne
  · have hsh := do_allocate_n_init_shaped base size_before Ts.length
    refine ⟨by rw [List.length_map]; exact hsh, by simp [do_allocate_n_init], ?_, ?_, ?_, ?_⟩
    · simp only [do_allocate_n_init, range_map_weights, Nat.add_zero, le_refl]
    · intro i hi hnot
      exact absurd (by simpa [do_allocate_n_init] using hi) hnot
    · intro i j hi hj hnot
      exact absurd (by simpa [do_allocate_n_init] using hi) hnot
    · intro hlt
      simp [do_allocate_n_init] at hlt

/-- C2, as amended. A batch `reserve<Ts...>()` of two types or more, on an arena of
length `L` with `L + Σ (sizeof + alignof) ≤ 2 ^ 32`, returns offsets that are all at
least `L`, whose byte ranges are pairwise disjoint and lie inside the grown arena, and
the new arena length is the largest `offset + size`. -/
theorem batch_reserve_layout (base : Nat) (c : HeterogeneousArray) (Ts : List TypeInfo)
    (hN : 2 ≤ Ts.length) (hal : ∀ T ∈ Ts, valid_align T.align)
    (hnot : ∀ T ∈ Ts, c.is_allocated T = false)
    (hB : c.data.size + (Ts.map (fun T => T.size + T.align)).sum ≤ 2 ^ 32) :
    ∃ c1 offs, c.reserve base Ts = .ok (c1, offs) ∧ offs.length = Ts.length ∧
      (∀ i (h : i < Ts.length),
        c.data.size ≤ offs.getD i 0 ∧ offs.getD i 0 + Ts[i].size ≤ c1.data.size) ∧
      (∀ i j (hi : i < Ts.length) (hj : j < Ts.length), i ≠ j →
        offs.getD i 0 + Ts[i].size ≤ offs.getD j 0 ∨
          offs.getD j 0 + Ts[j].size ≤ offs.getD i 0) ∧
      ∃ i, ∃ h : i < Ts.length, offs.getD i 0 + Ts[i].size = c1.data.size := by
  have hlen : Ts.length ≠ 1 := by omega
  refine ⟨_, _, reserve_batch_eq base c Ts hlen (fun T hT => (hal T hT).2) hnot, ?_⟩
  obtain ⟨hsh, -, hsum, hin, hdis, hlast⟩ := do_allocate_n_final_packed base c.data.size Ts hal hB
  have hfin := do_allocate_n_final_indices base c.data.size Ts
  rw [hfin] at hsum hin hdis hlast
  simp only [List.length_map, List.map_nil, List.sum_nil, List.length_nil, Nat.add_zero,
    List.not_mem_nil, not_false_eq_true, true_implies] at hsum hin hdis hlast
  have hsize : (c.do_allocate_n base Ts).1.data.size =
      c.data.size + (do_allocate_n_final base c.data.size Ts).to_allocate := by
    simp only [HeterogeneousArray.do_allocate_n, Arena.resize, to_size_t]
    omega
  have hout : (c.do_allocate_n base Ts).2 = (do_allocate_n_final base c.data.size Ts).output :=
    rfl
  simp only [hsize, hout]
  refine ⟨by simpa using hsh.1, ?_, ?_, ?_⟩
  · intro i h
    have := hin i h
    rw [getD_map_size Ts i h] at this
    exact this
  · intro i j hi hj hij
    have := hdis i j hi hj hij
    rw [getD_map_size Ts i hi, getD_map_size Ts j hj] at this
    exact this
  · obtain ⟨i, hi, -, hl⟩ := hlast (by omega)
    rw [getD_map_size Ts i hi] at hl
    exact ⟨i, hi, hl⟩

/-- C2 fails on an arena of `2 ^ 32` bytes: `reserve<char, bool>()` returns the offsets
`0` and `1`, which lie below the arena length. -/
theorem batch_reserve_layout_counterexample :
    int_big_store.data.size = 4294967296 ∧
      returned (int_big_store.reserve 0 [char_t, bool_t]) = some [0, 1] := by
  decide

/-- C2, as amended, at the batch `reserve<A, C>()` of the test `aligned_allocation`. -/
theorem batch_reserve_layout_witness :
    (2 ≤ [A_t, C_t].length ∧ (∀ T ∈ [A_t, C_t], valid_align T.align) ∧
      (∀ T ∈ [A_t, C_t], char_store.is_allocated T = false) ∧
      char_store.data.size + ([A_t, C_t].map (fun T => T.size + T.align)).sum ≤ 2 ^ 32) ∧
    ∃ c1 offs, char_store.reserve 64 [A_t, C_t] = .ok (c1, offs) ∧
      offs.length = [A_t, C_t].length ∧
      (∀ i (h : i < [A_t, C_t].length),
        char_store.data.size ≤ offs.getD i 0 ∧
          offs.getD i 0 + [A_t, C_t][i].size ≤ c1.data.size) ∧
      (∀ i j (hi : i < [A_t, C_t].length) (hj : j < [A_t, C_t].length), i ≠ j →
        offs.getD i 0 + [A_t, C_t][i].size ≤ offs.getD j 0 ∨
          offs.getD j 0 + [A_t, C_t][j].size ≤ offs.getD i 0) ∧
      ∃ i, ∃ h : i < [A_t, C_t].length, offs.getD i 0 + [A_t, C_t][i].size = c1.data.size :=
  have hal : ∀ T ∈ [A_t, C_t], valid_align T.align := by
    intro T hT
    rcases List.mem_cons.1 hT with h | h
    · subst h; exact valid_align_pow 2 (by decide)
    · rw [List.mem_singleton.1 h]; exact valid_align_pow 3 (by decide)
  have hnot : ∀ T ∈ [A_t, C_t], char_store.is_allocated T = false := by decide
  ⟨⟨by decide, hal, hnot, by decide⟩,
    batch_reserve_layout 64 char_store [A_t, C_t] (by decide) hal hnot (by decide)⟩

/-! ## The single-type fast path (C3) -/

/-- C3, as amended. On an arena of length `L` (base a multiple of 64) and for a type of
size `s` and power-of-two alignment `a ≤ 64`, `reserve<T>()` returns the offset
`(L + p) mod 2 ^ 32`, where `p` is the least padding that makes `L + p` a multiple of
`a` (so `p < a`); the offset is `L + p` itself when `L + p < 2 ^ 32`. Afterwards the
arena length is `(L + p + s) mod 2 ^ 64`, which is `L + p + s` when that is below
`2 ^ 64`. -/
theorem reserve_single_offset (base : Nat) (hbase : base % 64 = 0) (c : HeterogeneousArray)
    (T : TypeInfo) (hT : valid_align T.align) (hnot : c.is_allocated T = false) :
    ((c.data.size + (T.align - c.data.size % T.align) % T.align) % T.align = 0 ∧
      (T.align - c.data.size % T.align) % T.align < T.align ∧
      ∀ q, (c.data.size + q) % T.align = 0 → (T.align - c.data.size % T.align) % T.align ≤ q) ∧
    ∃ c1 off, c.reserve base [T] = .ok (c1, [off]) ∧
      off = (c.data.size + (T.align - c.data.size % T.align) % T.align) % 2 ^ 32 ∧
      (c.data.size + (T.align - c.data.size % T.align) % T.align < 2 ^ 32 →
        off = c.data.size + (T.align - c.data.size % T.align) % T.align) ∧
      c1.data.size =
        (c.data.size + (T.align - c.data.size % T.align) % T.align + T.size) % 2 ^ 64 ∧
      (c.data.size + (T.align - c.data.size % T.align) % T.align + T.size < 2 ^ 64 →
        c1.data.size = c.data.size + (T.align - c.data.size % T.align) % T.align + T.size) := by
  refine ⟨least_padding hT c.data.size, ?_⟩
  have h1 := reserve_single_eq base c T hT.2 hnot
  rw [do_allocate_1_eq base hbase c T hT] at h1
  refine ⟨_, _, h1, ?_, ?_, ?_, ?_⟩
  · simp only [to_offset_t, to_size_t]; omega
  · intro h; simp only [to_offset_t, to_size_t]; omega
  · simp only [Arena.resize, to_size_t]
  · intro h; simp only [Arena.resize, to_size_t]; omega

/-- C3 fails on an arena of `2 ^ 32` bytes: no padding is needed for a `char`, and
`reserve<char>()` returns the offset `0`, not the arena length. -/
theorem reserve_single_offset_counterexample :
    int_big_store.data.size +
        (char_t.align - int_big_store.data.size % char_t.align) % char_t.align = 4294967296 ∧
      returned (int_big_store.reserve 0 [char_t]) = some [0] := by
  decide

/-- C3, as amended, at the `reserve<C>()` of the test `aligned_allocation`: on the
store that holds a `char` the offset is 8 and the arena grows to 16 bytes. -/
theorem reserve_single_offset_witness :
    (64 % 64 = 0 ∧ valid_align C_t.align ∧ char_store.is_allocated C_t = false) ∧
    ((char_store.data.size + (C_t.align - char_store.data.size % C_t.align) % C_t.align) %
        C_t.align = 0 ∧
      (C_t.align - char_store.data.size % C_t.align) % C_t.align < C_t.align ∧
      ∀ q, (char_store.data.size + q) % C_t.align = 0 →
        (C_t.align - char_store.data.size % C_t.align) % C_t.align ≤ q) ∧
    ∃ c1 off, char_store.reserve 64 [C_t] = .ok (c1, [off]) ∧
      off = (char_store.data.size +
        (C_t.align - char_store.data.size % C_t.align) % C_t.align) % 2 ^ 32 ∧
      (char_store.data.size + (C_t.align - char_store.data.size % C_t.align) % C_t.align <
          2 ^ 32 →
        off = char_store.data.size +
          (C_t.align - char_store.data.size % C_t.align) % C_t.align) ∧
      c1.data.size =
        (char_store.data.size + (C_t.align - char_store.data.size % C_t.align) % C_t.align +
          C_t.size) % 2 ^ 64 ∧
      (char_store.data.size + (C_t.align - char_store.data.size % C_t.align) % C_t.align +
          C_t.size < 2 ^ 64 →
        c1.data.size = char_store.data.size +
          (C_t.align - char_store.data.size % C_t.align) % C_t.align + C_t.size) :=
  ⟨⟨by decide, valid_align_pow 3 (by decide), by decide⟩,
    reserve_single_offset 64 (by decide) char_store C_t (valid_align_pow 3 (by decide))
      (by decide)⟩

/-! ## The layout does not depend on the base address -/

theorem padding_of_congr {a : Nat} (ha : valid_align a) {p q : Nat}
    (h : p % 64 = q % 64) : padding_of p a = padding_of q a := by
  rw [padding_of_eq ha.1 ha.2, padding_of_eq ha.1 ha.2]
  rcases align_cases ha.1 ha.2 with h1 | h1 | h1 | h1 | h1 | h1 | h1 <;> subst h1 <;> omega

theorem foldl_select_congr (f g : Nat → Nat → Nat) (l : List Nat)
    (hsel : ∀ a x, f a x = a ∨ f a x = x)
    (hfg : ∀ a ∈ l, ∀ x ∈ l, f a x = g a x) :
    ∀ (rest : List Nat) (first : Nat), first ∈ l → (∀ x ∈ rest, x ∈ l) →
      rest.foldl f first = rest.foldl g first := by
  intro rest
  induction rest with
  | nil => intro first _ _; rfl
  | cons y ys ih =>
    intro first hf hr
    simp only [List.foldl_cons]
    have hy : y ∈ l := hr y (List.mem_cons_self _ _)
    rw [← hfg first hf y hy]
    apply ih
    · rcases hsel first y with h | h <;> rw [h] <;> assumption
    · intro x hx; exact hr x (List.mem_cons_of_mem _ hx)

theorem min_element_congr {comp comp1 : Nat → Nat → Bool} {l : List Nat}
    (h : ∀ x ∈ l, ∀ y ∈ l, comp x y = comp1 x y) :
    min_element comp l = min_element comp1 l := by
  cases l with
  | nil => rfl
  | cons x xs =>
    simp only [min_element]
    congr 1
    apply foldl_select_congr _ _ (x :: xs)
    · intro a y; by_cases hc : comp y a = true <;> simp [hc]
    · intro a ha y hy; rw [h y hy a ha]
    · exact List.mem_cons_self _ _
    · intro y hy; exact List.mem_cons_of_mem _ hy

theorem min_element_mem {comp : Nat → Nat → Bool} {l : List Nat} {m : Nat}
    (h : min_element comp l = some m) : m ∈ l := by
  cases l with
  | nil => simp [min_element] at h
  | cons x xs =>
    simp only [min_element, Option.some.injEq] at h
    subst h
    have : ∀ (rest : List Nat) (first : Nat),
        rest.foldl (fun smallest y => if comp y smallest then y else smallest) first ∈
          first :: rest := by
      intro rest
      induction rest with
      | nil => intro first; simp
      | cons y ys ih =>
        intro first
        simp only [List.foldl_cons]
        rcases List.mem_cons.1 (ih (if comp y first then y else first)) with h1 | h1
        · rw [h1]; by_cases hc : comp y first = true <;> simp [hc]
        · exact List.mem_cons_of_mem _ (List.mem_cons_of_mem _ h1)
    exact this xs x

/-- An iteration of the loop reads `ptr_end` only through the paddings, which depend on
`ptr_end` modulo 64. -/
theorem do_allocate_n_body_same_layout (alignments sizes : List Nat) (size_before : Nat)
    (hal : ∀ a ∈ alignments, valid_align a) (st st1 : AllocState)
    (h : st.same_layout alignments.length st1) :
    (do_allocate_n_body alignments sizes size_before st).same_layout alignments.length
      (do_allocate_n_body alignments sizes size_before st1) := by
  obtain ⟨hsh, hout, hta, hind, hptr⟩ := h
  have hpad : ∀ i ∈ st.indices, padding_of st1.ptr_end (alignments.getD i 0) =
      padding_of st.ptr_end (alignments.getD i 0) := by
    intro i hi
    exact padding_of_congr (hal _ (getD_mem (hsh.2.2 i hi) 0)) hptr
  by_cases hne : st.indices = []
  · have h1 : do_allocate_n_body alignments sizes size_before st = st := by
      simp [do_allocate_n_body, hne, min_element]
    have h2 : do_allocate_n_body alignments sizes size_before st1 = st1 := by
      simp [do_allocate_n_body, hind, hne, min_element]
    rw [h1, h2]
    exact ⟨hsh, hout, hta, hind, hptr⟩
  · have hshape := do_allocate_n_body_shaped alignments sizes size_before _ st hsh hne
    refine ⟨hshape, ?_⟩
    have hmin : min_element (fun i j => decide (padding_of st1.ptr_end (alignments.getD i 0) <
          padding_of st1.ptr_end (alignments.getD j 0))) st.indices =
        min_element (fun i j => decide (padding_of st.ptr_end (alignments.getD i 0) <
          padding_of st.ptr_end (alignments.getD j 0))) st.indices := by
      apply min_element_congr
      intro x hx y hy
      rw [hpad x hx, hpad y hy]
    obtain ⟨m, hm, hmem, -⟩ :=
      min_element_spec (fun i => padding_of st.ptr_end (alignments.getD i 0)) hne
    have hfilter : st.indices.filter (fun id => padding_of st1.ptr_end (alignments.getD id 0) ==
          padding_of st1.ptr_end (alignments.getD m 0)) =
        st.indices.filter (fun id => padding_of st.ptr_end (alignments.getD id 0) ==
          padding_of st.ptr_end (alignments.getD m 0)) := by
      apply List.filter_congr
      intro x hx
      rw [hpad x hx, hpad m hmem]
    simp only [do_allocate_n_body, hind, hmin, hm]
    rw [hfilter]
    simp only [hpad m hmem, hout, hta]
    generalize max_element (fun i j => decide (sizes.getD i 0 < sizes.getD j 0))
      (st.indices.filter (fun id => padding_of st.ptr_end (alignments.getD id 0) ==
        padding_of st.ptr_end (alignments.getD m 0))) = r
    cases r with
    | none => exact ⟨hout, hta, hind, hptr⟩
    | some e =>
      refine ⟨rfl, rfl, rfl, ?_⟩
      simp only [to_size_t]
      omega

theorem do_allocate_n_loop_same_layout (alignments sizes : List Nat) (size_before : Nat)
    (hal : ∀ a ∈ alignments, valid_align a) :
    ∀ (fuel : Nat) (st st1 : AllocState), st.same_layout alignments.length st1 →
      (do_allocate_n_loop alignments sizes size_before fuel st).same_layout alignments.length
        (do_allocate_n_loop alignments sizes size_before fuel st1) := by
  intro fuel
  induction fuel with
  | zero => intro st st1 h; exact h
  | succ n ih =>
    intro st st1 h
    rw [do_allocate_n_loop, do_allocate_n_loop, h.2.2.2.1]
    split
    · exact h
    · exact ih _ _ (do_allocate_n_body_same_layout alignments sizes size_before hal st st1 h)

/-- The offsets and the growth `do_allocate_n` computes are those it computes at the
base address `0`. -/
theorem do_allocate_n_final_base (base size_before : Nat) (hbase : base % 64 = 0)
    (Ts : List TypeInfo) (hal : ∀ T ∈ Ts, valid_align T.align) :
    (do_allocate_n_final base size_before Ts).output =
        (do_allocate_n_final 0 size_before Ts).output ∧
      (do_allocate_n_final base size_before Ts).to_allocate =
        (do_allocate_n_final 0 size_before Ts).to_allocate := by
  have h := do_allocate_n_loop_same_layout (Ts.map (fun T => T.align))
    (Ts.map (fun T => T.size)) size_before (valid_align_map hal) Ts.length
    (do_allocate_n_init 0 size_before Ts.length) (do_allocate_n_init base size_before Ts.length)
    (by
      refine ⟨?_, rfl, rfl, rfl, ?_⟩
      · rw [List.length_map]; exact do_allocate_n_init_shaped 0 size_before Ts.length
      · simp only [do_allocate_n_init, to_size_t]; omega)
  exact ⟨h.2.1, h.2.2.1⟩

/-! ## The two tables -/

theorem map_find_emplace_self {V : Type} (m : List (Nat × V)) (k : Nat) (v : V)
    (h : map_count m k = false) : map_find k (map_emplace m k v) = some v := by
  simp [map_emplace, h, map_find]

theorem map_find_emplace_ne {V : Type} (m : List (Nat × V)) {k k1 : Nat} (v : V)
    (h : k1 ≠ k) : map_find k (map_emplace m k1 v) = map_find k m := by
  unfold map_emplace
  split
  · rfl
  · simp [map_find, h]

theorem map_find_emplace_of_some {V : Type} (m : List (Nat × V)) {k : Nat} (k1 : Nat)
    (v : V) {w : V} (h : map_find k m = some w) :
    map_find k (map_emplace m k1 v) = some w := by
  by_cases hk : k1 = k
  · subst hk
    have : map_count m k1 = true := by simp [map_count, h]
    simp [map_emplace, this, h]
  · rw [map_find_emplace_ne m v hk, h]

theorem map_count_emplace {V : Type} (m : List (Nat × V)) (k k1 : Nat) (v : V) :
    map_count (map_emplace m k1 v) k = (map_count m k || decide (k1 = k)) := by
  by_cases hk : k1 = k
  · subst hk
    by_cases hc : map_count m k1 = true
    · simp [map_emplace, hc]
    · simp only [Bool.not_eq_true] at hc
      simp [map_count, map_find_emplace_self m k1 v hc]
  · simp [map_count, map_find_emplace_ne m v hk, hk]

theorem emplace_offsets_of_some (Ts : List TypeInfo) :
    ∀ (m : List (Nat × Nat)) (offs : List Nat) (k w : Nat), map_find k m = some w →
      map_find k (HeterogeneousArray.emplace_offsets m Ts offs) = some w := by
  induction Ts with
  | nil => intro m offs k w h; simpa [HeterogeneousArray.emplace_offsets] using h
  | cons T Ts ih =>
    intro m offs k w h
    cases offs with
    | nil => simpa [HeterogeneousArray.emplace_offsets] using h
    | cons off offs =>
      simp only [HeterogeneousArray.emplace_offsets]
      exact ih _ _ _ _ (map_find_emplace_of_some m T.id off h)

/-- After the fold of `emplace` in `reserve`, every type of the batch is recorded with
the offset at its own position. -/
theorem emplace_offsets_find (Ts : List TypeInfo) :
    ∀ (m : List (Nat × Nat)) (offs : List Nat), offs.length = Ts.length →
      (Ts.map (fun T => T.id)).Nodup → (∀ T ∈ Ts, map_count m T.id = false) →
      ∀ i (h : i < Ts.length),
        map_find Ts[i].id (HeterogeneousArray.emplace_offsets m Ts offs) =
          some (offs.getD i 0) := by
  induction Ts with
  | nil => intro m offs _ _ _ i h; exact absurd h (Nat.not_lt_zero _)
  | cons T Ts ih =>
    intro m offs hlen hnodup hnot i h
    cases offs with
    | nil => simp at hlen
    | cons off offs =>
      simp only [HeterogeneousArray.emplace_offsets]
      have hT : map_count m T.id = false := hnot T (List.mem_cons_self _ _)
      rw [List.map_cons, List.nodup_cons] at hnodup
      cases i with
      | zero =>
        simp only [List.getElem_cons_zero, List.getD_cons_zero]
        exact emplace_offsets_of_some Ts _ _ _ _ (map_find_emplace_self m T.id off hT)
      | succ j =>
        simp only [List.getElem_cons_succ, List.getD_cons_succ]
        apply ih _ _ (by simpa using hlen) hnodup.2
        intro U hU
        rw [map_count_emplace, hnot U (List.mem_cons_of_mem _ hU)]
        have : T.id ≠ U.id := by
          intro heq
          apply hnodup.1
          rw [heq]
          exact List.mem_map_of_mem _ hU
        simp [this]

theorem offset_of_eq (c : HeterogeneousArray) (Ts : List TypeInfo) :
    ∀ (offs : List Nat), offs.length = Ts.length →
      (∀ i (h : i < Ts.length), map_find Ts[i].id c.offsets = some (offs.getD i 0)) →
      c.offset_of Ts = .ok offs := by
  induction Ts with
  | nil =>
    intro offs hlen _
    simp only [List.length_nil, List.length_eq_zero] at hlen
    rw [hlen]; rfl
  | cons T Ts ih =>
    intro offs hlen h
    cases offs with
    | nil => simp at hlen
    | cons off offs =>
      have h0 := h 0 (by simp)
      simp only [List.getElem_cons_zero, List.getD_cons_zero] at h0
      have ht := ih offs (by simpa using hlen) (fun i hi => by
        have := h (i + 1) (by simpa using hi)
        simpa using this)
      simp only [HeterogeneousArray.offset_of, h0, ht]

theorem do_allocate_n_final_shaped (base size_before : Nat) (Ts : List TypeInfo) :
    (do_allocate_n_final base size_before Ts).shaped Ts.length := by
  unfold do_allocate_n_final
  apply do_allocate_n_loop_induct (Ts.map (fun T => T.align)) (Ts.map (fun T => T.size))
    size_before (fun st => st.shaped Ts.length)
  · intro st hst hne
    exact do_allocate_n_body_shaped _ _ size_before _ st hst hne
  · exact do_allocate_n_init_shaped base size_before Ts.length

/-- `reserve<Ts...>()` on types that are not allocated: it returns, and its result has
one offset per type. -/
theorem reserve_eq (base : Nat) (c : HeterogeneousArray) (Ts : List TypeInfo)
    (hle : ∀ T ∈ Ts, T.align ≤ default_alignment)
    (hnot : ∀ T ∈ Ts, c.is_allocated T = false) :
    ∃ d offs, c.reserve base Ts =
        .ok ({ offsets := HeterogeneousArray.emplace_offsets c.offsets Ts offs, data := d,
               destructors := c.destructors }, offs) ∧
      offs.length = Ts.length := by
  by_cases hlen : Ts.length = 1
  · obtain ⟨T, rfl⟩ := List.length_eq_one.1 hlen
    refine ⟨(c.do_allocate_1 base T).1.data, (c.do_allocate_1 base T).2, ?_, rfl⟩
    rw [reserve_single_eq base c T (hle T (List.mem_singleton_self T))
      (hnot T (List.mem_singleton_self T))]
    rfl
  · refine ⟨(c.do_allocate_n base Ts).1.data, (c.do_allocate_n base Ts).2, ?_, ?_⟩
    · rw [reserve_batch_eq base c Ts hlen hle hnot]
      rfl
    · exact (do_allocate_n_final_shaped base c.data.size Ts).1

/-! ## One step of the batch allocator (C7) -/

/-- C7, as amended. At every iteration of the loop of `do_allocate_n` with an index
pending, the index `id` that is placed is pending; its padding at the current end
pointer is no larger than that of every pending index, and its size is no smaller than
that of every pending index with the same padding. Its offset is
`(end + padding) mod 2 ^ 32`, where `end = size_before + to_allocate`, which is
`end + padding` when that is below `2 ^ 32`; `to_allocate` and `ptr_end` advance by
`padding + size` (in 64-bit arithmetic), and `id` alone leaves the pending set. -/
theorem batch_step_selection (alignments sizes : List Nat) (size_before : Nat)
    (st : AllocState) (hshape : st.shaped alignments.length) (h : st.indices ≠ []) :
    ∃ id, id ∈ st.indices ∧
      (∀ j ∈ st.indices, padding_of st.ptr_end (alignments.getD id 0) ≤
        padding_of st.ptr_end (alignments.getD j 0)) ∧
      (∀ j ∈ st.indices, padding_of st.ptr_end (alignments.getD j 0) =
        padding_of st.ptr_end (alignments.getD id 0) → sizes.getD j 0 ≤ sizes.getD id 0) ∧
      (do_allocate_n_body alignments sizes size_before st).output.getD id 0 =
        (size_before + st.to_allocate + padding_of st.ptr_end (alignments.getD id 0)) %
          2 ^ 32 ∧
      (size_before + st.to_allocate + padding_of st.ptr_end (alignments.getD id 0) < 2 ^ 32 →
        (do_allocate_n_body alignments sizes size_before st).output.getD id 0 =
          size_before + st.to_allocate + padding_of st.ptr_end (alignments.getD id 0)) ∧
      (∀ j, j ≠ id → (do_allocate_n_body alignments sizes size_before st).output.getD j 0 =
        st.output.getD j 0) ∧
      (do_allocate_n_body alignments sizes size_before st).to_allocate =
        (st.to_allocate + (padding_of st.ptr_end (alignments.getD id 0) + sizes.getD id 0)) %
          2 ^ 64 ∧
      (do_allocate_n_body alignments sizes size_before st).ptr_end =
        (st.ptr_end + (padding_of st.ptr_end (alignments.getD id 0) + sizes.getD id 0)) %
          2 ^ 64 ∧
      (do_allocate_n_body alignments sizes size_before st).indices = st.indices.erase id := by
  obtain ⟨id, hmem, hmin, hmax, heq⟩ :=
    do_allocate_n_body_spec alignments sizes size_before st h
  have hid : id < st.output.length := by rw [hshape.1]; exact hshape.2.2 id hmem
  refine ⟨id, hmem, hmin, hmax, ?_, ?_, ?_, ?_, ?_, ?_⟩
  · rw [heq]
    simp only
    rw [getD_set_self hid]
    simp only [to_offset_t, to_size_t]
    omega
  · intro hlt
    rw [heq]
    simp only
    rw [getD_set_self hid]
    simp only [to_offset_t, to_size_t]
    omega
  · intro j hj
    rw [heq]
    exact getD_set_ne (Ne.symm hj) _ _
  · rw [heq]; rfl
  · rw [heq]; rfl
  · rw [heq]

/-- C7 fails when the arena end is `2 ^ 32`: a batch with the single pending type
`char` needs no padding, and the type is placed at offset `0`, not at the end. -/
theorem batch_step_selection_counterexample :
    (do_allocate_n_init 0 4294967296 1).indices = [0] ∧
      4294967296 + (do_allocate_n_init 0 4294967296 1).to_allocate +
        padding_of (do_allocate_n_init 0 4294967296 1).ptr_end 1 = 4294967296 ∧
      (do_allocate_n_body [1] [1] 4294967296 (do_allocate_n_init 0 4294967296 1)).output.getD
        0 0 = 0 := by
  decide

/-- C7, as amended, at the first iteration of `reserve<double, char, int>()` on a fresh
store. -/
theorem batch_step_selection_witness :
    ((do_allocate_n_init 0 0 3).shaped [8, 1, 4].length ∧
      (do_allocate_n_init 0 0 3).indices ≠ []) ∧
    ∃ id, id ∈ (do_allocate_n_init 0 0 3).indices ∧
      (∀ j ∈ (do_allocate_n_init 0 0 3).indices,
        padding_of (do_allocate_n_init 0 0 3).ptr_end ([8, 1, 4].getD id 0) ≤
          padding_of (do_allocate_n_init 0 0 3).ptr_end ([8, 1, 4].getD j 0)) ∧
      (∀ j ∈ (do_allocate_n_init 0 0 3).indices,
        padding_of (do_allocate_n_init 0 0 3).ptr_end ([8, 1, 4].getD j 0) =
          padding_of (do_allocate_n_init 0 0 3).ptr_end ([8, 1, 4].getD id 0) →
        [8, 1, 4].getD j 0 ≤ [8, 1, 4].getD id 0) ∧
      (do_allocate_n_body [8, 1, 4] [8, 1, 4] 0 (do_allocate_n_init 0 0 3)).output.getD id 0 =
        (0 + (do_allocate_n_init 0 0 3).to_allocate +
          padding_of (do_allocate_n_init 0 0 3).ptr_end ([8, 1, 4].getD id 0)) % 2 ^ 32 ∧
      (0 + (do_allocate_n_init 0 0 3).to_allocate +
          padding_of (do_allocate_n_init 0 0 3).ptr_end ([8, 1, 4].getD id 0) < 2 ^ 32 →
        (do_allocate_n_body [8, 1, 4] [8, 1, 4] 0 (do_allocate_n_init 0 0 3)).output.getD id 0 =
          0 + (do_allocate_n_init 0 0 3).to_allocate +
            padding_of (do_allocate_n_init 0 0 3).ptr_end ([8, 1, 4].getD id 0)) ∧
      (∀ j, j ≠ id →
        (do_allocate_n_body [8, 1, 4] [8, 1, 4] 0 (do_allocate_n_init 0 0 3)).output.getD j 0 =
          (do_allocate_n_init 0 0 3).output.getD j 0) ∧
      (do_allocate_n_body [8, 1, 4] [8, 1, 4] 0 (do_allocate_n_init 0 0 3)).to_allocate =
        ((do_allocate_n_init 0 0 3).to_allocate +
          (padding_of (do_allocate_n_init 0 0 3).ptr_end ([8, 1, 4].getD id 0) +
            [8, 1, 4].getD id 0)) % 2 ^ 64 ∧
      (do_allocate_n_body [8, 1, 4] [8, 1, 4] 0 (do_allocate_n_init 0 0 3)).ptr_end =
        ((do_allocate_n_init 0 0 3).ptr_end +
          (padding_of (do_allocate_n_init 0 0 3).ptr_end ([8, 1, 4].getD id 0) +
            [8, 1, 4].getD id 0)) % 2 ^ 64 ∧
      (do_allocate_n_body [8, 1, 4] [8, 1, 4] 0 (do_allocate_n_init 0 0 3)).indices =
        (do_allocate_n_init 0 0 3).indices.erase id :=
  ⟨⟨do_allocate_n_init_shaped 0 0 3, by decide⟩,
    batch_step_selection [8, 1, 4] [8, 1, 4] 0 (do_allocate_n_init 0 0 3)
      (do_allocate_n_init_shaped 0 0 3) (by decide)⟩

/-! ## Offsets are returned in argument order (C9) -/

/-- C9. `reserve<T1, ..., Tn>()`, for distinct types that are not allocated, returns one
offset per type in argument order: element `i` is the offset the directory records for
`Ti`, so `offset_of<T1, ..., Tn>()` returns the same array. On a fresh store
`reserve<double, char, int>()` returns `[0, 12, 8]` and the arena has 13 bytes. -/
theorem reserve_argument_order (base : Nat) (c : HeterogeneousArray) (Ts : List TypeInfo)
    (hle : ∀ T ∈ Ts, T.align ≤ default_alignment)
    (hnot : ∀ T ∈ Ts, c.is_allocated T = false)
    (hnodup : (Ts.map (fun T => T.id)).Nodup) :
    (∃ c1 offs, c.reserve base Ts = .ok (c1, offs) ∧ offs.length = Ts.length ∧
      c1.offset_of Ts = .ok offs ∧
      ∀ i (h : i < Ts.length), c1.offset_of [Ts[i]] = .ok [offs.getD i 0]) ∧
    (base % 64 = 0 →
      returned (HeterogeneousArray.empty.reserve base [double_t, char_t, int_t]) =
          some [0, 12, 8] ∧
        (store_after HeterogeneousArray.empty
          (HeterogeneousArray.empty.reserve base [double_t, char_t, int_t])).data.size = 13) := by
  constructor
  · obtain ⟨d, offs, heq, hlen⟩ := reserve_eq base c Ts hle hnot
    have hfind := emplace_offsets_find Ts c.offsets offs hlen hnodup hnot
    refine ⟨_, offs, heq, hlen, offset_of_eq _ Ts offs hlen hfind, ?_⟩
    intro i h
    exact offset_of_eq _ [Ts[i]] [offs.getD i 0] rfl (fun j hj => by
      have hj0 : j = 0 := by simpa using hj
      subst hj0
      simpa using hfind i h)
  · intro hbase
    have hal : ∀ T ∈ [double_t, char_t, int_t], valid_align T.align := by
      intro T hT
      simp only [List.mem_cons, List.mem_singleton, List.not_mem_nil, or_false] at hT
      rcases hT with h | h | h <;> subst h
      · exact valid_align_pow 3 (by decide)
      · exact valid_align_pow 0 (by decide)
      · exact valid_align_pow 2 (by decide)
    rw [reserve_batch_eq base _ _ (by decide) (fun T hT => (hal T hT).2) (by decide)]
    obtain ⟨h1, h2⟩ := do_allocate_n_final_base base 0 hbase _ hal
    simp only [returned, store_after, HeterogeneousArray.do_allocate_n,
      HeterogeneousArray.empty, h1, h2, Arena.resize]
    decide

/-- C9 at `reserve<double, char, int>()` on a fresh store at the address 64. -/
theorem reserve_argument_order_witness :
    ((∀ T ∈ [double_t, char_t, int_t], T.align ≤ default_alignment) ∧
      (∀ T ∈ [double_t, char_t, int_t], HeterogeneousArray.empty.is_allocated T = false) ∧
      ([double_t, char_t, int_t].map (fun T => T.id)).Nodup) ∧
    (∃ c1 offs, HeterogeneousArray.empty.reserve 64 [double_t, char_t, int_t] = .ok (c1, offs) ∧
      offs.length = [double_t, char_t, int_t].length ∧
      c1.offset_of [double_t, char_t, int_t] = .ok offs ∧
      ∀ i (h : i < [double_t, char_t, int_t].length),
        c1.offset_of [[double_t, char_t, int_t][i]] = .ok [offs.getD i 0]) ∧
    (64 % 64 = 0 →
      returned (HeterogeneousArray.empty.reserve 64 [double_t, char_t, int_t]) =
          some [0, 12, 8] ∧
        (store_after HeterogeneousArray.empty
          (HeterogeneousArray.empty.reserve 64 [double_t, char_t, int_t])).data.size = 13) :=
  ⟨⟨by decide, by decide, by decide⟩,
    reserve_argument_order 64 HeterogeneousArray.empty [double_t, char_t, int_t]
      (by decide) (by decide) (by decide)⟩

/-! ## Total padding of a batch (C8) -/

theorem map_count_emplace_of_true {V : Type} (m : List (Nat × V)) (k k1 : Nat) (v : V)
    (h : map_count m k = true) : map_count (map_emplace m k1 v) k = true := by
  rw [map_count_emplace, h]; rfl

theorem map_count_emplace_self {V : Type} (m : List (Nat × V)) (k : Nat) (v : V) :
    map_count (map_emplace m k v) k = true := by
  rw [map_count_emplace]; simp

theorem map_count_emplace_offsets (Ts : List TypeInfo) :
    ∀ (m : List (Nat × Nat)) (offs : List Nat) (k : Nat), map_count m k = true →
      map_count (HeterogeneousArray.emplace_offsets m Ts offs) k = true := by
  induction Ts with
  | nil => intro m offs k h; simpa [HeterogeneousArray.emplace_offsets] using h
  | cons T Ts ih =>
    intro m offs k h
    cases offs with
    | nil => simpa [HeterogeneousArray.emplace_offsets] using h
    | cons off offs =>
      simp only [HeterogeneousArray.emplace_offsets]
      exact ih _ _ _ (map_count_emplace_of_true m k T.id off h)

theorem map_count_emplace_offsets_mem (Ts : List TypeInfo) :
    ∀ (m : List (Nat × Nat)) (offs : List Nat), Ts.length ≤ offs.length →
      ∀ T ∈ Ts, map_count (HeterogeneousArray.emplace_offsets m Ts offs) T.id = true := by
  induction Ts with
  | nil => intro m offs _ T hT; exact absurd hT (List.not_mem_nil _)
  | cons T Ts ih =>
    intro m offs hlen U hU
    cases offs with
    | nil => simp at hlen
    | cons off offs =>
      simp only [HeterogeneousArray.emplace_offsets]
      rcases List.mem_cons.1 hU with h | h
      · subst h
        exact map_count_emplace_offsets Ts _ _ _ (map_count_emplace_self m U.id off)
      · exact ih _ _ (by simpa using hlen) U h

theorem map_find_filter_isSome {V : Type} (p : Nat × V → Bool) (k : Nat) :
    ∀ (m : List (Nat × V)), (map_find k (m.filter p)).isSome = true →
      (map_find k m).isSome = true := by
  intro m
  induction m with
  | nil => intro h; exact h
  | cons e rest ih =>
    intro h
    by_cases hek : e.1 = k
    · simp [map_find, hek]
    · simp only [map_find, hek, if_false]
      apply ih
      by_cases hp : p e = true
      · simpa [List.filter_cons, hp, map_find, hek] using h
      · simpa [List.filter_cons, hp] using h

theorem map_count_erase_of_true {V : Type} (m : List (Nat × V)) (k k1 : Nat)
    (h : map_count (map_erase m k1) k = true) : map_count m k = true :=
  map_find_filter_isSome _ k m h

theorem map_index_count (m : List (Nat × Nat)) (k k1 : Nat) (h : map_count m k = true) :
    map_count (map_index m k1).1 k = true := by
  unfold map_index
  split
  · exact h
  · by_cases hk : k1 = k
    · simp [map_count, map_find, hk]
    · simpa [map_count, map_find, hk] using h

theorem map_index_count_self (m : List (Nat × Nat)) (k : Nat) :
    map_count (map_index m k).1 k = true := by
  unfold map_index
  split
  · rename_i v hv
    simp [map_count, hv]
  · simp [map_count, map_find]

/-- What `reserve` has done when it returns. -/
theorem reserve_ok {base : Nat} {c c1 : HeterogeneousArray} {Ts : List TypeInfo}
    {r : List Nat} (h : c.reserve base Ts = .ok (c1, r)) :
    (∀ T ∈ Ts, T.align ≤ default_alignment) ∧ (∀ T ∈ Ts, c.is_allocated T = false) ∧
      r.length = Ts.length ∧
      c1.offsets = HeterogeneousArray.emplace_offsets c.offsets Ts r ∧
      c1.destructors = c.destructors := by
  have hstat : HeterogeneousArray.do_allocate_static Ts = true := by
    by_contra hs
    simp [HeterogeneousArray.reserve, hs] at h
  have hany : Ts.any (fun T => c.is_allocated T) = false := by
    by_contra ha
    simp only [Bool.not_eq_false] at ha
    simp [HeterogeneousArray.reserve, hstat, ha] at h
  have hle : ∀ T ∈ Ts, T.align ≤ default_alignment := by
    simp only [HeterogeneousArray.do_allocate_static, Bool.and_eq_true, List.all_eq_true,
      decide_eq_true_eq] at hstat
    exact hstat.1
  have hnot : ∀ T ∈ Ts, c.is_allocated T = false := by
    intro T hT
    simp only [List.any_eq_false] at hany
    simpa using hany T hT
  obtain ⟨d, offs, heq, hlen⟩ := reserve_eq base c Ts hle hnot
  rw [heq] at h
  simp only [Except.ok.injEq, Prod.mk.injEq] at h
  obtain ⟨h1, h2⟩ := h
  subst h2
  subst h1
  exact ⟨hle, hnot, hlen, rfl, rfl⟩

/-- What `construct_1` has done when it returns. -/
theorem construct_1_ok {c c1 : HeterogeneousArray} {T : TypeInfo} {off r : Nat} {v : Val}
    (h : c.construct_1 T off v = .ok (c1, r)) :
    T.is_empty = false ∧ c.is_constructed T = false ∧ r = off ∧
      c1 = { offsets := c.offsets, data := c.data.write off v,
             destructors := map_emplace c.destructors T.id (.destroy_at T) } := by
  unfold HeterogeneousArray.construct_1 at h
  by_cases he : T.is_empty = true
  · simp [he] at h
  · by_cases hc : c.is_constructed T = true
    · simp [he, hc] at h
    · simp only [he, hc, Bool.false_eq_true, if_false, HeterogeneousArray.do_construct,
        HeterogeneousArray.record_dtor, Except.ok.injEq, Prod.mk.injEq] at h
      refine ⟨by simpa using he, by simpa using hc, h.2.symm, h.1.symm⟩

/-! ## Every constructed type is allocated -/

theorem offset_of_ok {c : HeterogeneousArray} {Ts : List TypeInfo} :
    ∀ {offs : List Nat}, c.offset_of Ts = .ok offs →
      ∀ T ∈ Ts, map_count c.offsets T.id = true := by
  induction Ts with
  | nil => intro offs _ T hT; exact absurd hT (List.not_mem_nil _)
  | cons T Ts ih =>
    intro offs h U hU
    unfold HeterogeneousArray.offset_of at h
    cases hf : map_find T.id c.offsets with
    | none => simp [hf] at h
    | some off =>
      cases hr : c.offset_of Ts with
      | error e => simp [hf, hr] at h
      | ok os =>
        rcases List.mem_cons.1 hU with h1 | h1
        · subst h1; simp [map_count, hf]
        · exact ih hr U h1

theorem registered_allocated_reserve {base : Nat} {c c1 : HeterogeneousArray}
    {Ts : List TypeInfo} {r : List Nat} (hc : c.registered_allocated)
    (h : c.reserve base Ts = .ok (c1, r)) : c1.registered_allocated := by
  obtain ⟨-, -, -, ho, hd⟩ := reserve_ok h
  intro k hk
  rw [ho]
  rw [hd] at hk
  exact map_count_emplace_offsets Ts _ _ _ (hc k hk)

theorem registered_allocated_construct_1 {c c1 : HeterogeneousArray} {T : TypeInfo}
    {off r : Nat} {v : Val} (hc : c.registered_allocated)
    (hT : map_count c.offsets T.id = true)
    (h : c.construct_1 T off v = .ok (c1, r)) :
    c1.registered_allocated ∧ c1.offsets = c.offsets := by
  obtain ⟨-, -, -, heq⟩ := construct_1_ok h
  subst heq
  refine ⟨?_, rfl⟩
  intro k hk
  simp only [map_count_emplace, Bool.or_eq_true, decide_eq_true_eq] at hk
  rcases hk with hk | hk
  · exact hc k hk
  · rw [← hk]; exact hT

theorem registered_allocated_construct_n (args : List (TypeInfo × Val)) :
    ∀ {c c1 : HeterogeneousArray} {offs r : List Nat}, c.registered_allocated →
      (∀ a ∈ args, map_count c.offsets a.1.id = true) →
      c.construct_n args offs = .ok (c1, r) →
      c1.registered_allocated ∧ c1.offsets = c.offsets := by
  induction args with
  | nil =>
    intro c c1 offs r hc _ h
    simp only [HeterogeneousArray.construct_n, Except.ok.injEq, Prod.mk.injEq] at h
    rw [← h.1]; exact ⟨hc, rfl⟩
  | cons a rest ih =>
    intro c c1 offs r hc hall h
    obtain ⟨T, v⟩ := a
    unfold HeterogeneousArray.construct_n at h
    cases h1 : c.construct_1 T (offs.headD 0) v with
    | error e => rw [h1] at h; simp at h
    | ok p =>
      obtain ⟨c2, r2⟩ := p
      obtain ⟨hc2, ho2⟩ := registered_allocated_construct_1 hc
        (hall (T, v) (List.mem_cons_self _ _)) h1
      rw [h1] at h
      cases h3 : c2.construct_n rest offs.tail with
      | error e => simp only [h3] at h; simp at h
      | ok q =>
        obtain ⟨c3, r3⟩ := q
        simp only [h3, Except.ok.injEq, Prod.mk.injEq] at h
        obtain ⟨hc3, ho3⟩ := ih hc2 (fun a ha => by
          rw [ho2]; exact hall a (List.mem_cons_of_mem _ ha)) h3
        rw [← h.1]
        exact ⟨hc3, ho3.trans ho2⟩

theorem registered_allocated_construct {c c1 : HeterogeneousArray}
    {args : List (TypeInfo × Val)} {r : List Nat} (hc : c.registered_allocated)
    (h : c.construct args = .ok (c1, r)) : c1.registered_allocated := by
  unfold HeterogeneousArray.construct at h
  split at h
  · simp at h
  · rcases args with _ | ⟨⟨T, v⟩, _ | ⟨b, rest⟩⟩
    · simp at h
    · simp only at h
      cases h1 : c.offset_of [T] with
      | error e => rw [h1] at h; simp at h
      | ok offs =>
        have hT := offset_of_ok h1 T (List.mem_singleton_self T)
        rw [h1] at h
        cases h2 : c.construct_1 T (offs.headD 0) v with
        | error e => simp only [h2] at h; simp at h
        | ok p =>
          obtain ⟨c2, r2⟩ := p
          simp only [h2, Except.ok.injEq, Prod.mk.injEq] at h
          rw [← h.1]
          exact (registered_allocated_construct_1 hc hT h2).1
    · simp only at h
      split at h
      · simp at h
      · cases h1 : c.offset_of (((T, v) :: b :: rest).map (fun a => a.1)) with
        | error e => rw [h1] at h; simp at h
        | ok offs =>
          rw [h1] at h
          have hall := offset_of_ok h1
          exact (registered_allocated_construct_n _ hc (fun a ha =>
            hall a.1 (List.mem_map_of_mem _ ha)) h).1

theorem registered_allocated_record (c : HeterogeneousArray) (T : TypeInfo)
    (hc : c.registered_allocated) :
    ((c.record_type T.id 0).record_dtor T T.id).registered_allocated := by
  intro k hk
  have hk2 : map_count c.destructors k = true ∨ T.id = k := by
    unfold HeterogeneousArray.record_dtor HeterogeneousArray.record_type at hk
    split at hk <;>
      simpa only [map_count_emplace, Bool.or_eq_true, decide_eq_true_eq] using hk
  have ho : ((c.record_type T.id 0).record_dtor T T.id).offsets =
      map_emplace c.offsets T.id 0 := by
    unfold HeterogeneousArray.record_dtor HeterogeneousArray.record_type
    split <;> rfl
  rw [ho, map_count_emplace]
  rcases hk2 with h | h
  · simp [hc k h]
  · simp [h]

theorem registered_allocated_insert_1 {base : Nat} {c c1 : HeterogeneousArray}
    {T : TypeInfo} {v : Val} {r : List Nat} (hc : c.registered_allocated)
    (h : c.insert_1 base T v = .ok (c1, r)) : c1.registered_allocated := by
  unfold HeterogeneousArray.insert_1 at h
  split at h
  · simp only [Except.ok.injEq, Prod.mk.injEq] at h
    rw [← h.1]
    exact registered_allocated_record c T hc
  · split at h
    · simp at h
    · split at h
      · simp at h
      · cases h1 : c.reserve base [T] with
        | error e => rw [h1] at h; simp at h
        | ok p =>
          obtain ⟨c2, n⟩ := p
          rw [h1] at h
          have hc2 := registered_allocated_reserve hc h1
          obtain ⟨-, -, hlen, ho, -⟩ := reserve_ok h1
          have hT : map_count c2.offsets T.id = true := by
            rw [ho]
            exact map_count_emplace_offsets_mem [T] _ _ (by rw [hlen]) T
              (List.mem_singleton_self T)
          cases h2 : c2.construct_1 T (n.headD 0) v with
          | error e => simp only [h2] at h; simp at h
          | ok q =>
            obtain ⟨c3, r3⟩ := q
            simp only [h2, Except.ok.injEq, Prod.mk.injEq] at h
            rw [← h.1]
            exact (registered_allocated_construct_1 hc2 hT h2).1

theorem foldl_record_type (Ts : List TypeInfo) :
    ∀ (c : HeterogeneousArray),
      (Ts.foldl (fun c T => c.record_type T.id 0) c).destructors = c.destructors ∧
      (∀ k, map_count c.offsets k = true →
        map_count (Ts.foldl (fun c T => c.record_type T.id 0) c).offsets k = true) ∧
      ∀ T ∈ Ts, map_count (Ts.foldl (fun c T => c.record_type T.id 0) c).offsets T.id = true := by
  induction Ts with
  | nil => intro c; exact ⟨rfl, fun k h => h, fun T hT => absurd hT (List.not_mem_nil _)⟩
  | cons T Ts ih =>
    intro c
    simp only [List.foldl_cons]
    obtain ⟨h1, h2, h3⟩ := ih (c.record_type T.id 0)
    refine ⟨h1, ?_, ?_⟩
    · intro k hk
      exact h2 k (map_count_emplace_of_true _ _ _ _ hk)
    · intro U hU
      rcases List.mem_cons.1 hU with h | h
      · subst h
        exact h2 _ (map_count_emplace_self _ _ _)
      · exact h3 U h

theorem foldl_record_dtor (Ts : List TypeInfo) :
    ∀ (c : HeterogeneousArray),
      (Ts.foldl (fun c T => c.record_dtor T T.id) c).offsets = c.offsets ∧
      ∀ k, map_count (Ts.foldl (fun c T => c.record_dtor T T.id) c).destructors k = true →
        map_count c.destructors k = true ∨ ∃ T ∈ Ts, T.id = k := by
  induction Ts with
  | nil => intro c; exact ⟨rfl, fun k h => Or.inl h⟩
  | cons T Ts ih =>
    intro c
    simp only [List.foldl_cons]
    obtain ⟨h1, h2⟩ := ih (c.record_dtor T T.id)
    have ho : (c.record_dtor T T.id).offsets = c.offsets := by
      unfold HeterogeneousArray.record_dtor; split <;> rfl
    refine ⟨h1.trans ho, ?_⟩
    intro k hk
    rcases h2 k hk with h | ⟨U, hU, hUk⟩
    · have : map_count c.destructors k = true ∨ T.id = k := by
        unfold HeterogeneousArray.record_dtor at h
        split at h <;>
          simpa only [map_count_emplace, Bool.or_eq_true, decide_eq_true_eq] using h
      rcases this with h3 | h3
      · exact Or.inl h3
      · exact Or.inr ⟨T, List.mem_cons_self _ _, h3⟩
    · exact Or.inr ⟨U, List.mem_cons_of_mem _ hU, hUk⟩

theorem registered_allocated_insert_n {base : Nat} {c c1 : HeterogeneousArray}
    {args : List (TypeInfo × Val)} {r : List Nat} (hc : c.registered_allocated)
    (h : c.insert_n base args = .ok (c1, r)) : c1.registered_allocated := by
  unfold HeterogeneousArray.insert_n at h
  simp only at h
  split at h
  · simp at h
  · split at h
    · simp only [Except.ok.injEq, Prod.mk.injEq] at h
      rw [← h.1]
      obtain ⟨t1, t2, t3⟩ := foldl_record_type (args.map (fun a => a.1)) c
      obtain ⟨d1, d2⟩ := foldl_record_dtor (args.map (fun a => a.1))
        ((args.map (fun a => a.1)).foldl (fun c T => c.record_type T.id 0) c)
      intro k hk
      rw [d1]
      rcases d2 k hk with h1 | ⟨T, hT, hTk⟩
      · rw [t1] at h1
        exact t2 k (hc k h1)
      · rw [← hTk]; exact t3 T hT
    · split at h
      · simp at h
      · split at h
        · simp at h
        · cases h1 : c.reserve base (args.map (fun a => a.1)) with
          | error e => rw [h1] at h; simp at h
          | ok p =>
            obtain ⟨c2, offs⟩ := p
            rw [h1] at h
            simp only at h
            have hc2 := registered_allocated_reserve hc h1
            obtain ⟨-, -, hlen, ho, -⟩ := reserve_ok h1
            refine (registered_allocated_construct_n args hc2 (fun a ha => ?_) h).1
            rw [ho]
            exact map_count_emplace_offsets_mem _ _ _ (by rw [hlen]) a.1
              (List.mem_map_of_mem _ ha)

theorem registered_allocated_insert {base : Nat} {c c1 : HeterogeneousArray}
    {args : List (TypeInfo × Val)} {r : List Nat} (hc : c.registered_allocated)
    (h : c.insert base args = .ok (c1, r)) : c1.registered_allocated := by
  unfold HeterogeneousArray.insert at h
  rcases args with _ | ⟨⟨T, v⟩, _ | ⟨b, rest⟩⟩
  · exact registered_allocated_insert_n hc h
  · exact registered_allocated_insert_1 hc h
  · exact registered_allocated_insert_n hc h

theorem registered_allocated_assign_1 {c c1 : HeterogeneousArray} {T : TypeInfo} {v : Val}
    {r : Nat} (hc : c.registered_allocated) (h : c.assign_1 T v = .ok (c1, r)) :
    c1.registered_allocated := by
  have hc2 : ({ c with offsets := (map_index c.offsets T.id).1 } :
      HeterogeneousArray).registered_allocated := by
    intro k hk
    exact map_index_count _ _ _ (hc k hk)
  unfold HeterogeneousArray.assign_1 at h
  split at h
  · simp at h
  · split at h
    · exact (registered_allocated_construct_1 hc2 (map_index_count_self _ _) h).1
    · simp only [HeterogeneousArray.do_assign, Except.ok.injEq, Prod.mk.injEq] at h
      rw [← h.1]
      exact hc2

theorem registered_allocated_assign_n (args : List (TypeInfo × Val)) :
    ∀ {c c1 : HeterogeneousArray} {r : List Nat}, c.registered_allocated →
      c.assign_n args = .ok (c1, r) → c1.registered_allocated := by
  induction args with
  | nil =>
    intro c c1 r hc h
    simp only [HeterogeneousArray.assign_n, Except.ok.injEq, Prod.mk.injEq] at h
    rw [← h.1]; exact hc
  | cons a rest ih =>
    intro c c1 r hc h
    obtain ⟨T, v⟩ := a
    unfold HeterogeneousArray.assign_n at h
    cases h1 : c.assign_1 T v with
    | error e => rw [h1] at h; simp at h
    | ok p =>
      obtain ⟨c2, r2⟩ := p
      rw [h1] at h
      have hc2 := registered_allocated_assign_1 hc h1
      cases h3 : c2.assign_n rest with
      | error e => simp only [h3] at h; simp at h
      | ok q =>
        obtain ⟨c3, r3⟩ := q
        simp only [h3, Except.ok.injEq, Prod.mk.injEq] at h
        rw [← h.1]
        exact ih hc2 h3

theorem registered_allocated_assign {c c1 : HeterogeneousArray}
    {args : List (TypeInfo × Val)} {r : List Nat} (hc : c.registered_allocated)
    (h : c.assign args = .ok (c1, r)) : c1.registered_allocated := by
  unfold HeterogeneousArray.assign at h
  rcases args with _ | ⟨⟨T, v⟩, _ | ⟨b, rest⟩⟩
  · simp at h
  · simp only at h
    cases h1 : c.assign_1 T v with
    | error e => rw [h1] at h; simp at h
    | ok p =>
      obtain ⟨c2, r2⟩ := p
      simp only [h1, Except.ok.injEq, Prod.mk.injEq] at h
      rw [← h.1]
      exact registered_allocated_assign_1 hc h1
  · simp only at h
    split at h
    · simp at h
    · exact registered_allocated_assign_n _ hc h

theorem registered_allocated_insert_or_assign_1 {base : Nat} {c c1 : HeterogeneousArray}
    {T : TypeInfo} {v : Val} {r : List Nat} (hc : c.registered_allocated)
    (h : c.insert_or_assign_1 base T v = .ok (c1, r)) : c1.registered_allocated := by
  unfold HeterogeneousArray.insert_or_assign_1 at h
  split at h
  · simp at h
  · split at h
    · exact registered_allocated_insert hc h
    · exact registered_allocated_assign hc h

theorem registered_allocated_insert_or_assign {base : Nat} (args : List (TypeInfo × Val)) :
    ∀ {c c1 : HeterogeneousArray} {r : List Nat}, c.registered_allocated →
      c.insert_or_assign base args = .ok (c1, r) → c1.registered_allocated := by
  induction args with
  | nil =>
    intro c c1 r hc h
    simp only [HeterogeneousArray.insert_or_assign, Except.ok.injEq, Prod.mk.injEq] at h
    rw [← h.1]; exact hc
  | cons a rest ih =>
    intro c c1 r hc h
    obtain ⟨T, v⟩ := a
    unfold HeterogeneousArray.insert_or_assign at h
    cases h1 : c.insert_or_assign_1 base T v with
    | error e => rw [h1] at h; simp at h
    | ok p =>
      obtain ⟨c2, r2⟩ := p
      rw [h1] at h
      have hc2 := registered_allocated_insert_or_assign_1 hc h1
      cases h3 : c2.insert_or_assign base rest with
      | error e => simp only [h3] at h; simp at h
      | ok q =>
        obtain ⟨c3, r3⟩ := q
        simp only [h3, Except.ok.injEq, Prod.mk.injEq] at h
        rw [← h.1]
        exact ih hc2 h3

theorem registered_allocated_do_destruct {c c1 : HeterogeneousArray} {T : TypeInfo}
    {called : List Nat} (hc : c.registered_allocated)
    (h : c.do_destruct T = .ok (c1, called)) : c1.registered_allocated := by
  have hc2 : ({ c with destructors := map_erase c.destructors T.id } :
      HeterogeneousArray).registered_allocated := by
    intro k hk
    exact hc k (map_count_erase_of_true _ _ _ hk)
  unfold HeterogeneousArray.do_destruct at h
  split at h
  · simp at h
  · simp only at h
    split at h
    · split at h
      · simp at h
      · split at h
        · simp at h
        · simp only [Except.ok.injEq, Prod.mk.injEq] at h
          rw [← h.1]; exact hc2
    · simp only [Except.ok.injEq, Prod.mk.injEq] at h
      rw [← h.1]; exact hc2

theorem registered_allocated_destruct (Ts : List TypeInfo) :
    ∀ {c c1 : HeterogeneousArray} {called : List Nat}, c.registered_allocated →
      c.destruct Ts = .ok (c1, called) → c1.registered_allocated := by
  induction Ts with
  | nil =>
    intro c c1 called hc h
    simp only [HeterogeneousArray.destruct, Except.ok.injEq, Prod.mk.injEq] at h
    rw [← h.1]; exact hc
  | cons T Ts ih =>
    intro c c1 called hc h
    unfold HeterogeneousArray.destruct at h
    cases h1 : c.do_destruct T with
    | error e => rw [h1] at h; simp at h
    | ok p =>
      obtain ⟨c2, r2⟩ := p
      rw [h1] at h
      have hc2 := registered_allocated_do_destruct hc h1
      cases h3 : c2.destruct Ts with
      | error e => simp only [h3] at h; simp at h
      | ok q =>
        obtain ⟨c3, r3⟩ := q
        simp only [h3, Except.ok.injEq, Prod.mk.injEq] at h
        rw [← h.1]
        exact ih hc2 h3

theorem registered_allocated_clear {c c1 : HeterogeneousArray} {called : List Nat}
    (h : c.clear = .ok (c1, called)) : c1.registered_allocated := by
  unfold HeterogeneousArray.clear at h
  split at h
  · simp at h
  · simp only [Except.ok.injEq, Prod.mk.injEq] at h
    rw [← h.1]
    intro k hk
    simp [map_count, map_find] at hk

/-- In every reachable store, every constructed type is allocated. -/
theorem Reachable.registered_allocated {U : TypeInfo → Prop} {c : HeterogeneousArray}
    (h : Reachable U c) : c.registered_allocated := by
  induction h with
  | empty => intro k hk; simp [HeterogeneousArray.empty, map_count, map_find] at hk
  | reserve _ _ _ heq ih => exact registered_allocated_reserve ih heq
  | construct _ _ heq ih => exact registered_allocated_construct ih heq
  | insert _ _ _ heq ih => exact registered_allocated_insert ih heq
  | assign _ _ heq ih => exact registered_allocated_assign ih heq
  | insert_or_assign _ _ _ heq ih => exact registered_allocated_insert_or_assign _ ih heq
  | destruct _ _ heq ih => exact registered_allocated_destruct _ ih heq
  | clear _ heq _ => exact registered_allocated_clear heq

/-! ## Bytes of the arena -/

theorem read_write_same (d : Arena) (n : Nat) (v : List Nat) :
    (d.write n v).read n v.length = v := by
  apply List.ext_getElem
  · simp [Arena.read]
  · intro i h1 h2
    have hi : i < v.length := h2
    simp [Arena.read, Arena.write, hi, List.getD_eq_getElem?_getD, List.getElem?_eq_getElem]

theorem read_write_disjoint (d : Arena) (n : Nat) (v : List Nat) (m k : Nat)
    (h : m + k ≤ n ∨ n + v.length ≤ m) : (d.write n v).read m k = d.read m k := by
  apply List.ext_getElem
  · simp [Arena.read]
  · intro i h1 h2
    have hi : i < k := by simpa [Arena.read] using h1
    have hc : ¬ (n ≤ m + i ∧ m + i < n + v.length) := by omega
    simp [Arena.read, Arena.write, hc]

theorem read_resize (d : Arena) (n m k : Nat) (h : m + k ≤ d.size) :
    (d.resize n).read m k = d.read m k := by
  apply List.ext_getElem
  · simp [Arena.read]
  · intro i h1 h2
    have hi : i < k := by simpa [Arena.read] using h1
    have hc : ¬ (d.size ≤ m + i ∧ m + i < n) := by omega
    simp [Arena.read, Arena.resize, hc]

/-! ## `insert`, `get` and `assign` on one type -/

theorem contains_single (c : HeterogeneousArray) (T : TypeInfo) :
    c.contains [T] = c.is_constructed T := by
  simp [HeterogeneousArray.contains]

/-- `get<T>()` of an allocated, non-empty type reads the bytes at its recorded offset. -/
theorem get_single_eq (c : HeterogeneousArray) (T : TypeInfo) (off : Nat)
    (he : T.is_empty = false) (hf : map_find T.id c.offsets = some off) :
    c.get [T] = .ok [c.data.read off T.size] := by
  simp [HeterogeneousArray.get, HeterogeneousArray.get_at, HeterogeneousArray.offset_of,
    HeterogeneousArray.check_offsets, HeterogeneousArray.do_get, he, hf]

theorem offset_of_single_eq (c : HeterogeneousArray) (T : TypeInfo) :
    c.offset_of [T] =
      match map_find T.id c.offsets with
      | none => .error .out_of_range
      | some off => .ok [off] := by
  cases h : map_find T.id c.offsets <;> simp [HeterogeneousArray.offset_of, h]

/-- `insert<T>(v)` of a non-empty type that is neither allocated nor constructed: the
store it leaves and the reference it returns. -/
theorem insert_single_eq (base : Nat) (c : HeterogeneousArray) (T : TypeInfo) (v : Val)
    (he : T.is_empty = false) (hle : T.align ≤ default_alignment)
    (hna : c.is_allocated T = false) (hnc : c.is_constructed T = false) :
    c.insert base [(T, v)] =
      .ok ({ offsets := map_emplace c.offsets T.id ((c.do_allocate_1 base T).2.headD 0),
             data := (c.do_allocate_1 base T).1.data.write
               ((c.do_allocate_1 base T).2.headD 0) v,
             destructors := map_emplace c.destructors T.id (.destroy_at T) },
        [(c.do_allocate_1 base T).2.headD 0]) := by
  have hs : HeterogeneousArray.do_allocate_static [T] = true :=
    do_allocate_static_eq_true (by simpa using hle)
  have hnc2 : HeterogeneousArray.is_constructed
      { (c.do_allocate_1 base T).1 with
        offsets := map_emplace c.offsets T.id ((c.do_allocate_1 base T).2.headD 0) } T =
      false := hnc
  simp only [HeterogeneousArray.insert, HeterogeneousArray.insert_1, he, hs, contains_single,
    hnc, reserve_single_eq base c T hle hna, HeterogeneousArray.construct_1, hnc2,
    HeterogeneousArray.do_construct, HeterogeneousArray.record_dtor]
  simp [HeterogeneousArray.do_allocate_1]

/-! ## Round trip of `insert` and `get` (C4) -/

theorem Reachable.not_constructed {W : TypeInfo → Prop} {c : HeterogeneousArray}
    (hr : Reachable W c) {T : TypeInfo} (hna : c.is_allocated T = false) :
    c.is_constructed T = false := by
  by_contra h
  simp only [Bool.not_eq_false] at h
  have := hr.registered_allocated T.id h
  simp only [HeterogeneousArray.is_allocated] at hna
  rw [hna] at this
  exact absurd this (by simp)

/-- C4. In every reachable store in which the non-empty type `T` is not yet reserved,
`insert<T>(v)` returns a reference to an object equal to `v`, and afterwards
`contains<T>()` is true and `get<T>()` is `v`. -/
theorem insert_get_round_trip {W : TypeInfo → Prop} (base : Nat) (c : HeterogeneousArray)
    (hr : Reachable W c) (T : TypeInfo) (v : Val) (he : T.is_empty = false)
    (hle : T.align ≤ default_alignment) (hna : c.is_allocated T = false)
    (hv : v.length = T.size) :
    ∃ c1 r, c.insert base [(T, v)] = .ok (c1, [r]) ∧ c1.do_get T r = v ∧
      c1.contains [T] = true ∧ c1.get [T] = .ok [v] := by
  have hnc := hr.not_constructed hna
  refine ⟨_, _, insert_single_eq base c T v he hle hna hnc, ?_, ?_, ?_⟩
  · simp only [HeterogeneousArray.do_get]
    rw [← hv]
    exact read_write_same _ _ _
  · rw [contains_single]
    exact map_count_emplace_self _ _ _
  · rw [get_single_eq _ T _ he (map_find_emplace_self _ _ _ hna)]
    simp only
    rw [← hv, read_write_same]

/-- C4 at `insert<double>(v)` on a fresh store. -/
theorem insert_get_round_trip_witness :
    (Reachable (fun _ => True) HeterogeneousArray.empty ∧ double_t.is_empty = false ∧
      double_t.align ≤ default_alignment ∧
      HeterogeneousArray.empty.is_allocated double_t = false ∧
      [1, 2, 3, 4, 5, 6, 7, 8].length = double_t.size) ∧
    ∃ c1 r, HeterogeneousArray.empty.insert 0 [(double_t, [1, 2, 3, 4, 5, 6, 7, 8])] =
        .ok (c1, [r]) ∧
      c1.do_get double_t r = [1, 2, 3, 4, 5, 6, 7, 8] ∧
      c1.contains [double_t] = true ∧ c1.get [double_t] = .ok [[1, 2, 3, 4, 5, 6, 7, 8]] :=
  ⟨⟨Reachable.empty, rfl, by decide, rfl, rfl⟩,
    insert_get_round_trip 0 HeterogeneousArray.empty
      (Reachable.empty : Reachable (fun _ => True) HeterogeneousArray.empty) double_t
      [1, 2, 3, 4, 5, 6, 7, 8] rfl (by decide) rfl rfl⟩

/-! ## `assign` on a constructed type (C10) -/

theorem map_find_of_count {V : Type} {m : List (Nat × V)} {k : Nat}
    (h : map_count m k = true) : ∃ v, map_find k m = some v := by
  simp only [map_count] at h
  exact Option.isSome_iff_exists.1 h

/-- C10. In every reachable store in which the non-empty type `T` is constructed,
`assign<T>(v2)` returns a reference to the slot of `T` and makes `get<T>()` equal to
`v2`; the offset of `T`, the whole offset directory, the arena length and the
destructor registry (the set of constructed types) are unchanged. -/
theorem assign_in_place {W : TypeInfo → Prop} (c : HeterogeneousArray)
    (hr : Reachable W c) (T : TypeInfo) (v2 : Val) (he : T.is_empty = false)
    (hc : c.is_constructed T = true) (hv : v2.length = T.size) :
    ∃ c1 r, c.assign [(T, v2)] = .ok (c1, [r]) ∧ c1.get [T] = .ok [v2] ∧
      c.offset_of [T] = .ok [r] ∧ c1.offset_of [T] = .ok [r] ∧
      c1.offsets = c.offsets ∧ c1.data.size = c.data.size ∧
      c1.destructors = c.destructors ∧ ∀ V, c1.is_constructed V = c.is_constructed V := by
  obtain ⟨off, hoff⟩ := map_find_of_count (hr.registered_allocated T.id hc)
  have hidx : map_index c.offsets T.id = (c.offsets, off) := by
    simp [map_index, hoff]
  have heq : c.assign [(T, v2)] =
      .ok ({ offsets := c.offsets, data := c.data.write off v2,
             destructors := c.destructors }, [off]) := by
    simp [HeterogeneousArray.assign, HeterogeneousArray.assign_1, he, hc, hidx,
      HeterogeneousArray.do_assign]
  refine ⟨_, _, heq, ?_, ?_, ?_, rfl, rfl, rfl, fun V => rfl⟩
  · have hg := get_single_eq
      (HeterogeneousArray.mk c.offsets (c.data.write off v2) c.destructors) T off he hoff
    rw [hg]
    simp only
    rw [← hv, read_write_same]
  · rw [offset_of_single_eq, hoff]
  · rw [offset_of_single_eq]
    simp only [hoff]

theorem int_store_reachable : Reachable (fun _ => True) int_store :=
  @Reachable.insert (fun _ => True) HeterogeneousArray.empty int_store 0
    [(int_t, [7, 0, 0, 0])] [0] Reachable.empty rfl
    (by intro a ha; simp at ha; subst ha; exact ⟨trivial, rfl⟩) rfl

/-- C10 at `assign<int>(9)` after `insert<int>(7)` on a fresh store. -/
theorem assign_in_place_witness :
    (Reachable (fun _ => True) int_store ∧ int_t.is_empty = false ∧
      int_store.is_constructed int_t = true ∧ [9, 0, 0, 0].length = int_t.size) ∧
    ∃ c1 r, int_store.assign [(int_t, [9, 0, 0, 0])] = .ok (c1, [r]) ∧
      c1.get [int_t] = .ok [[9, 0, 0, 0]] ∧
      int_store.offset_of [int_t] = .ok [r] ∧ c1.offset_of [int_t] = .ok [r] ∧
      c1.offsets = int_store.offsets ∧ c1.data.size = int_store.data.size ∧
      c1.destructors = int_store.destructors ∧
      ∀ V, c1.is_constructed V = int_store.is_constructed V :=
  ⟨⟨int_store_reachable, rfl, by decide, rfl⟩,
    assign_in_place int_store int_store_reachable int_t [9, 0, 0, 0] rfl (by decide) rfl⟩

/-! ## Non-aliasing (C5) -/

theorem get_single_congr (c c1 : HeterogeneousArray) (U : TypeInfo)
    (hf : map_find U.id c1.offsets = map_find U.id c.offsets)
    (hread : ∀ off, map_find U.id c.offsets = some off →
      c1.data.read off U.size = c.data.read off U.size) :
    c1.offset_of [U] = c.offset_of [U] ∧ c1.get [U] = c.get [U] := by
  constructor
  · rw [offset_of_single_eq, offset_of_single_eq, hf]
  · by_cases he : U.is_empty = true
    · simp [HeterogeneousArray.get, he]
    · simp only [Bool.not_eq_true] at he
      cases h : map_find U.id c.offsets with
      | none =>
        simp [HeterogeneousArray.get, he, HeterogeneousArray.offset_of, hf, h]
      | some off =>
        rw [get_single_eq c U off he h, get_single_eq c1 U off he (hf.trans h), hread off h]

/-- C5, as amended. Let `U` be a type whose recorded byte range lies inside the arena
(as it does after `reserve` or `insert`; `U` may be constructed or not), and `T` another
type, not yet reserved, such that the arena end plus the padding of `T` stays below
`2 ^ 32`. Then `insert<T>(v)` and `reserve<T>()` leave the offset recorded for `U` and
the value of `get<U>()` unchanged. -/
theorem insert_preserves_others {W : TypeInfo → Prop} (base : Nat) (hbase : base % 64 = 0)
    (c : HeterogeneousArray) (hr : Reachable W c) (U T : TypeInfo) (v : Val)
    (hT : valid_align T.align) (he : T.is_empty = false)
    (hna : c.is_allocated T = false) (hne : T.id ≠ U.id)
    (hrange : ∀ off, map_find U.id c.offsets = some off → off + U.size ≤ c.data.size)
    (hbound : c.data.size + aligned_padding c.data.size T.align < 2 ^ 32) :
    (∃ c1 r, c.insert base [(T, v)] = .ok (c1, r) ∧
      c1.offset_of [U] = c.offset_of [U] ∧ c1.get [U] = c.get [U]) ∧
    (∃ c2 r, c.reserve base [T] = .ok (c2, r) ∧
      c2.offset_of [U] = c.offset_of [U] ∧ c2.get [U] = c.get [U]) := by
  have hnc := hr.not_constructed hna
  have hoff : (c.do_allocate_1 base T).2.headD 0 =
      c.data.size + aligned_padding c.data.size T.align := by
    rw [do_allocate_1_eq base hbase c T hT]
    simp only [List.headD_cons, to_offset_t, to_size_t]
    unfold aligned_padding at hbound ⊢
    omega
  have hdata : (c.do_allocate_1 base T).1.data =
      c.data.resize (to_size_t (c.data.size + padding_of (to_size_t (base + c.data.size))
        T.align + T.size)) := rfl
  constructor
  · refine ⟨_, _, insert_single_eq base c T v he hT.2 hna hnc, ?_⟩
    apply get_single_congr
    · exact map_find_emplace_ne _ _ hne
    · intro off hf
      have := hrange off hf
      simp only
      rw [read_write_disjoint _ _ _ _ _ (Or.inl (by rw [hoff]; omega)), hdata,
        read_resize _ _ _ _ this]
  · refine ⟨_, _, reserve_single_eq base c T hT.2 hna, ?_⟩
    apply get_single_congr
    · exact map_find_emplace_ne _ _ hne
    · intro off hf
      have := hrange off hf
      simp only
      rw [hdata, read_resize _ _ _ _ this]

/-- C5 fails on the store reached by `insert<int>(7)` and `reserve<Big>()`: the arena
has `2 ^ 32` bytes, `insert<char>('a')` gets the offset `0` and overwrites the first
byte of the `int`. -/
theorem insert_preserves_others_counterexample :
    int_big_store.is_constructed int_t = true ∧ int_big_store.is_allocated char_t = false ∧
      int_big_store.data.size = 4294967296 ∧
      int_big_store.get [int_t] = .ok [[7, 0, 0, 0]] ∧
      returned (int_big_store.insert 0 [(char_t, [97])]) = some [0] ∧
      (store_after int_big_store (int_big_store.insert 0 [(char_t, [97])])).get [int_t] =
        .ok [[97, 0, 0, 0]] := by
  exact ⟨by decide, by decide, by decide, rfl, by decide, rfl⟩

/-- C5, as amended, at `insert<double>(v)` and `reserve<double>()` after
`insert<int>(7)` on a fresh store. -/
theorem insert_preserves_others_witness :
    (64 % 64 = 0 ∧ Reachable (fun _ => True) int_store ∧ valid_align double_t.align ∧
      double_t.is_empty = false ∧ int_store.is_allocated double_t = false ∧
      double_t.id ≠ int_t.id ∧
      (∀ off, map_find int_t.id int_store.offsets = some off →
        off + int_t.size ≤ int_store.data.size) ∧
      int_store.data.size + aligned_padding int_store.data.size double_t.align < 2 ^ 32) ∧
    ((∃ c1 r, int_store.insert 64 [(double_t, [1, 2, 3, 4, 5, 6, 7, 8])] = .ok (c1, r) ∧
      c1.offset_of [int_t] = int_store.offset_of [int_t] ∧
      c1.get [int_t] = int_store.get [int_t]) ∧
    (∃ c2 r, int_store.reserve 64 [double_t] = .ok (c2, r) ∧
      c2.offset_of [int_t] = int_store.offset_of [int_t] ∧
      c2.get [int_t] = int_store.get [int_t])) :=
  have hrange : ∀ off, map_find int_t.id int_store.offsets = some off →
      off + int_t.size ≤ int_store.data.size := by
    intro off h
    have h0 : map_find int_t.id int_store.offsets = some 0 := by decide
    rw [h0] at h
    cases h
    decide
  ⟨⟨by decide, int_store_reachable, valid_align_pow 3 (by decide), rfl, by decide, by decide,
      hrange, by decide⟩,
    insert_preserves_others 64 (by decide) int_store int_store_reachable int_t double_t
      [1, 2, 3, 4, 5, 6, 7, 8] (valid_align_pow 3 (by decide)) rfl (by decide) (by decide)
      hrange (by decide)⟩

/-! ## The end-to-end scenario (C6) -/

/-- C6. On a fresh store, `insert` of a `double` and then of an `int` (any values, any
base addresses that are multiples of 64) returns references at the offsets 0 and 8;
afterwards `offset_of<double>()` is 0, `offset_of<int>()` is 8 (the size of a `double`),
`offset_of<int, double>()` is `[8, 0]`, both values are returned by `get`, and the arena
has 12 bytes. -/
theorem insert_double_int (b1 b2 : Nat) (hb1 : b1 % 64 = 0) (hb2 : b2 % 64 = 0)
    (vd vi : Val) (hvd : vd.length = double_t.size) (hvi : vi.length = int_t.size) :
    ∃ c1 c2, HeterogeneousArray.empty.insert b1 [(double_t, vd)] = .ok (c1, [0]) ∧
      c1.insert b2 [(int_t, vi)] = .ok (c2, [8]) ∧
      c2.offset_of [double_t] = .ok [0] ∧ c2.offset_of [int_t] = .ok [8] ∧
      c2.offset_of [int_t, double_t] = .ok [8, 0] ∧
      c2.get [int_t] = .ok [vi] ∧ c2.get [double_t] = .ok [vd] ∧
      c2.get [double_t, int_t] = .ok [vd, vi] ∧ c2.data.size = 12 := by
  have hd := valid_align_pow 3 (by decide)
  have hi := valid_align_pow 2 (by decide)
  have e1 : HeterogeneousArray.empty.insert b1 [(double_t, vd)] =
      .ok (double_store vd, [0]) := by
    rw [insert_single_eq b1 HeterogeneousArray.empty double_t vd rfl (by decide) rfl rfl,
      do_allocate_1_eq b1 hb1 _ double_t hd]
    rfl
  have e2 : (double_store vd).insert b2 [(int_t, vi)] = .ok (double_int_store vd vi, [8]) := by
    have hsz : (double_store vd).data.size = 8 := rfl
    have o2 : to_offset_t (to_size_t (8 + (int_t.align - 8 % int_t.align) % int_t.align)) =
        8 := by decide
    have s2 : to_size_t (8 + (int_t.align - 8 % int_t.align) % int_t.align + int_t.size) =
        12 := by decide
    rw [insert_single_eq b2 (double_store vd) int_t vi rfl (by decide) rfl rfl,
      do_allocate_1_eq b2 hb2 _ int_t hi]
    simp only [hsz, o2, s2, List.headD_cons]
    rfl
  have hrd : (double_int_store vd vi).data.read 0 double_t.size = vd := by
    simp only [double_int_store, double_store]
    rw [read_write_disjoint _ 8 vi 0 double_t.size (Or.inl (by decide)),
      read_resize _ 12 0 double_t.size (by exact Nat.le_refl 8), ← hvd, read_write_same]
  have hri : (double_int_store vd vi).data.read 8 int_t.size = vi := by
    simp only [double_int_store]
    rw [← hvi, read_write_same]
  refine ⟨double_store vd, double_int_store vd vi, e1, e2, rfl, rfl, rfl, ?_, ?_, ?_, rfl⟩
  · exact (get_single_eq (double_int_store vd vi) int_t 8 rfl rfl).trans
      (congrArg (fun x => Except.ok [x]) hri)
  · exact (get_single_eq (double_int_store vd vi) double_t 0 rfl rfl).trans
      (congrArg (fun x => Except.ok [x]) hrd)
  · have hg : (double_int_store vd vi).get [double_t, int_t] =
        .ok [(double_int_store vd vi).data.read 0 double_t.size,
          (double_int_store vd vi).data.read 8 int_t.size] := rfl
    rw [hrd, hri] at hg
    exact hg

/-- C6 at the values of the test, `5.63454` and `218762532`, in little-endian bytes. -/
theorem insert_double_int_witness :
    (0 % 64 = 0 ∧ 128 % 64 = 0 ∧
      [239, 3, 144, 218, 196, 137, 22, 64].length = double_t.size ∧
      [36, 13, 10, 13].length = int_t.size) ∧
    ∃ c1 c2, HeterogeneousArray.empty.insert 0
        [(double_t, [239, 3, 144, 218, 196, 137, 22, 64])] = .ok (c1, [0]) ∧
      c1.insert 128 [(int_t, [36, 13, 10, 13])] = .ok (c2, [8]) ∧
      c2.offset_of [double_t] = .ok [0] ∧ c2.offset_of [int_t] = .ok [8] ∧
      c2.offset_of [int_t, double_t] = .ok [8, 0] ∧
      c2.get [int_t] = .ok [[36, 13, 10, 13]] ∧
      c2.get [double_t] = .ok [[239, 3, 144, 218, 196, 137, 22, 64]] ∧
      c2.get [double_t, int_t] =
        .ok [[239, 3, 144, 218, 196, 137, 22, 64], [36, 13, 10, 13]] ∧
      c2.data.size = 12 :=
  ⟨⟨rfl, rfl, rfl, rfl⟩,
    insert_double_int 0 128 rfl rfl [239, 3, 144, 218, 196, 137, 22, 64] [36, 13, 10, 13]
      rfl rfl⟩

/-! ## The destructor registry of a reachable store -/

theorem record_dtor_destructors (c : HeterogeneousArray) (T : TypeInfo) :
    (c.record_dtor T T.id).destructors = map_emplace c.destructors T.id (dtor_of T) ∧
      (c.record_dtor T T.id).offsets = c.offsets ∧ (c.record_dtor T T.id).data = c.data := by
  unfold HeterogeneousArray.record_dtor dtor_of
  split <;> exact ⟨rfl, rfl, rfl⟩

theorem registry_evolves.trans {d d1 d2 : List (Nat × destructor_t)}
    (h1 : registry_evolves d d1) (h2 : registry_evolves d1 d2) : registry_evolves d d2 := by
  induction h2 with
  | refl => exact h1
  | record T _ ih => exact registry_evolves.record T ih
  | erase k _ ih => exact registry_evolves.erase k ih
  | clear _ ih => exact registry_evolves.clear ih

theorem registry_evolves_construct_1 {c c1 : HeterogeneousArray} {T : TypeInfo}
    {off r : Nat} {v : Val} (h : c.construct_1 T off v = .ok (c1, r)) :
    registry_evolves c.destructors c1.destructors := by
  obtain ⟨he, -, -, heq⟩ := construct_1_ok h
  subst heq
  have : destructor_t.destroy_at T = dtor_of T := by simp [dtor_of, he]
  simp only [this]
  exact registry_evolves.record T (registry_evolves.refl _)

theorem registry_evolves_construct_n (args : List (TypeInfo × Val)) :
    ∀ {c c1 : HeterogeneousArray} {offs r : List Nat},
      c.construct_n args offs = .ok (c1, r) →
      registry_evolves c.destructors c1.destructors := by
  induction args with
  | nil =>
    intro c c1 offs r h
    simp only [HeterogeneousArray.construct_n, Except.ok.injEq, Prod.mk.injEq] at h
    rw [← h.1]; exact registry_evolves.refl _
  | cons a rest ih =>
    intro c c1 offs r h
    obtain ⟨T, v⟩ := a
    unfold HeterogeneousArray.construct_n at h
    cases h1 : c.construct_1 T (offs.headD 0) v with
    | error e => rw [h1] at h; simp at h
    | ok p =>
      obtain ⟨c2, r2⟩ := p
      rw [h1] at h
      cases h3 : c2.construct_n rest offs.tail with
      | error e => simp only [h3] at h; simp at h
      | ok q =>
        obtain ⟨c3, r3⟩ := q
        simp only [h3, Except.ok.injEq, Prod.mk.injEq] at h
        rw [← h.1]
        exact (registry_evolves_construct_1 h1).trans (ih h3)

theorem registry_evolves_construct {c c1 : HeterogeneousArray}
    {args : List (TypeInfo × Val)} {r : List Nat}
    (h : c.construct args = .ok (c1, r)) :
    registry_evolves c.destructors c1.destructors := by
  unfold HeterogeneousArray.construct at h
  split at h
  · simp at h
  · rcases args with _ | ⟨⟨T, v⟩, _ | ⟨b, rest⟩⟩
    · simp at h
    · simp only at h
      cases h1 : c.offset_of [T] with
      | error e => rw [h1] at h; simp at h
      | ok offs =>
        rw [h1] at h
        cases h2 : c.construct_1 T (offs.headD 0) v with
        | error e => simp only [h2] at h; simp at h
        | ok p =>
          obtain ⟨c2, r2⟩ := p
          simp only [h2, Except.ok.injEq, Prod.mk.injEq] at h
          rw [← h.1]
          exact registry_evolves_construct_1 h2
    · simp only at h
      split at h
      · simp at h
      · cases h1 : c.offset_of (((T, v) :: b :: rest).map (fun a => a.1)) with
        | error e => rw [h1] at h; simp at h
        | ok offs =>
          rw [h1] at h
          exact registry_evolves_construct_n _ h

theorem registry_evolves_foldl_record_dtor (Ts : List TypeInfo) :
    ∀ (c : HeterogeneousArray), registry_evolves c.destructors
      (Ts.foldl (fun c T => c.record_dtor T T.id) c).destructors := by
  induction Ts with
  | nil => intro c; exact registry_evolves.refl _
  | cons T Ts ih =>
    intro c
    simp only [List.foldl_cons]
    refine registry_evolves.trans ?_ (ih (c.record_dtor T T.id))
    rw [(record_dtor_destructors c T).1]
    exact registry_evolves.record T (registry_evolves.refl _)

theorem registry_evolves_insert_1 {base : Nat} {c c1 : HeterogeneousArray}
    {T : TypeInfo} {v : Val} {r : List Nat}
    (h : c.insert_1 base T v = .ok (c1, r)) :
    registry_evolves c.destructors c1.destructors := by
  unfold HeterogeneousArray.insert_1 at h
  split at h
  · simp only [Except.ok.injEq, Prod.mk.injEq] at h
    rw [← h.1, (record_dtor_destructors _ T).1]
    exact registry_evolves.record T (registry_evolves.refl _)
  · split at h
    · simp at h
    · split at h
      · simp at h
      · cases h1 : c.reserve base [T] with
        | error e => rw [h1] at h; simp at h
        | ok p =>
          obtain ⟨c2, n⟩ := p
          rw [h1] at h
          obtain ⟨-, -, -, -, hd⟩ := reserve_ok h1
          cases h2 : c2.construct_1 T (n.headD 0) v with
          | error e => simp only [h2] at h; simp at h
          | ok q =>
            obtain ⟨c3, r3⟩ := q
            simp only [h2, Except.ok.injEq, Prod.mk.injEq] at h
            rw [← h.1, ← hd]
            exact registry_evolves_construct_1 h2

theorem registry_evolves_insert_n {base : Nat} {c c1 : HeterogeneousArray}
    {args : List (TypeInfo × Val)} {r : List Nat}
    (h : c.insert_n base args = .ok (c1, r)) :
    registry_evolves c.destructors c1.destructors := by
  unfold HeterogeneousArray.insert_n at h
  simp only at h
  split at h
  · simp at h
  · split at h
    · simp only [Except.ok.injEq, Prod.mk.injEq] at h
      rw [← h.1]
      have h1 := (foldl_record_type (args.map (fun a => a.1)) c).1
      have h2 := registry_evolves_foldl_record_dtor (args.map (fun a => a.1))
        ((args.map (fun a => a.1)).foldl (fun c T => c.record_type T.id 0) c)
      rw [h1] at h2
      exact h2
    · split at h
      · simp at h
      · split at h
        · simp at h
        · cases h1 : c.reserve base (args.map (fun a => a.1)) with
          | error e => rw [h1] at h; simp at h
          | ok p =>
            obtain ⟨c2, offs⟩ := p
            rw [h1] at h
            simp only at h
            obtain ⟨-, -, -, -, hd⟩ := reserve_ok h1
            rw [← hd]
            exact registry_evolves_construct_n args h

theorem registry_evolves_insert {base : Nat} {c c1 : HeterogeneousArray}
    {args : List (TypeInfo × Val)} {r : List Nat}
    (h : c.insert base args = .ok (c1, r)) :
    registry_evolves c.destructors c1.destructors := by
  unfold HeterogeneousArray.insert at h
  rcases args with _ | ⟨⟨T, v⟩, _ | ⟨b, rest⟩⟩
  · exact registry_evolves_insert_n h
  · exact registry_evolves_insert_1 h
  · exact registry_evolves_insert_n h

theorem registry_evolves_assign_1 {c c1 : HeterogeneousArray} {T : TypeInfo} {v : Val}
    {r : Nat} (h : c.assign_1 T v = .ok (c1, r)) :
    registry_evolves c.destructors c1.destructors := by
  unfold HeterogeneousArray.assign_1 at h
  split at h
  · simp at h
  · split at h
    · exact registry_evolves_construct_1
        (c := { c with offsets := (map_index c.offsets T.id).1 }) h
    · simp only [HeterogeneousArray.do_assign, Except.ok.injEq, Prod.mk.injEq] at h
      rw [← h.1]
      exact registry_evolves.refl _

theorem registry_evolves_assign_n (args : List (TypeInfo × Val)) :
    ∀ {c c1 : HeterogeneousArray} {r : List Nat},
      c.assign_n args = .ok (c1, r) → registry_evolves c.destructors c1.destructors := by
  induction args with
  | nil =>
    intro c c1 r h
    simp only [HeterogeneousArray.assign_n, Except.ok.injEq, Prod.mk.injEq] at h
    rw [← h.1]; exact registry_evolves.refl _
  | cons a rest ih =>
    intro c c1 r h
    obtain ⟨T, v⟩ := a
    unfold HeterogeneousArray.assign_n at h
    cases h1 : c.assign_1 T v with
    | error e => rw [h1] at h; simp at h
    | ok p =>
      obtain ⟨c2, r2⟩ := p
      rw [h1] at h
      cases h3 : c2.assign_n rest with
      | error e => simp only [h3] at h; simp at h
      | ok q =>
        obtain ⟨c3, r3⟩ := q
        simp only [h3, Except.ok.injEq, Prod.mk.injEq] at h
        rw [← h.1]
        exact (registry_evolves_assign_1 h1).trans (ih h3)

theorem registry_evolves_assign {c c1 : HeterogeneousArray}
    {args : List (TypeInfo × Val)} {r : List Nat}
    (h : c.assign args = .ok (c1, r)) :
    registry_evolves c.destructors c1.destructors := by
  unfold HeterogeneousArray.assign at h
  rcases args with _ | ⟨⟨T, v⟩, _ | ⟨b, rest⟩⟩
  · simp at h
  · simp only at h
    cases h1 : c.assign_1 T v with
    | error e => rw [h1] at h; simp at h
    | ok p =>
      obtain ⟨c2, r2⟩ := p
      simp only [h1, Except.ok.injEq, Prod.mk.injEq] at h
      rw [← h.1]
      exact registry_evolves_assign_1 h1
  · simp only at h
    split at h
    · simp at h
    · exact registry_evolves_assign_n _ h

theorem registry_evolves_insert_or_assign_1 {base : Nat} {c c1 : HeterogeneousArray}
    {T : TypeInfo} {v : Val} {r : List Nat}
    (h : c.insert_or_assign_1 base T v = .ok (c1, r)) :
    registry_evolves c.destructors c1.destructors := by
  unfold HeterogeneousArray.insert_or_assign_1 at h
  split at h
  · simp at h
  · split at h
    · exact registry_evolves_insert h
    · exact registry_evolves_assign h

theorem registry_evolves_insert_or_assign {base : Nat} (args : List (TypeInfo × Val)) :
    ∀ {c c1 : HeterogeneousArray} {r : List Nat},
      c.insert_or_assign base args = .ok (c1, r) →
      registry_evolves c.destructors c1.destructors := by
  induction args with
  | nil =>
    intro c c1 r h
    simp only [HeterogeneousArray.insert_or_assign, Except.ok.injEq, Prod.mk.injEq] at h
    rw [← h.1]; exact registry_evolves.refl _
  | cons a rest ih =>
    intro c c1 r h
    obtain ⟨T, v⟩ := a
    unfold HeterogeneousArray.insert_or_assign at h
    cases h1 : c.insert_or_assign_1 base T v with
    | error e => rw [h1] at h; simp at h
    | ok p =>
      obtain ⟨c2, r2⟩ := p
      rw [h1] at h
      cases h3 : c2.insert_or_assign base rest with
      | error e => simp only [h3] at h; simp at h
      | ok q =>
        obtain ⟨c3, r3⟩ := q
        simp only [h3, Except.ok.injEq, Prod.mk.injEq] at h
        rw [← h.1]
        exact (registry_evolves_insert_or_assign_1 h1).trans (ih h3)

/-- What `do_destruct` has done when it returns. -/
theorem do_destruct_ok {c c1 : HeterogeneousArray} {T : TypeInfo} {called : List Nat}
    (h : c.do_destruct T = .ok (c1, called)) :
    c.is_constructed T = true ∧
      c1 = { c with destructors := map_erase c.destructors T.id } ∧
      called = if T.trivially_destructible then [] else [T.id] := by
  unfold HeterogeneousArray.do_destruct at h
  split at h
  · simp at h
  · rename_i hc
    have hc2 : c.is_constructed T = true := by simpa [contains_single] using hc
    simp only at h
    split at h
    · rename_i ht
      have ht2 : T.trivially_destructible = false := by simpa using ht
      split at h
      · simp at h
      · split at h
        · simp at h
        · simp only [Except.ok.injEq, Prod.mk.injEq] at h
          exact ⟨hc2, h.1.symm, by rw [ht2]; exact h.2.symm⟩
    · rename_i ht
      have ht2 : T.trivially_destructible = true := by simpa using ht
      simp only [Except.ok.injEq, Prod.mk.injEq] at h
      exact ⟨hc2, h.1.symm, by rw [ht2]; exact h.2.symm⟩

theorem registry_evolves_destruct (Ts : List TypeInfo) :
    ∀ {c c1 : HeterogeneousArray} {called : List Nat},
      c.destruct Ts = .ok (c1, called) → registry_evolves c.destructors c1.destructors := by
  induction Ts with
  | nil =>
    intro c c1 called h
    simp only [HeterogeneousArray.destruct, Except.ok.injEq, Prod.mk.injEq] at h
    rw [← h.1]; exact registry_evolves.refl _
  | cons T Ts ih =>
    intro c c1 called h
    unfold HeterogeneousArray.destruct at h
    cases h1 : c.do_destruct T with
    | error e => rw [h1] at h; simp at h
    | ok p =>
      obtain ⟨c2, r2⟩ := p
      rw [h1] at h
      cases h3 : c2.destruct Ts with
      | error e => simp only [h3] at h; simp at h
      | ok q =>
        obtain ⟨c3, r3⟩ := q
        simp only [h3, Except.ok.injEq, Prod.mk.injEq] at h
        rw [← h.1]
        obtain ⟨-, heq, -⟩ := do_destruct_ok h1
        refine registry_evolves.trans ?_ (ih h3)
        rw [heq]
        exact registry_evolves.erase T.id (registry_evolves.refl _)

/-- The registry of a reachable store comes from the empty registry. -/
theorem Reachable.registry_evolves {U : TypeInfo → Prop} {c : HeterogeneousArray}
    (h : Reachable U c) : registry_evolves [] c.destructors := by
  induction h with
  | empty => exact registry_evolves.refl _
  | reserve _ _ _ heq ih => rw [(reserve_ok heq).2.2.2.2]; exact ih
  | construct _ _ heq ih => exact ih.trans (registry_evolves_construct heq)
  | insert _ _ _ heq ih => exact ih.trans (registry_evolves_insert heq)
  | assign _ _ heq ih => exact ih.trans (registry_evolves_assign heq)
  | insert_or_assign _ _ _ heq ih => exact ih.trans (registry_evolves_insert_or_assign _ heq)
  | destruct _ _ heq ih => exact ih.trans (registry_evolves_destruct _ heq)
  | clear _ heq ih =>
    unfold HeterogeneousArray.clear at heq
    split at heq
    · simp at heq
    · simp only [Except.ok.injEq, Prod.mk.injEq] at heq
      rw [← heq.1]
      exact registry_evolves.clear ih

theorem map_count_iff_mem {V : Type} (m : List (Nat × V)) (k : Nat) :
    map_count m k = true ↔ k ∈ m.map (fun e => e.1) := by
  induction m with
  | nil => simp [map_count, map_find]
  | cons e rest ih =>
    by_cases hek : e.1 = k
    · simp [map_count, map_find, hek]
    · have : map_count (e :: rest) k = map_count rest k := by
        simp [map_count, map_find, hek]
      rw [this, ih]
      simp only [List.map_cons, List.mem_cons]
      constructor
      · intro h; exact Or.inr h
      · intro h
        rcases h with h | h
        · exact absurd h.symm hek
        · exact h

theorem map_find_erase_ne {V : Type} (m : List (Nat × V)) {k j : Nat} (h : j ≠ k) :
    map_find j (map_erase m k) = map_find j m := by
  induction m with
  | nil => rfl
  | cons e rest ih =>
    have hcons : map_erase (e :: rest) k =
        if e.1 = k then map_erase rest k else e :: map_erase rest k := by
      unfold map_erase
      by_cases hek : e.1 = k <;> simp [List.filter_cons, hek]
    rw [hcons]
    by_cases hek : e.1 = k
    · have hej : e.1 ≠ j := fun hh => h (hh.symm.trans hek)
      simp only [hek, if_true, ih]
      rw [← hek] at h
      simp [map_find, Ne.symm h]
    · simp only [hek, if_false]
      by_cases hej : e.1 = j
      · simp [map_find, hej]
      · simp only [map_find, hej, if_false]
        exact ih

theorem map_count_erase_ne {V : Type} (m : List (Nat × V)) {k j : Nat} (h : j ≠ k) :
    map_count (map_erase m k) j = map_count m j := by
  simp only [map_count, map_find_erase_ne m h]

theorem map_count_erase_self {V : Type} (m : List (Nat × V)) (k : Nat) :
    map_count (map_erase m k) k = false := by
  by_contra h
  simp only [Bool.not_eq_false] at h
  have := (map_count_iff_mem _ _).1 h
  obtain ⟨e, he, hek⟩ := List.mem_map.1 this
  have := (List.mem_filter.1 he).2
  simp only [ne_eq, decide_not, Bool.not_eq_true', decide_eq_false_iff_not] at this
  exact this hek

theorem map_erase_length {V : Type} (m : List (Nat × V)) (k : Nat)
    (hn : (m.map (fun e => e.1)).Nodup) (hk : map_count m k = true) :
    (map_erase m k).length + 1 = m.length := by
  induction m with
  | nil => simp [map_count, map_find] at hk
  | cons e rest ih =>
    rw [List.map_cons, List.nodup_cons] at hn
    by_cases hek : e.1 = k
    · have hrest : map_erase rest k = rest := by
        unfold map_erase
        apply List.filter_eq_self.2
        intro a ha
        simp only [ne_eq, decide_not, Bool.not_eq_true', decide_eq_false_iff_not]
        intro hak
        apply hn.1
        rw [hek, ← hak]
        exact List.mem_map_of_mem _ ha
      have : map_erase (e :: rest) k = map_erase rest k := by
        unfold map_erase
        simp [List.filter_cons, hek]
      rw [this, hrest]
      rfl
    · have hk2 : map_count rest k = true := by
        simpa [map_count, map_find, hek] using hk
      have : map_erase (e :: rest) k = e :: map_erase rest k := by
        unfold map_erase
        simp [List.filter_cons, hek]
      rw [this]
      simp only [List.length_cons]
      have := ih hn.2 hk2
      omega

theorem registry_ok_nil : registry_ok [] :=
  ⟨List.nodup_nil, fun _ he => absurd he (List.not_mem_nil _)⟩

theorem registry_ok_emplace {d : List (Nat × destructor_t)} (h : registry_ok d)
    (T : TypeInfo) : registry_ok (map_emplace d T.id (dtor_of T)) := by
  unfold map_emplace
  split
  · exact h
  · rename_i hc
    refine ⟨?_, ?_⟩
    · rw [List.map_cons, List.nodup_cons]
      refine ⟨?_, h.1⟩
      intro hmem
      exact hc ((map_count_iff_mem d T.id).2 hmem)
    · intro e he
      rcases List.mem_cons.1 he with h1 | h1
      · subst h1; exact ⟨T, rfl, rfl⟩
      · exact h.2 e h1

theorem registry_ok_erase {d : List (Nat × destructor_t)} (h : registry_ok d) (k : Nat) :
    registry_ok (map_erase d k) := by
  refine ⟨?_, ?_⟩
  · exact h.1.sublist (List.Sublist.map _ (List.filter_sublist d))
  · intro e he
    exact h.2 e (List.mem_filter.1 he).1

theorem registry_ok_of_evolves {d d1 : List (Nat × destructor_t)} (h : registry_ok d)
    (he : registry_evolves d d1) : registry_ok d1 := by
  induction he with
  | refl => exact h
  | record T _ ih => exact registry_ok_emplace ih T
  | erase k _ ih => exact registry_ok_erase ih k
  | clear _ _ => exact registry_ok_nil

/-- In every reachable store the registry holds one entry per constructed type, the
destructor that `record_dtor` stores for a type with that id. -/
theorem Reachable.registry_ok {U : TypeInfo → Prop} {c : HeterogeneousArray}
    (h : Reachable U c) : registry_ok c.destructors :=
  registry_ok_of_evolves registry_ok_nil h.registry_evolves

theorem map_find_mem {V : Type} {m : List (Nat × V)} {k : Nat} {v : V}
    (h : map_find k m = some v) : (k, v) ∈ m := by
  induction m with
  | nil => simp [map_find] at h
  | cons e rest ih =>
    by_cases hek : e.1 = k
    · simp only [map_find, hek, if_true, Option.some.injEq] at h
      have : e = (k, v) := by
        cases e; simp only at hek h; rw [hek, h]
      rw [this]; exact List.mem_cons_self _ _
    · simp only [map_find, hek, if_false] at h
      exact List.mem_cons_of_mem _ (ih h)

/-- In a reachable store, the call of the stored destructor of a constructed type
returns. -/
theorem Reachable.invoke_ok {U : TypeInfo → Prop} {c : HeterogeneousArray}
    (h : Reachable U c) {k : Nat} {d : destructor_t}
    (hd : map_find k c.destructors = some d) : c.invoke d = .ok () := by
  obtain ⟨T, hTk, hTd⟩ := h.registry_ok.2 (k, d) (map_find_mem hd)
  simp only at hTk hTd
  rw [hTd]
  unfold dtor_of
  by_cases he : T.is_empty = true
  · simp [he, HeterogeneousArray.invoke]
  · have he2 : T.is_empty = false := by simpa using he
    simp only [he2, Bool.false_eq_true, if_false, HeterogeneousArray.invoke]
    have hcount : map_count c.destructors T.id = true := by
      rw [hTk]; simp [map_count, hd]
    obtain ⟨off, hoff⟩ := map_find_of_count (h.registered_allocated T.id hcount)
    rw [get_single_eq c T off he2 hoff]

/-! ## `assign` on a type that is not constructed (C11) -/

/-- On a type that is allocated and not constructed, `assign<T>(v)` and
`construct<T>(v)` have the same outcome. -/
theorem assign_eq_construct_of_allocated (c : HeterogeneousArray) (T : TypeInfo) (v : Val)
    (ha : c.is_allocated T = true) (hc : c.is_constructed T = false) :
    c.assign [(T, v)] = c.construct [(T, v)] := by
  obtain ⟨off, hoff⟩ := map_find_of_count ha
  have hidx : map_index c.offsets T.id = (c.offsets, off) := by
    simp [map_index, hoff]
  by_cases he : T.is_empty = true
  · simp [HeterogeneousArray.assign, HeterogeneousArray.assign_1,
      HeterogeneousArray.construct, he]
  · have he2 : T.is_empty = false := by simpa using he
    simp [HeterogeneousArray.assign, HeterogeneousArray.assign_1,
      HeterogeneousArray.construct, he2, hc, hidx, HeterogeneousArray.offset_of, hoff]

/-- C11 fails on the store that holds the `int` 7, for the type `float`, which is
neither reserved nor constructed. `construct<float>(1.5f)` ends with `std::out_of_range`
(thrown by `offsets.at` in `offset_of`). `assign<float>(1.5f)` returns a reference at
the offset 0: `offsets[type_id<float>()]` inserts the offset 0, the four bytes of the
`float` are placed at `&data[0]`, inside the arena of four bytes, over the `int`; the
`float` is registered, the arena keeps its length and `get<int>()` reads the bytes of
the `float`. -/
theorem assign_unreserved_differs :
    int_store.is_allocated float_t = false ∧ int_store.is_constructed float_t = false ∧
      int_store.data.size = 4 ∧ int_store.within_arena float_t 0 ∧
      int_store.get [int_t] = .ok [[7, 0, 0, 0]] ∧
      fault_of (int_store.construct [(float_t, [0, 0, 192, 63])]) =
        some Fault.out_of_range ∧
      returned (int_store.assign [(float_t, [0, 0, 192, 63])]) = some [0] ∧
      int_float_store.offsets = [(float_t.id, 0), (int_t.id, 0)] ∧
      int_float_store.is_constructed float_t = true ∧
      int_float_store.data.size = 4 ∧
      int_float_store.get [float_t] = .ok [[0, 0, 192, 63]] ∧
      int_float_store.get [int_t] = .ok [[0, 0, 192, 63]] := by
  exact ⟨by decide, by decide, by decide, by decide, rfl, by decide, by decide, by decide,
    by decide, by decide, rfl, rfl⟩

/-! ## `get` with offsets (C15, C16) -/

theorem check_offsets_of_offset_of (c : HeterogeneousArray) (Ts : List TypeInfo) :
    ∀ (offs : List Nat), c.offset_of Ts = .ok offs →
      c.check_offsets Ts offs = .ok () ∧ offs.length = Ts.length := by
  induction Ts with
  | nil =>
    intro offs h
    simp only [HeterogeneousArray.offset_of, Except.ok.injEq] at h
    subst h
    exact ⟨rfl, rfl⟩
  | cons T Ts ih =>
    intro offs h
    unfold HeterogeneousArray.offset_of at h
    cases hf : map_find T.id c.offsets with
    | none => rw [hf] at h; simp at h
    | some off =>
      rw [hf] at h
      cases hr : c.offset_of Ts with
      | error e => simp only [hr] at h; simp at h
      | ok os =>
        simp only [hr, Except.ok.injEq] at h
        subst h
        obtain ⟨h1, h2⟩ := ih os hr
        constructor
        · simp only [HeterogeneousArray.check_offsets, hf, if_true, h1]
        · simp [h2]

/-- C15. For every store and types `T1, ..., Tn` that are all reserved, so that
`offset_of<T1, ..., Tn>()` returns an array `offs`, both `get<T1, ..., Tn>(offs)` (the
overload that takes the array) and `get<T1, ..., Tn>(off1, ..., offn)` (the overload
that takes the offsets one by one) have the outcome of `get<T1, ..., Tn>()`: the same
values in the requested order, when no type is empty. -/
theorem get_from_offset_of (c : HeterogeneousArray) (Ts : List TypeInfo) (hne : Ts ≠ [])
    (hall : ∀ T ∈ Ts, c.is_allocated T = true) :
    ∃ offs, c.offset_of Ts = .ok offs ∧ c.get_array Ts offs = c.get Ts ∧
      c.get_at Ts offs = c.get Ts ∧
      ((∀ T ∈ Ts, T.is_empty = false) →
        c.get Ts = .ok (List.zipWith (fun T off => c.do_get T off) Ts offs)) := by
  have hex : ∀ (Ts : List TypeInfo), (∀ T ∈ Ts, c.is_allocated T = true) →
      ∃ offs, c.offset_of Ts = .ok offs := by
    intro Ts
    induction Ts with
    | nil => intro _; exact ⟨[], rfl⟩
    | cons T Ts ih =>
      intro h
      obtain ⟨off, hoff⟩ := map_find_of_count (h T (List.mem_cons_self _ _))
      obtain ⟨os, hos⟩ := ih (fun V hV => h V (List.mem_cons_of_mem _ hV))
      exact ⟨off :: os, by simp only [HeterogeneousArray.offset_of, hoff, hos]⟩
  obtain ⟨offs, hoffs⟩ := hex Ts hall
  obtain ⟨hchk, hlen⟩ := check_offsets_of_offset_of c Ts offs hoffs
  have hlen0 : ¬ Ts.length = 0 := fun h => hne (List.length_eq_zero.1 h)
  refine ⟨offs, hoffs, ?_, ?_, ?_⟩
  · by_cases hemp : Ts.any (fun T => T.is_empty) = true
    · simp [HeterogeneousArray.get_array, HeterogeneousArray.get, hemp]
    · simp [HeterogeneousArray.get_array, HeterogeneousArray.get, HeterogeneousArray.get_at,
        hemp, hoffs, hlen, hchk, hlen0]
  · by_cases hemp : Ts.any (fun T => T.is_empty) = true
    · simp [HeterogeneousArray.get, HeterogeneousArray.get_at, hemp]
    · simp [HeterogeneousArray.get, HeterogeneousArray.get_at, hemp, hoffs, hlen, hchk, hlen0]
  · intro hnone
    have hemp : Ts.any (fun T => T.is_empty) = false := by
      simp only [List.any_eq_false]
      intro T hT
      simp [hnone T hT]
    simp [HeterogeneousArray.get, HeterogeneousArray.get_at, hemp, hoffs, hlen, hchk, hlen0]

/-- C15 at `get<int, double>(offset_of<int, double>())` after the `insert` of a `double`
and of an `int`, as in the test `get_from_offset`. -/
theorem get_from_offset_of_witness :
    ([int_t, double_t] ≠ [] ∧
      ∀ T ∈ [int_t, double_t],
        (double_int_store [239, 3, 144, 218, 196, 137, 22, 64] [36, 13, 10, 13]).is_allocated
          T = true) ∧
    ∃ offs,
      (double_int_store [239, 3, 144, 218, 196, 137, 22, 64] [36, 13, 10, 13]).offset_of
        [int_t, double_t] = .ok offs ∧
      (double_int_store [239, 3, 144, 218, 196, 137, 22, 64] [36, 13, 10, 13]).get_array
          [int_t, double_t] offs =
        (double_int_store [239, 3, 144, 218, 196, 137, 22, 64] [36, 13, 10, 13]).get
          [int_t, double_t] ∧
      (double_int_store [239, 3, 144, 218, 196, 137, 22, 64] [36, 13, 10, 13]).get_at
          [int_t, double_t] offs =
        (double_int_store [239, 3, 144, 218, 196, 137, 22, 64] [36, 13, 10, 13]).get
          [int_t, double_t] ∧
      ((∀ T ∈ [int_t, double_t], T.is_empty = false) →
        (double_int_store [239, 3, 144, 218, 196, 137, 22, 64] [36, 13, 10, 13]).get
            [int_t, double_t] =
          .ok (List.zipWith
            (fun T off =>
              (double_int_store [239, 3, 144, 218, 196, 137, 22, 64] [36, 13, 10, 13]).do_get
                T off) [int_t, double_t] offs)) :=
  ⟨⟨by decide, by decide⟩,
    get_from_offset_of (double_int_store [239, 3, 144, 218, 196, 137, 22, 64] [36, 13, 10, 13])
      [int_t, double_t] (by decide) (by decide)⟩

/-- The overload of `get` that takes the offsets one by one fails when the offset
supplied for a type is not the recorded one. -/
theorem get_at_mismatch (c : HeterogeneousArray) (T : TypeInfo) (off : Nat)
    (he : T.is_empty = false)
    (h : ∀ recorded, map_find T.id c.offsets = some recorded → recorded ≠ off) :
    ∃ e, c.get_at [T] [off] = .error e := by
  cases hf : map_find T.id c.offsets with
  | none =>
    exact ⟨Fault.out_of_range, by
      simp [HeterogeneousArray.get_at, HeterogeneousArray.check_offsets, he, hf]⟩
  | some recorded =>
    have := h recorded hf
    exact ⟨Fault.assertion, by
      simp [HeterogeneousArray.get_at, HeterogeneousArray.check_offsets, he, hf, this]⟩

/-- C16 fails for the overload of `get` that takes an array of offsets. After the
`insert` of a `double` and of an `int` the directory records the offset 8 for `int`;
with the offset 0 the overload that takes the offsets one by one fails its `assert`,
while `get<int>(array{0})` returns the first four bytes of the `double`. -/
theorem get_array_trusts_offset :
    (double_int_store [239, 3, 144, 218, 196, 137, 22, 64] [36, 13, 10, 13]).offset_of
        [int_t] = .ok [8] ∧
      fault_of ((double_int_store [239, 3, 144, 218, 196, 137, 22, 64]
        [36, 13, 10, 13]).get_at [int_t] [0]) = some Fault.assertion ∧
      (double_int_store [239, 3, 144, 218, 196, 137, 22, 64] [36, 13, 10, 13]).get_array
        [int_t] [0] = .ok [[239, 3, 144, 218]] :=
  ⟨rfl, by decide, rfl⟩

/-! ## `get` on an absent type (C17) -/

theorem get_fails_of_absent (c : HeterogeneousArray) (Ts : List TypeInfo) (T : TypeInfo)
    (hT : T ∈ Ts) (ha : c.is_allocated T = false) : ∃ e, c.get Ts = .error e := by
  unfold HeterogeneousArray.get
  split
  · exact ⟨_, rfl⟩
  · cases h : c.offset_of Ts with
    | error e => exact ⟨e, rfl⟩
    | ok offs =>
      have := offset_of_ok h T hT
      simp only [HeterogeneousArray.is_allocated] at ha
      rw [ha] at this
      exact absurd this (by simp)

/-- C17. For every store and every type `T` that is absent from the offset directory,
`get<T>()` does not return: it ends with `std::out_of_range` inside a `noexcept`
function when `T` is not empty (and does not compile when it is), and so does every
`get<Ts...>()` that lists `T`. No type is in the directory of a fresh store or of a
store after `clear()`. -/
theorem get_absent_fails (c : HeterogeneousArray) (T : TypeInfo)
    (ha : c.is_allocated T = false) :
    (∃ e, c.get [T] = .error e) ∧
      (T.is_empty = false → c.get [T] = .error Fault.out_of_range) ∧
      (∀ Ts, T ∈ Ts → ∃ e, c.get Ts = .error e) ∧
      (∀ V, HeterogeneousArray.empty.is_allocated V = false) ∧
      (∀ c1 called, c.clear = .ok (c1, called) → ∀ V, c1.is_allocated V = false ∧
        ∃ e, c1.get [V] = .error e) := by
  refine ⟨get_fails_of_absent c [T] T (List.mem_singleton_self T) ha, ?_,
    fun Ts hT => get_fails_of_absent c Ts T hT ha, fun V => rfl, ?_⟩
  · intro he
    have hf : map_find T.id c.offsets = none := by
      simp only [HeterogeneousArray.is_allocated, map_count] at ha
      cases h : map_find T.id c.offsets with
      | none => rfl
      | some v => rw [h] at ha; simp at ha
    simp [HeterogeneousArray.get, he, HeterogeneousArray.offset_of, hf]
  · intro c1 called hcl V
    unfold HeterogeneousArray.clear at hcl
    split at hcl
    · simp at hcl
    · simp only [Except.ok.injEq, Prod.mk.injEq] at hcl
      have hV : c1.is_allocated V = false := by rw [← hcl.1]; rfl
      exact ⟨hV, get_fails_of_absent c1 [V] V (List.mem_singleton_self V) hV⟩

/-- C17 at `get<int>()` on a fresh store. -/
theorem get_absent_fails_witness :
    HeterogeneousArray.empty.is_allocated int_t = false ∧
    ((∃ e, HeterogeneousArray.empty.get [int_t] = .error e) ∧
      (int_t.is_empty = false →
        HeterogeneousArray.empty.get [int_t] = .error Fault.out_of_range) ∧
      (∀ Ts, int_t ∈ Ts → ∃ e, HeterogeneousArray.empty.get Ts = .error e) ∧
      (∀ V, HeterogeneousArray.empty.is_allocated V = false) ∧
      (∀ c1 called, HeterogeneousArray.empty.clear = .ok (c1, called) →
        ∀ V, c1.is_allocated V = false ∧ ∃ e, c1.get [V] = .error e)) :=
  ⟨rfl, get_absent_fails HeterogeneousArray.empty int_t rfl⟩

/-! ## `contains` (C13) -/

/-- C13. `contains<T1, ..., Tn>()` is true if and only if every listed type is
constructed, so one type that is not constructed makes it false. A type is constructed
after a `construct`, `insert` or `assign` that returns; in a reachable store, a type that
`reserve` has just reserved is not contained, and a type that `destruct` has just
destructed is not contained. -/
theorem contains_iff_constructed (c : HeterogeneousArray) (Ts : List TypeInfo) :
    (c.contains Ts = true ↔ ∀ T ∈ Ts, c.is_constructed T = true) ∧
    (∀ T ∈ Ts, c.is_constructed T = false → c.contains Ts = false) ∧
    (∀ (T : TypeInfo) (v : Val) (c1 : HeterogeneousArray) (r : List Nat) (base : Nat),
      (c.construct [(T, v)] = .ok (c1, r) ∨ c.insert base [(T, v)] = .ok (c1, r) ∨
        c.assign [(T, v)] = .ok (c1, r)) → c1.contains [T] = true) ∧
    (∀ (W : TypeInfo → Prop) (base : Nat) (c1 : HeterogeneousArray) (r : List Nat),
      Reachable W c → c.reserve base Ts = .ok (c1, r) → ∀ T ∈ Ts, c1.contains [T] = false) ∧
    (∀ (W : TypeInfo → Prop) (T : TypeInfo) (c1 : HeterogeneousArray) (called : List Nat),
      Reachable W c → c.destruct [T] = .ok (c1, called) → c1.contains [T] = false) := by
  have hiff : c.contains Ts = true ↔ ∀ T ∈ Ts, c.is_constructed T = true := by
    simp [HeterogeneousArray.contains]
  refine ⟨hiff, ?_, ?_, ?_, ?_⟩
  · intro T hT hc
    by_contra h
    simp only [Bool.not_eq_false] at h
    have := hiff.1 h T hT
    rw [hc] at this
    exact absurd this (by simp)
  · intro T v c1 r base h
    rw [contains_single]
    have hcons : ∀ (c0 c2 : HeterogeneousArray) (off r0 : Nat),
        c0.construct_1 T off v = .ok (c2, r0) → c2.is_constructed T = true := by
      intro c0 c2 off r0 h1
      obtain ⟨-, -, -, heq⟩ := construct_1_ok h1
      subst heq
      exact map_count_emplace_self _ _ _
    rcases h with h | h | h
    · unfold HeterogeneousArray.construct at h
      split at h
      · simp at h
      · simp only at h
        cases h1 : c.offset_of [T] with
        | error e => rw [h1] at h; simp at h
        | ok offs =>
          rw [h1] at h
          cases h2 : c.construct_1 T (offs.headD 0) v with
          | error e => simp only [h2] at h; simp at h
          | ok p =>
            obtain ⟨c2, r2⟩ := p
            simp only [h2, Except.ok.injEq, Prod.mk.injEq] at h
            rw [← h.1]
            exact hcons _ _ _ _ h2
    · simp only [HeterogeneousArray.insert, HeterogeneousArray.insert_1] at h
      split at h
      · simp only [Except.ok.injEq, Prod.mk.injEq] at h
        rw [← h.1]
        simp only [HeterogeneousArray.is_constructed, (record_dtor_destructors _ T).1]
        exact map_count_emplace_self _ _ _
      · split at h
        · simp at h
        · split at h
          · simp at h
          · cases h1 : c.reserve base [T] with
            | error e => rw [h1] at h; simp at h
            | ok p =>
              obtain ⟨c2, n⟩ := p
              rw [h1] at h
              cases h2 : c2.construct_1 T (n.headD 0) v with
              | error e => simp only [h2] at h; simp at h
              | ok q =>
                obtain ⟨c3, r3⟩ := q
                simp only [h2, Except.ok.injEq, Prod.mk.injEq] at h
                rw [← h.1]
                exact hcons _ _ _ _ h2
    · simp only [HeterogeneousArray.assign] at h
      cases h1 : c.assign_1 T v with
      | error e => rw [h1] at h; simp at h
      | ok p =>
        obtain ⟨c2, r2⟩ := p
        simp only [h1, Except.ok.injEq, Prod.mk.injEq] at h
        rw [← h.1]
        unfold HeterogeneousArray.assign_1 at h1
        split at h1
        · simp at h1
        · split at h1
          · exact hcons _ _ _ _ h1
          · rename_i hc
            simp only [HeterogeneousArray.do_assign, Except.ok.injEq, Prod.mk.injEq] at h1
            rw [← h1.1]
            simpa using hc
  · intro W base c1 r hr h T hT
    obtain ⟨-, hnot, -, -, hd⟩ := reserve_ok h
    rw [contains_single]
    simp only [HeterogeneousArray.is_constructed, hd]
    exact hr.not_constructed (hnot T hT)
  · intro W T c1 called _ h
    rw [contains_single]
    unfold HeterogeneousArray.destruct at h
    cases h1 : c.do_destruct T with
    | error e => rw [h1] at h; simp at h
    | ok p =>
      obtain ⟨c2, r2⟩ := p
      simp only [h1, HeterogeneousArray.destruct, Except.ok.injEq, Prod.mk.injEq] at h
      rw [← h.1]
      obtain ⟨-, heq, -⟩ := do_destruct_ok h1
      rw [heq]
      exact map_count_erase_self _ _

/-- C13 after `insert<int>(7)` on a fresh store: `contains<int>()` is true and
`contains<int, double>()` is false. -/
theorem contains_iff_constructed_witness :
    int_store.contains [int_t] = true ∧ int_store.contains [int_t, double_t] = false :=
  ⟨(contains_iff_constructed int_store [int_t]).1.2 (by decide),
    (contains_iff_constructed int_store [int_t, double_t]).2.1 double_t (by decide)
      (by decide)⟩

/-! ## `has` (C14) -/

/-- C14. In every reachable store, for a type `T` that is not empty, `has<T>()` returns
a pointer to the slot of `T`, the one `get<T>()` returns a reference to, when
`contains<T>()` is true, and the null pointer when it is false; for an empty type it
returns the `bool` `contains<T>()`. -/
theorem has_iff_contains {W : TypeInfo → Prop} (c : HeterogeneousArray)
    (hr : Reachable W c) (T : TypeInfo) :
    (T.is_empty = false → c.contains [T] = true →
      ∃ off, c.has T = .ok (.pointer (some off)) ∧ c.offset_of [T] = .ok [off] ∧
        c.get [T] = .ok [c.do_get T off]) ∧
    (T.is_empty = false → c.contains [T] = false → c.has T = .ok (.pointer none)) ∧
    (T.is_empty = false → ∀ p, c.has T = .ok (.pointer p) →
      (p.isSome = true ↔ c.contains [T] = true)) ∧
    (T.is_empty = true → c.has T = .ok (.flag (c.contains [T]))) := by
  have hpos : T.is_empty = false → c.contains [T] = true →
      ∃ off, c.has T = .ok (.pointer (some off)) ∧ c.offset_of [T] = .ok [off] ∧
        c.get [T] = .ok [c.do_get T off] := by
    intro he hc
    have hc2 : c.is_constructed T = true := by rwa [contains_single] at hc
    obtain ⟨off, hoff⟩ := map_find_of_count (hr.registered_allocated T.id hc2)
    refine ⟨off, ?_, ?_, ?_⟩
    · simp [HeterogeneousArray.has, he, hc, hoff, HeterogeneousArray.get_at,
        HeterogeneousArray.check_offsets]
    · rw [offset_of_single_eq, hoff]
    · rw [get_single_eq c T off he hoff]; rfl
  have hneg : T.is_empty = false → c.contains [T] = false →
      c.has T = .ok (.pointer none) := by
    intro he hc
    simp [HeterogeneousArray.has, he, hc]
  refine ⟨hpos, hneg, ?_, ?_⟩
  · intro he p hp
    by_cases hc : c.contains [T] = true
    · obtain ⟨off, h1, -, -⟩ := hpos he hc
      rw [h1] at hp
      simp only [Except.ok.injEq, has_result.pointer.injEq] at hp
      rw [← hp]
      simp [hc]
    · have hc2 : c.contains [T] = false := by simpa using hc
      rw [hneg he hc2] at hp
      simp only [Except.ok.injEq, has_result.pointer.injEq] at hp
      rw [← hp]
      simp [hc2]
  · intro he
    simp [HeterogeneousArray.has, he]

/-- C14 at `has<int>()` after `insert<int>(7)` on a fresh store. -/
theorem has_iff_contains_witness :
    Reachable (fun _ => True) int_store ∧
    ((int_t.is_empty = false → int_store.contains [int_t] = true →
      ∃ off, int_store.has int_t = .ok (.pointer (some off)) ∧
        int_store.offset_of [int_t] = .ok [off] ∧
        int_store.get [int_t] = .ok [int_store.do_get int_t off]) ∧
    (int_t.is_empty = false → int_store.contains [int_t] = false →
      int_store.has int_t = .ok (.pointer none)) ∧
    (int_t.is_empty = false → ∀ p, int_store.has int_t = .ok (.pointer p) →
      (p.isSome = true ↔ int_store.contains [int_t] = true)) ∧
    (int_t.is_empty = true → int_store.has int_t = .ok (.flag (int_store.contains [int_t])))) :=
  ⟨int_store_reachable, has_iff_contains int_store int_store_reachable int_t⟩

/-! ## `insert_or_assign` (C12) -/

theorem insert_or_assign_single (base : Nat) (c : HeterogeneousArray) (T : TypeInfo)
    (v : Val) (he : T.is_empty = false) (hle : T.align ≤ default_alignment) :
    c.insert_or_assign base [(T, v)] =
      if c.is_allocated T then c.assign [(T, v)] else c.insert base [(T, v)] := by
  have hs : HeterogeneousArray.do_allocate_static [T] = true :=
    do_allocate_static_eq_true (by simpa using hle)
  simp only [HeterogeneousArray.insert_or_assign, HeterogeneousArray.insert_or_assign_1, he,
    hs, Bool.not_true, Bool.or_self, Bool.false_eq_true, if_false]
  by_cases ha : c.is_allocated T = true
  · simp only [ha, Bool.not_true, Bool.false_eq_true, if_false, if_true]
    cases h : c.assign [(T, v)] with
    | error e => rfl
    | ok p => obtain ⟨c1, r⟩ := p; simp
  · have ha2 : c.is_allocated T = false := by simpa using ha
    simp only [ha2, Bool.not_false, if_true, Bool.false_eq_true, if_false]
    cases h : c.insert base [(T, v)] with
    | error e => rfl
    | ok p => obtain ⟨c1, r⟩ := p; simp

/-- `assign<T>(v)` on an allocated type that is not empty: it returns, and `get<T>()`
is `v` afterwards. -/
theorem assign_allocated_get (c : HeterogeneousArray) (T : TypeInfo) (v : Val)
    (he : T.is_empty = false) (ha : c.is_allocated T = true) (hv : v.length = T.size) :
    ∃ c1 r, c.assign [(T, v)] = .ok (c1, [r]) ∧ c1.get [T] = .ok [v] ∧
      c1.offsets = c.offsets ∧ c1.data.size = c.data.size ∧ c.offset_of [T] = .ok [r] ∧
      c1.is_constructed T = true := by
  obtain ⟨off, hoff⟩ := map_find_of_count ha
  have hidx : map_index c.offsets T.id = (c.offsets, off) := by
    simp [map_index, hoff]
  have hget : ∀ d, (HeterogeneousArray.mk c.offsets (c.data.write off v) d).get [T] =
      .ok [v] := by
    intro d
    have hg := get_single_eq (HeterogeneousArray.mk c.offsets (c.data.write off v) d) T off
      he hoff
    rw [hg]
    simp only
    rw [← hv, read_write_same]
  by_cases hc : c.is_constructed T = true
  · refine ⟨HeterogeneousArray.mk c.offsets (c.data.write off v) c.destructors, off, ?_,
      hget _, rfl, rfl, ?_, hc⟩
    · simp [HeterogeneousArray.assign, HeterogeneousArray.assign_1, he, hc, hidx,
        HeterogeneousArray.do_assign]
    · rw [offset_of_single_eq, hoff]
  · have hc2 : c.is_constructed T = false := by simpa using hc
    refine ⟨HeterogeneousArray.mk c.offsets (c.data.write off v)
      (map_emplace c.destructors T.id (.destroy_at T)), off, ?_, hget _, rfl, rfl, ?_,
      map_count_emplace_self _ _ _⟩
    · have hc3 : HeterogeneousArray.is_constructed
          { offsets := c.offsets, data := c.data, destructors := c.destructors } T = false :=
        hc2
      simp [HeterogeneousArray.assign, HeterogeneousArray.assign_1, he, hc2, hidx,
        HeterogeneousArray.construct_1, hc3, HeterogeneousArray.do_construct,
        HeterogeneousArray.record_dtor]
    · rw [offset_of_single_eq, hoff]

/-- C12. In every reachable store, for a type `T` that is not empty (with an alignment
of at most 64, or the call does not compile) and an object `v` of `T`,
`insert_or_assign<T>(v)` has the outcome of `insert<T>(v)` when `T` is not reserved and
the outcome of `assign<T>(v)` otherwise; in both cases it returns and `get<T>()` is `v`
afterwards. -/
theorem insert_or_assign_outcome {W : TypeInfo → Prop} (base : Nat)
    (c : HeterogeneousArray) (hr : Reachable W c) (T : TypeInfo) (v : Val)
    (he : T.is_empty = false) (hle : T.align ≤ default_alignment)
    (hv : v.length = T.size) :
    (c.is_allocated T = false → c.insert_or_assign base [(T, v)] = c.insert base [(T, v)]) ∧
    (c.is_allocated T = true → c.insert_or_assign base [(T, v)] = c.assign [(T, v)]) ∧
    ∃ c1 r, c.insert_or_assign base [(T, v)] = .ok (c1, [r]) ∧ c1.get [T] = .ok [v] := by
  have hsingle := insert_or_assign_single base c T v he hle
  refine ⟨fun ha => by rw [hsingle, ha]; rfl, fun ha => by rw [hsingle, ha]; rfl, ?_⟩
  by_cases ha : c.is_allocated T = true
  · obtain ⟨c1, r, h1, h2, -⟩ := assign_allocated_get c T v he ha hv
    exact ⟨c1, r, by rw [hsingle, ha]; exact h1, h2⟩
  · have ha2 : c.is_allocated T = false := by simpa using ha
    have hnc := hr.not_constructed ha2
    refine ⟨_, _, by rw [hsingle, ha2]; exact insert_single_eq base c T v he hle ha2 hnc, ?_⟩
    rw [get_single_eq _ T _ he (map_find_emplace_self _ _ _ ha2)]
    simp only
    rw [← hv, read_write_same]

/-- C12 at `insert_or_assign<double>(v)` on the store that holds an `int`. -/
theorem insert_or_assign_outcome_witness :
    (Reachable (fun _ => True) int_store ∧ double_t.is_empty = false ∧
      double_t.align ≤ default_alignment ∧ [1, 2, 3, 4, 5, 6, 7, 8].length = double_t.size) ∧
    ((int_store.is_allocated double_t = false →
      int_store.insert_or_assign 64 [(double_t, [1, 2, 3, 4, 5, 6, 7, 8])] =
        int_store.insert 64 [(double_t, [1, 2, 3, 4, 5, 6, 7, 8])]) ∧
    (int_store.is_allocated double_t = true →
      int_store.insert_or_assign 64 [(double_t, [1, 2, 3, 4, 5, 6, 7, 8])] =
        int_store.assign [(double_t, [1, 2, 3, 4, 5, 6, 7, 8])]) ∧
    ∃ c1 r, int_store.insert_or_assign 64 [(double_t, [1, 2, 3, 4, 5, 6, 7, 8])] =
        .ok (c1, [r]) ∧ c1.get [double_t] = .ok [[1, 2, 3, 4, 5, 6, 7, 8]]) :=
  ⟨⟨int_store_reachable, rfl, by decide, rfl⟩,
    insert_or_assign_outcome 64 int_store int_store_reachable double_t
      [1, 2, 3, 4, 5, 6, 7, 8] rfl (by decide) rfl⟩

/-! ## `destruct` (C18) -/

/-- `do_destruct<T>()` on a constructed type of a reachable store. -/
theorem do_destruct_eq {W : TypeInfo → Prop} (c : HeterogeneousArray) (hr : Reachable W c)
    (T : TypeInfo) (hc : c.is_constructed T = true) :
    c.do_destruct T = .ok ({ c with destructors := map_erase c.destructors T.id },
      if T.trivially_destructible then [] else [T.id]) := by
  obtain ⟨d, hd⟩ := map_find_of_count hc
  have hinv := hr.invoke_ok hd
  by_cases ht : T.trivially_destructible = true
  · simp [HeterogeneousArray.do_destruct, contains_single, hc, ht]
  · have ht2 : T.trivially_destructible = false := by simpa using ht
    simp [HeterogeneousArray.do_destruct, contains_single, hc, ht2, hd, hinv]

theorem destruct_single (c : HeterogeneousArray) (T : TypeInfo) :
    c.destruct [T] = c.do_destruct T := by
  simp only [HeterogeneousArray.destruct]
  cases h : c.do_destruct T with
  | error e => rfl
  | ok p => obtain ⟨c1, r⟩ := p; simp

/-- C18. In every reachable store in which `T` is constructed, `destruct<T>()` returns
and removes `T` from the destructor registry; the registration of every other type, the
offset directory (the entry of `T` included) and the arena length are unchanged. -/
theorem destruct_frame {W : TypeInfo → Prop} (c : HeterogeneousArray) (hr : Reachable W c)
    (T : TypeInfo) (hc : c.is_constructed T = true) :
    ∃ c1 called, c.destruct [T] = .ok (c1, called) ∧ c1.is_constructed T = false ∧
      (∀ k, k ≠ T.id → map_find k c1.destructors = map_find k c.destructors) ∧
      (∀ V : TypeInfo, V.id ≠ T.id → c1.is_constructed V = c.is_constructed V) ∧
      c1.offsets = c.offsets ∧ c1.is_allocated T = true ∧
      c1.offset_of [T] = c.offset_of [T] ∧ c1.data.size = c.data.size := by
  refine ⟨_, _, (destruct_single c T).trans (do_destruct_eq c hr T hc), ?_, ?_, ?_, rfl, ?_,
    rfl, rfl⟩
  · exact map_count_erase_self _ _
  · intro k hk
    exact map_find_erase_ne _ hk
  · intro V hV
    exact map_count_erase_ne _ hV
  · exact hr.registered_allocated T.id hc

/-- C18 at `destruct<int>()` after `insert<int>(7)` on a fresh store. -/
theorem destruct_frame_witness :
    (Reachable (fun _ => True) int_store ∧ int_store.is_constructed int_t = true) ∧
    ∃ c1 called, int_store.destruct [int_t] = .ok (c1, called) ∧
      c1.is_constructed int_t = false ∧
      (∀ k, k ≠ int_t.id → map_find k c1.destructors = map_find k int_store.destructors) ∧
      (∀ V : TypeInfo, V.id ≠ int_t.id → c1.is_constructed V = int_store.is_constructed V) ∧
      c1.offsets = int_store.offsets ∧ c1.is_allocated int_t = true ∧
      c1.offset_of [int_t] = int_store.offset_of [int_t] ∧
      c1.data.size = int_store.data.size :=
  ⟨⟨int_store_reachable, by decide⟩,
    destruct_frame int_store int_store_reachable int_t (by decide)⟩

/-! ## Destructor accounting (C19, C20) -/

theorem map_emplace_length {V : Type} (m : List (Nat × V)) (k : Nat) (v : V)
    (h : map_count m k = false) :
    map_emplace m k v = (k, v) :: m ∧ (map_emplace m k v).length = m.length + 1 := by
  simp [map_emplace, h]

/-- What `insert<T>(v)` has done to the registry when it returns. -/
theorem insert_single_destructors {base : Nat} {c c1 : HeterogeneousArray} {T : TypeInfo}
    {v : Val} {r : List Nat} (h : c.insert base [(T, v)] = .ok (c1, r)) :
    c1.destructors = map_emplace c.destructors T.id (dtor_of T) := by
  simp only [HeterogeneousArray.insert, HeterogeneousArray.insert_1] at h
  split at h
  · simp only [Except.ok.injEq, Prod.mk.injEq] at h
    rw [← h.1]
    exact (record_dtor_destructors _ T).1
  · rename_i he
    split at h
    · simp at h
    · split at h
      · simp at h
      · cases h1 : c.reserve base [T] with
        | error e => rw [h1] at h; simp at h
        | ok p =>
          obtain ⟨c2, n⟩ := p
          rw [h1] at h
          obtain ⟨-, -, -, -, hd⟩ := reserve_ok h1
          cases h2 : c2.construct_1 T (n.headD 0) v with
          | error e => simp only [h2] at h; simp at h
          | ok q =>
            obtain ⟨c3, r3⟩ := q
            simp only [h2, Except.ok.injEq, Prod.mk.injEq] at h
            obtain ⟨-, -, -, heq⟩ := construct_1_ok h2
            rw [← h.1, heq, hd]
            simp [dtor_of, he]

/-- What `construct<T>(v)` has done when it returns. -/
theorem construct_single_ok {c c1 : HeterogeneousArray} {T : TypeInfo} {v : Val}
    {r : List Nat} (h : c.construct [(T, v)] = .ok (c1, r)) :
    c.is_allocated T = true ∧ c.is_constructed T = false ∧ T.is_empty = false ∧
      c1.destructors = map_emplace c.destructors T.id (dtor_of T) ∧
      c1.offsets = c.offsets := by
  unfold HeterogeneousArray.construct at h
  split at h
  · simp at h
  · simp only at h
    cases h1 : c.offset_of [T] with
    | error e => rw [h1] at h; simp at h
    | ok offs =>
      rw [h1] at h
      have ha := offset_of_ok h1 T (List.mem_singleton_self T)
      cases h2 : c.construct_1 T (offs.headD 0) v with
      | error e => simp only [h2] at h; simp at h
      | ok p =>
        obtain ⟨c2, r2⟩ := p
        simp only [h2, Except.ok.injEq, Prod.mk.injEq] at h
        obtain ⟨he, hc, -, heq⟩ := construct_1_ok h2
        rw [← h.1, heq]
        exact ⟨ha, hc, he, by simp [dtor_of, he], rfl⟩

/-- C19. In every reachable store the registry has exactly one entry per constructed
type: a list of the constructed type ids without repetition has the length of the
registry. An `insert` or `construct` of a type that is not constructed raises the number
of entries by one when it returns, whether the type is trivially destructible or not,
and a `destruct<T>()` that returns lowers it by one. -/
theorem destructor_accounting {W : TypeInfo → Prop} (c : HeterogeneousArray)
    (hr : Reachable W c) :
    (∀ ids : List Nat, ids.Nodup → (∀ k, k ∈ ids ↔ map_count c.destructors k = true) →
      ids.length = c.destructors.length) ∧
    (∀ (T : TypeInfo) (v : Val) (base : Nat) (c1 : HeterogeneousArray) (r : List Nat),
      c.is_constructed T = false →
      (c.insert base [(T, v)] = .ok (c1, r) ∨ c.construct [(T, v)] = .ok (c1, r)) →
      c1.destructors.length = c.destructors.length + 1) ∧
    (∀ (T : TypeInfo) (c1 : HeterogeneousArray) (called : List Nat),
      c.destruct [T] = .ok (c1, called) →
      c1.destructors.length + 1 = c.destructors.length) := by
  have hok := hr.registry_ok
  refine ⟨?_, ?_, ?_⟩
  · intro ids hn hmem
    have hperm : ids.Perm (c.destructors.map (fun e => e.1)) := by
      rw [List.perm_ext_iff_of_nodup hn hok.1]
      intro k
      rw [hmem k, map_count_iff_mem]
    simpa using hperm.length_eq
  · intro T v base c1 r hc h
    have hd : c1.destructors = map_emplace c.destructors T.id (dtor_of T) := by
      rcases h with h | h
      · exact insert_single_destructors h
      · exact (construct_single_ok h).2.2.2.1
    rw [hd]
    exact (map_emplace_length _ _ _ hc).2
  · intro T c1 called h
    rw [destruct_single] at h
    obtain ⟨hc, heq, -⟩ := do_destruct_ok h
    rw [heq]
    exact map_erase_length _ _ hok.1 hc

/-- C19 after `insert<int>(7)` on a fresh store. -/
theorem destructor_accounting_witness :
    Reachable (fun _ => True) int_store ∧
    ((∀ ids : List Nat, ids.Nodup →
      (∀ k, k ∈ ids ↔ map_count int_store.destructors k = true) →
      ids.length = int_store.destructors.length) ∧
    (∀ (T : TypeInfo) (v : Val) (base : Nat) (c1 : HeterogeneousArray) (r : List Nat),
      int_store.is_constructed T = false →
      (int_store.insert base [(T, v)] = .ok (c1, r) ∨
        int_store.construct [(T, v)] = .ok (c1, r)) →
      c1.destructors.length = int_store.destructors.length + 1) ∧
    (∀ (T : TypeInfo) (c1 : HeterogeneousArray) (called : List Nat),
      int_store.destruct [T] = .ok (c1, called) →
      c1.destructors.length + 1 = int_store.destructors.length)) :=
  ⟨int_store_reachable, destructor_accounting int_store int_store_reachable⟩

theorem map_erase_absent {V : Type} (m : List (Nat × V)) (k : Nat)
    (h : map_count m k = false) : map_erase m k = m := by
  unfold map_erase
  apply List.filter_eq_self.2
  intro a ha
  simp only [ne_eq, decide_not, Bool.not_eq_true', decide_eq_false_iff_not]
  intro hak
  have : map_count m k = true := by
    rw [map_count_iff_mem, ← hak]
    exact List.mem_map_of_mem _ ha
  rw [h] at this
  exact absurd this (by simp)

/-- C20, as amended. A trivially destructible type is registered like every other type:
in every store, for a trivially destructible type `T` that is not empty and not
constructed, `insert<T>(v)` (when `T` is not reserved) and `construct<T>(v)` (when it
is) add the entry of `T` to the destructor registry. What trivial destructibility
changes is `destruct<T>()`: it erases that entry and calls no stored destructor. -/
theorem trivially_destructible_registered (base : Nat)
    (c : HeterogeneousArray) (T : TypeInfo) (v : Val)
    (ht : T.trivially_destructible = true) (he : T.is_empty = false)
    (hle : T.align ≤ default_alignment) (hc : c.is_constructed T = false) :
    (c.is_allocated T = false →
      ∃ c1 r, c.insert base [(T, v)] = .ok (c1, r) ∧
        c1.destructors = (T.id, destructor_t.destroy_at T) :: c.destructors ∧
        c1.is_constructed T = true ∧
        ∃ c2, c1.destruct [T] = .ok (c2, []) ∧ c2.destructors = c.destructors) ∧
    (c.is_allocated T = true →
      ∃ c1 r, c.construct [(T, v)] = .ok (c1, r) ∧
        c1.destructors = (T.id, destructor_t.destroy_at T) :: c.destructors ∧
        c1.is_constructed T = true ∧
        ∃ c2, c1.destruct [T] = .ok (c2, []) ∧ c2.destructors = c.destructors) := by
  have hem : map_emplace c.destructors T.id (destructor_t.destroy_at T) =
      (T.id, destructor_t.destroy_at T) :: c.destructors := (map_emplace_length _ _ _ hc).1
  have hdes : ∀ (c1 : HeterogeneousArray),
      c1.destructors = (T.id, destructor_t.destroy_at T) :: c.destructors →
      c1.is_constructed T = true ∧
        ∃ c2, c1.destruct [T] = .ok (c2, []) ∧ c2.destructors = c.destructors := by
    intro c1 h1
    have hc1 : c1.is_constructed T = true := by
      simp [HeterogeneousArray.is_constructed, h1, map_count, map_find]
    refine ⟨hc1, { c1 with destructors := map_erase c1.destructors T.id }, ?_, ?_⟩
    · rw [destruct_single]
      simp [HeterogeneousArray.do_destruct, contains_single, hc1, ht]
    · simp only [h1]
      have : map_erase ((T.id, destructor_t.destroy_at T) :: c.destructors) T.id =
          map_erase c.destructors T.id := by
        unfold map_erase
        simp [List.filter_cons]
      rw [this]
      exact map_erase_absent _ _ hc
  constructor
  · intro hna
    have h1 := insert_single_eq base c T v he hle hna hc
    rw [hem] at h1
    exact ⟨_, _, h1, rfl, hdes _ rfl⟩
  · intro ha
    obtain ⟨off, hoff⟩ := map_find_of_count ha
    have h1 : c.construct [(T, v)] =
        .ok (HeterogeneousArray.mk c.offsets (c.data.write off v)
          ((T.id, destructor_t.destroy_at T) :: c.destructors), [off]) := by
      rw [← hem]
      simp [HeterogeneousArray.construct, he, HeterogeneousArray.offset_of, hoff,
        HeterogeneousArray.construct_1, hc, HeterogeneousArray.do_construct,
        HeterogeneousArray.record_dtor]
    exact ⟨_, _, h1, rfl, hdes _ rfl⟩

/-- C20 fails for `float`, as the test `non_trivially_destructible` asserts: `float` is
trivially destructible and its `insert` on a fresh store adds an entry to the
registry. -/
theorem trivially_destructible_registered_counterexample :
    float_t.trivially_destructible = true ∧
      HeterogeneousArray.empty.destructors.length = 0 ∧
      (store_after HeterogeneousArray.empty
        (HeterogeneousArray.empty.insert 0 [(float_t, [0, 0, 128, 63])])).destructors =
          [(float_t.id, destructor_t.destroy_at float_t)] := by
  decide

/-- C20, as amended, at `insert<float>(1.f)` after `insert<int>(7)` on a fresh store. -/
theorem trivially_destructible_registered_witness :
    (float_t.trivially_destructible = true ∧
      float_t.is_empty = false ∧ float_t.align ≤ default_alignment ∧
      int_store.is_constructed float_t = false) ∧
    ((int_store.is_allocated float_t = false →
      ∃ c1 r, int_store.insert 64 [(float_t, [0, 0, 128, 63])] = .ok (c1, r) ∧
        c1.destructors = (float_t.id, destructor_t.destroy_at float_t) ::
          int_store.destructors ∧
        c1.is_constructed float_t = true ∧
        ∃ c2, c1.destruct [float_t] = .ok (c2, []) ∧
          c2.destructors = int_store.destructors) ∧
    (int_store.is_allocated float_t = true →
      ∃ c1 r, int_store.construct [(float_t, [0, 0, 128, 63])] = .ok (c1, r) ∧
        c1.destructors = (float_t.id, destructor_t.destroy_at float_t) ::
          int_store.destructors ∧
        c1.is_constructed float_t = true ∧
        ∃ c2, c1.destruct [float_t] = .ok (c2, []) ∧
          c2.destructors = int_store.destructors)) :=
  ⟨⟨rfl, rfl, by decide, by decide⟩,
    trivially_destructible_registered 64 int_store float_t
      [0, 0, 128, 63] rfl rfl (by decide) (by decide)⟩

/-! ## Reserving twice, repeated types, empty types (C24, C25, C27) -/

/-- C24 fails on the store that holds an `int`: `reserve<D>()` for the empty `struct D`
takes the single-type path of every other type, it returns the offset 4, records it for
`D` and grows the arena from 4 to 5 bytes. -/
theorem reserve_empty_type_allocates :
    D_t.is_empty = true ∧ int_store.is_allocated D_t = false ∧ int_store.data.size = 4 ∧
      returned (int_store.reserve 0 [D_t]) = some [4] ∧
      (store_after int_store (int_store.reserve 0 [D_t])).data.size = 5 ∧
      map_find D_t.id (store_after int_store (int_store.reserve 0 [D_t])).offsets =
        some 4 := by
  decide

/-- `reserve<Ts...>()` fails when one of the types is allocated: on its `assert`, the
first statement it executes, when the call compiles. -/
theorem reserve_allocated_fails (base : Nat) (c : HeterogeneousArray) (Ts : List TypeInfo)
    (T : TypeInfo) (hT : T ∈ Ts) (ha : c.is_allocated T = true) :
    (∃ e, c.reserve base Ts = .error e) ∧
      ((∀ V ∈ Ts, V.align ≤ default_alignment) → c.reserve base Ts = .error Fault.assertion) := by
  have hany : Ts.any (fun V => c.is_allocated V) = true := by
    simp only [List.any_eq_true]
    exact ⟨T, hT, ha⟩
  constructor
  · by_cases hs : HeterogeneousArray.do_allocate_static Ts = true
    · exact ⟨Fault.assertion, by simp [HeterogeneousArray.reserve, hs, hany]⟩
    · exact ⟨Fault.ill_formed, by simp [HeterogeneousArray.reserve, hs]⟩
  · intro hle
    simp [HeterogeneousArray.reserve, do_allocate_static_eq_true hle, hany]

/-- C25. For every store and every type `T` that is not empty and is in the offset
directory, reserved or constructed, every `reserve<...T...>()` and `insert<T>(v)` fail.
When the call compiles (alignments of at most 64) the fault is the `assert` at the head
of `reserve`, or of `insert_1`, which is executed before the directory, the registry or
the arena are written. -/
theorem reserve_twice_fails (base : Nat) (c : HeterogeneousArray) (T : TypeInfo) (v : Val)
    (he : T.is_empty = false) (ha : c.is_allocated T = true) :
    (∀ Ts, T ∈ Ts → ∃ e, c.reserve base Ts = .error e) ∧
    (∀ Ts, T ∈ Ts → (∀ V ∈ Ts, V.align ≤ default_alignment) →
      c.reserve base Ts = .error Fault.assertion) ∧
    (∃ e, c.insert base [(T, v)] = .error e) ∧
    (T.align ≤ default_alignment → c.insert base [(T, v)] = .error Fault.assertion) := by
  have hins : T.align ≤ default_alignment → c.insert base [(T, v)] = .error Fault.assertion := by
    intro hle
    have hs : HeterogeneousArray.do_allocate_static [T] = true :=
      do_allocate_static_eq_true (by simpa using hle)
    have hres := (reserve_allocated_fails base c [T] T (List.mem_singleton_self T) ha).2
      (by simpa using hle)
    by_cases hc : c.contains [T] = true
    · simp [HeterogeneousArray.insert, HeterogeneousArray.insert_1, he, hs, hc]
    · have hc2 : c.contains [T] = false := by simpa using hc
      simp [HeterogeneousArray.insert, HeterogeneousArray.insert_1, he, hs, hc2, hres]
  refine ⟨fun Ts hT => (reserve_allocated_fails base c Ts T hT ha).1,
    fun Ts hT hle => (reserve_allocated_fails base c Ts T hT ha).2 hle, ?_, hins⟩
  by_cases hle : T.align ≤ default_alignment
  · exact ⟨_, hins hle⟩
  · have hs : HeterogeneousArray.do_allocate_static [T] = false := by
      simp [HeterogeneousArray.do_allocate_static, hle]
    exact ⟨Fault.ill_formed, by
      simp [HeterogeneousArray.insert, HeterogeneousArray.insert_1, he, hs]⟩

/-- C25 at `insert(A{})` and `reserve<A, C>()` on a store in which `A` is reserved, as in
the test `reserve_construct`. -/
theorem reserve_twice_fails_witness :
    (A_t.is_empty = false ∧
      (store_after HeterogeneousArray.empty
        (HeterogeneousArray.empty.reserve 0 [A_t])).is_allocated A_t = true) ∧
    ((∀ Ts, A_t ∈ Ts → ∃ e,
      (store_after HeterogeneousArray.empty
        (HeterogeneousArray.empty.reserve 0 [A_t])).reserve 64 Ts = .error e) ∧
    (∀ Ts, A_t ∈ Ts → (∀ V ∈ Ts, V.align ≤ default_alignment) →
      (store_after HeterogeneousArray.empty
        (HeterogeneousArray.empty.reserve 0 [A_t])).reserve 64 Ts = .error Fault.assertion) ∧
    (∃ e, (store_after HeterogeneousArray.empty
        (HeterogeneousArray.empty.reserve 0 [A_t])).insert 64 [(A_t, [1, 0, 0, 0, 2, 0, 0, 0])] =
          .error e) ∧
    (A_t.align ≤ default_alignment →
      (store_after HeterogeneousArray.empty
        (HeterogeneousArray.empty.reserve 0 [A_t])).insert 64 [(A_t, [1, 0, 0, 0, 2, 0, 0, 0])] =
          .error Fault.assertion)) :=
  ⟨⟨rfl, by decide⟩,
    reserve_twice_fails 64 _ A_t [1, 0, 0, 0, 2, 0, 0, 0] rfl (by decide)⟩

/-- C27 fails for `reserve<int, int>()` on a fresh store: `all_types_different<int, int>`
is `true`, because `?:` binds weaker than `&&` and a repeated head type makes the
condition false; the `static_assert` passes and the reservation is performed, two slots
are allotted, `[0, 4]` is returned and the directory records the offset 0 for `int`. -/
theorem reserve_repeated_type_performed :
    HeterogeneousArray.all_types_different [int_t, int_t] = true ∧
      HeterogeneousArray.do_allocate_static [int_t, int_t] = true ∧
      returned (HeterogeneousArray.empty.reserve 0 [int_t, int_t]) = some [0, 4] ∧
      (store_after HeterogeneousArray.empty
        (HeterogeneousArray.empty.reserve 0 [int_t, int_t])).data.size = 8 ∧
      (store_after HeterogeneousArray.empty
        (HeterogeneousArray.empty.reserve 0 [int_t, int_t])).offsets = [(int_t.id, 0)] := by
  decide

/-! ## `construct` (C26) -/

/-- C26. For every store and every type `T` that is not empty, `construct<T>(v)` returns
if and only if `T` is reserved and not constructed. When it returns, `T` is constructed,
`get<T>()` is `v`, the reference is at the reserved offset, and the offset directory and
the arena length are unchanged. When `T` is not reserved it ends with
`std::out_of_range`, when `T` is reserved and constructed it fails its `assert`. -/
theorem construct_iff (c : HeterogeneousArray) (T : TypeInfo) (v : Val)
    (he : T.is_empty = false) (hv : v.length = T.size) :
    ((∃ c1 r, c.construct [(T, v)] = .ok (c1, r)) ↔
      (c.is_allocated T = true ∧ c.is_constructed T = false)) ∧
    (∀ c1 r, c.construct [(T, v)] = .ok (c1, r) →
      c1.is_constructed T = true ∧ c1.get [T] = .ok [v] ∧ c.offset_of [T] = .ok r ∧
        c1.offsets = c.offsets ∧ c1.data.size = c.data.size) ∧
    (c.is_allocated T = false → c.construct [(T, v)] = .error Fault.out_of_range) ∧
    (c.is_allocated T = true → c.is_constructed T = true →
      c.construct [(T, v)] = .error Fault.assertion) := by
  have hok : ∀ off, map_find T.id c.offsets = some off → c.is_constructed T = false →
      c.construct [(T, v)] =
        .ok (HeterogeneousArray.mk c.offsets (c.data.write off v)
          (map_emplace c.destructors T.id (.destroy_at T)), [off]) := by
    intro off hoff hc
    simp [HeterogeneousArray.construct, he, HeterogeneousArray.offset_of, hoff,
      HeterogeneousArray.construct_1, hc, HeterogeneousArray.do_construct,
      HeterogeneousArray.record_dtor]
  have hsucc : ∀ c1 r, c.construct [(T, v)] = .ok (c1, r) →
      c1.is_constructed T = true ∧ c1.get [T] = .ok [v] ∧ c.offset_of [T] = .ok r ∧
        c1.offsets = c.offsets ∧ c1.data.size = c.data.size := by
    intro c1 r h
    obtain ⟨ha, hc, -, -, -⟩ := construct_single_ok h
    obtain ⟨off, hoff⟩ := map_find_of_count ha
    rw [hok off hoff hc] at h
    simp only [Except.ok.injEq, Prod.mk.injEq] at h
    obtain ⟨h1, h2⟩ := h
    subst h1
    subst h2
    refine ⟨map_count_emplace_self _ _ _, ?_, ?_, rfl, rfl⟩
    · have hg := get_single_eq (HeterogeneousArray.mk c.offsets (c.data.write off v)
        (map_emplace c.destructors T.id (.destroy_at T))) T off he hoff
      rw [hg]
      simp only
      rw [← hv, read_write_same]
    · rw [offset_of_single_eq, hoff]
  refine ⟨⟨?_, ?_⟩, hsucc, ?_, ?_⟩
  · rintro ⟨c1, r, h⟩
    obtain ⟨ha, hc, -, -, -⟩ := construct_single_ok h
    exact ⟨ha, hc⟩
  · rintro ⟨ha, hc⟩
    obtain ⟨off, hoff⟩ := map_find_of_count ha
    exact ⟨_, _, hok off hoff hc⟩
  · intro ha
    have hf : map_find T.id c.offsets = none := by
      simp only [HeterogeneousArray.is_allocated, map_count] at ha
      cases h : map_find T.id c.offsets with
      | none => rfl
      | some x => rw [h] at ha; simp at ha
    simp [HeterogeneousArray.construct, he, HeterogeneousArray.offset_of, hf]
  · intro ha hc
    obtain ⟨off, hoff⟩ := map_find_of_count ha
    simp [HeterogeneousArray.construct, he, HeterogeneousArray.offset_of, hoff,
      HeterogeneousArray.construct_1, hc]

/-- C26 at `construct<A>(v)` on a store in which `A` is reserved, as in the test
`reserve_construct`. -/
theorem construct_iff_witness :
    (A_t.is_empty = false ∧ [148, 1, 0, 0, 0, 0, 0, 0].length = A_t.size) ∧
    (((∃ c1 r, (store_after HeterogeneousArray.empty
        (HeterogeneousArray.empty.reserve 0 [A_t])).construct
          [(A_t, [148, 1, 0, 0, 0, 0, 0, 0])] = .ok (c1, r)) ↔
      ((store_after HeterogeneousArray.empty
        (HeterogeneousArray.empty.reserve 0 [A_t])).is_allocated A_t = true ∧
       (store_after HeterogeneousArray.empty
        (HeterogeneousArray.empty.reserve 0 [A_t])).is_constructed A_t = false)) ∧
    (∀ c1 r, (store_after HeterogeneousArray.empty
        (HeterogeneousArray.empty.reserve 0 [A_t])).construct
          [(A_t, [148, 1, 0, 0, 0, 0, 0, 0])] = .ok (c1, r) →
      c1.is_constructed A_t = true ∧ c1.get [A_t] = .ok [[148, 1, 0, 0, 0, 0, 0, 0]] ∧
        (store_after HeterogeneousArray.empty
          (HeterogeneousArray.empty.reserve 0 [A_t])).offset_of [A_t] = .ok r ∧
        c1.offsets = (store_after HeterogeneousArray.empty
          (HeterogeneousArray.empty.reserve 0 [A_t])).offsets ∧
        c1.data.size = (store_after HeterogeneousArray.empty
          (HeterogeneousArray.empty.reserve 0 [A_t])).data.size) ∧
    ((store_after HeterogeneousArray.empty
        (HeterogeneousArray.empty.reserve 0 [A_t])).is_allocated A_t = false →
      (store_after HeterogeneousArray.empty
        (HeterogeneousArray.empty.reserve 0 [A_t])).construct
          [(A_t, [148, 1, 0, 0, 0, 0, 0, 0])] = .error Fault.out_of_range) ∧
    ((store_after HeterogeneousArray.empty
        (HeterogeneousArray.empty.reserve 0 [A_t])).is_allocated A_t = true →
      (store_after HeterogeneousArray.empty
        (HeterogeneousArray.empty.reserve 0 [A_t])).is_constructed A_t = true →
      (store_after HeterogeneousArray.empty
        (HeterogeneousArray.empty.reserve 0 [A_t])).construct
          [(A_t, [148, 1, 0, 0, 0, 0, 0, 0])] = .error Fault.assertion)) :=
  ⟨⟨rfl, rfl⟩, construct_iff _ A_t [148, 1, 0, 0, 0, 0, 0, 0] rfl rfl⟩

/-! ## `clear` (C21) -/

theorem invoke_all_eq (c : HeterogeneousArray) :
    ∀ (l : List (Nat × destructor_t)), (∀ e ∈ l, c.invoke e.2 = .ok ()) →
      c.invoke_all l = .ok (l.map (fun e => e.1)) := by
  intro l
  induction l with
  | nil => intro _; rfl
  | cons e rest ih =>
    intro h
    obtain ⟨tid, destructor⟩ := e
    have h1 : c.invoke destructor = .ok () := h (tid, destructor) (List.mem_cons_self _ _)
    have h2 := ih (fun e he => h e (List.mem_cons_of_mem _ he))
    simp [HeterogeneousArray.invoke_all, h1, h2]

/-- In a reachable store the call of every stored destructor returns. -/
theorem Reachable.invoke_mem_ok {U : TypeInfo → Prop} {c : HeterogeneousArray}
    (h : Reachable U c) : ∀ e ∈ c.destructors, c.invoke e.2 = .ok () := by
  intro e he
  have hcount : map_count c.destructors e.1 = true :=
    (map_count_iff_mem _ _).2 (List.mem_map_of_mem (fun e => e.1) he)
  obtain ⟨d, hd⟩ := map_find_of_count hcount
  obtain ⟨T, hTk, hTd⟩ := h.registry_ok.2 e he
  rw [hTd]
  unfold dtor_of
  by_cases hem : T.is_empty = true
  · simp [hem, HeterogeneousArray.invoke]
  · have he2 : T.is_empty = false := by simpa using hem
    simp only [he2, Bool.false_eq_true, if_false, HeterogeneousArray.invoke]
    have hcount2 : map_count c.destructors T.id = true := by rw [hTk]; exact hcount
    obtain ⟨off, hoff⟩ := map_find_of_count (h.registered_allocated T.id hcount2)
    rw [get_single_eq c T off he2 hoff]

/-- `clear()` in a reachable store: it returns, the destructors called are those of the
registry, in its order. -/
theorem Reachable.clear_eq {U : TypeInfo → Prop} {c : HeterogeneousArray}
    (h : Reachable U c) :
    c.clear = .ok (HeterogeneousArray.mk [] c.data.clear [],
      c.destructors.map (fun e => e.1)) := by
  simp [HeterogeneousArray.clear, invoke_all_eq c c.destructors h.invoke_mem_ok]

/-- C21. In every reachable store `clear()` returns, and it has called the stored
destructor of every constructed type once and no other destructor. Afterwards the
offset directory and the destructor registry are empty and the arena has the length 0,
as in the default-constructed store; the store is reachable, no type is reserved or
constructed in it, and a second `clear()` calls no destructor and leaves it as it is. -/
theorem clear_calls_each_destructor_once {W : TypeInfo → Prop} (c : HeterogeneousArray)
    (hr : Reachable W c) :
    ∃ c1 called, c.clear = .ok (c1, called) ∧
      (∀ k, called.count k = if map_count c.destructors k then 1 else 0) ∧
      (∀ T : TypeInfo, called.count T.id = if c.is_constructed T then 1 else 0) ∧
      c1.offsets = HeterogeneousArray.empty.offsets ∧
      c1.destructors = HeterogeneousArray.empty.destructors ∧
      c1.data.size = HeterogeneousArray.empty.data.size ∧
      c1.offsets = [] ∧ c1.destructors = [] ∧ c1.data.size = 0 ∧
      (∀ T : TypeInfo, c1.is_allocated T = false ∧ c1.is_constructed T = false) ∧
      Reachable W c1 ∧ c1.clear = .ok (c1, []) := by
  have hcount : ∀ k, (c.destructors.map (fun e => e.1)).count k =
      if map_count c.destructors k then 1 else 0 := by
    intro k
    by_cases hk : map_count c.destructors k = true
    · rw [hk, if_pos rfl]
      exact List.count_eq_one_of_mem hr.registry_ok.1 ((map_count_iff_mem _ _).1 hk)
    · have hk2 : map_count c.destructors k = false := by simpa using hk
      rw [hk2]
      simp only [Bool.false_eq_true, if_false]
      exact List.count_eq_zero_of_not_mem (fun hm => hk ((map_count_iff_mem _ _).2 hm))
  refine ⟨_, _, hr.clear_eq, hcount, fun T => hcount T.id, rfl, rfl, rfl, rfl, rfl, rfl,
    fun T => ⟨rfl, rfl⟩, Reachable.clear hr hr.clear_eq, rfl⟩

/-- C21 at `clear()` after `insert<int>(7)` on a fresh store. -/
theorem clear_calls_each_destructor_once_witness :
    Reachable (fun _ => True) int_store ∧
    ∃ c1 called, int_store.clear = .ok (c1, called) ∧
      (∀ k, called.count k = if map_count int_store.destructors k then 1 else 0) ∧
      (∀ T : TypeInfo, called.count T.id = if int_store.is_constructed T then 1 else 0) ∧
      c1.offsets = HeterogeneousArray.empty.offsets ∧
      c1.destructors = HeterogeneousArray.empty.destructors ∧
      c1.data.size = HeterogeneousArray.empty.data.size ∧
      c1.offsets = [] ∧ c1.destructors = [] ∧ c1.data.size = 0 ∧
      (∀ T : TypeInfo, c1.is_allocated T = false ∧ c1.is_constructed T = false) ∧
      Reachable (fun _ => True) c1 ∧ c1.clear = .ok (c1, []) :=
  ⟨int_store_reachable, clear_calls_each_destructor_once int_store int_store_reachable⟩

/-! ## `destruct` followed by `assign` (C22) -/

/-- C22. In every reachable store in which the type `T`, not empty, is constructed,
`destruct<T>()` followed by `assign<T>(v)` returns; afterwards `contains<T>()` is true,
`get<T>()` is `v`, the offset of `T` is the one it had before `destruct`, the reference
returned is at that offset, and the offset directory and the arena length are those of
the store before `destruct`. -/
theorem destruct_assign_same_slot {W : TypeInfo → Prop} (c : HeterogeneousArray)
    (hr : Reachable W c) (T : TypeInfo) (v : Val) (he : T.is_empty = false)
    (hc : c.is_constructed T = true) (hv : v.length = T.size) :
    ∃ c1 called c2 r, c.destruct [T] = .ok (c1, called) ∧
      c1.contains [T] = false ∧ c1.assign [(T, v)] = .ok (c2, [r]) ∧
      c2.contains [T] = true ∧ c2.get [T] = .ok [v] ∧
      c2.offset_of [T] = c.offset_of [T] ∧ c.offset_of [T] = .ok [r] ∧
      c2.offsets = c.offsets ∧ c2.data.size = c.data.size := by
  have ha : c.is_allocated T = true := hr.registered_allocated T.id hc
  obtain ⟨c2, r, h1, h2, h3, h4, h5, h6⟩ := assign_allocated_get
    (HeterogeneousArray.mk c.offsets c.data (map_erase c.destructors T.id)) T v he ha hv
  refine ⟨_, _, c2, r, (destruct_single c T).trans (do_destruct_eq c hr T hc), ?_, h1, ?_, h2,
    ?_, h5, h3, h4⟩
  · rw [contains_single]
    exact map_count_erase_self _ _
  · rw [contains_single]
    exact h6
  · rw [offset_of_single_eq, offset_of_single_eq, h3]

/-- C22 at `destruct<int>()`, `assign<int>(9)` after `insert<int>(7)` on a fresh store. -/
theorem destruct_assign_same_slot_witness :
    (Reachable (fun _ => True) int_store ∧ int_t.is_empty = false ∧
      int_store.is_constructed int_t = true ∧ [9, 0, 0, 0].length = int_t.size) ∧
    ∃ c1 called c2 r, int_store.destruct [int_t] = .ok (c1, called) ∧
      c1.contains [int_t] = false ∧ c1.assign [(int_t, [9, 0, 0, 0])] = .ok (c2, [r]) ∧
      c2.contains [int_t] = true ∧ c2.get [int_t] = .ok [[9, 0, 0, 0]] ∧
      c2.offset_of [int_t] = int_store.offset_of [int_t] ∧
      int_store.offset_of [int_t] = .ok [r] ∧
      c2.offsets = int_store.offsets ∧ c2.data.size = int_store.data.size :=
  ⟨⟨int_store_reachable, rfl, by decide, rfl⟩,
    destruct_assign_same_slot int_store int_store_reachable int_t [9, 0, 0, 0] rfl
      (by decide) rfl⟩

/-! ## `insert` of an empty type (C23) -/

theorem map_emplace_of_count {V : Type} (m : List (Nat × V)) (k : Nat) (v : V)
    (h : map_count m k = true) : map_emplace m k v = m := by
  simp [map_emplace, h]

/-- `record_type` and `record_dtor` on a type that is in both tables. -/
theorem record_present (c : HeterogeneousArray) (T : TypeInfo) (n : Nat)
    (ha : c.is_allocated T = true) (hc : c.is_constructed T = true) :
    (c.record_type T.id n).record_dtor T T.id = c ∧ c.record_type T.id n = c ∧
      c.record_dtor T T.id = c := by
  have h1 : c.record_type T.id n = c := by
    unfold HeterogeneousArray.record_type
    rw [map_emplace_of_count _ _ _ ha]
  have h2 : c.record_dtor T T.id = c := by
    unfold HeterogeneousArray.record_dtor
    split <;> rw [map_emplace_of_count _ _ _ hc]
  exact ⟨by rw [h1, h2], h1, h2⟩

theorem foldl_record_present (Ts : List TypeInfo) (c : HeterogeneousArray)
    (h : ∀ T ∈ Ts, c.is_allocated T = true ∧ c.is_constructed T = true) :
    Ts.foldl (fun c T => c.record_type T.id 0) c = c ∧
      Ts.foldl (fun c T => c.record_dtor T T.id) c = c := by
  induction Ts with
  | nil => exact ⟨rfl, rfl⟩
  | cons T Ts ih =>
    obtain ⟨ha, hc⟩ := h T (List.mem_cons_self _ _)
    obtain ⟨-, h1, h2⟩ := record_present c T 0 ha hc
    simp only [List.foldl_cons, h1, h2]
    exact ih (fun U hU => h U (List.mem_cons_of_mem _ hU))

/-- C23. For every empty type `D`: in a reachable store in which `D` is present,
`insert(D{})` returns nothing and leaves the store as it is, with its offset directory,
its destructor registry and its arena, and `contains<D>()` stays true; so does an
`insert` of several empty types that are all present. In every store the first
`insert(D{})` leaves the arena as it is, adds at most one entry to the directory, makes
`contains<D>()` true, and a second `insert(D{})` leaves the store as it is. -/
theorem insert_empty_idempotent {W : TypeInfo → Prop} (base : Nat) (c : HeterogeneousArray)
    (D : TypeInfo) (v : Val) (he : D.is_empty = true) :
    (Reachable W c → c.contains [D] = true → c.insert base [(D, v)] = .ok (c, [])) ∧
    (Reachable W c → ∀ args : List (TypeInfo × Val), args.length ≠ 1 →
      (∀ a ∈ args, a.1.is_empty = true ∧ c.contains [a.1] = true) →
      c.insert base args = .ok (c, [])) ∧
    ∃ c1, c.insert base [(D, v)] = .ok (c1, []) ∧ c1.data = c.data ∧
      c1.offsets.length ≤ c.offsets.length + 1 ∧ c1.contains [D] = true ∧
      c1.insert base [(D, v)] = .ok (c1, []) := by
  refine ⟨?_, ?_, ?_⟩
  · intro hr hc
    rw [contains_single] at hc
    have ha := hr.registered_allocated D.id hc
    simp only [HeterogeneousArray.insert, HeterogeneousArray.insert_1, he, if_true]
    rw [(record_present c D 0 ha hc).1]
  · intro hr args hlen hall
    have hpres : ∀ T ∈ args.map (fun a => a.1),
        c.is_allocated T = true ∧ c.is_constructed T = true := by
      intro T hT
      obtain ⟨a, ha, rfl⟩ := List.mem_map.1 hT
      have hc := (hall a ha).2
      rw [contains_single] at hc
      exact ⟨hr.registered_allocated a.1.id hc, hc⟩
    have hempty : (args.map (fun a => a.1)).all (fun T => T.is_empty) = true := by
      simp only [List.all_eq_true]
      intro T hT
      obtain ⟨a, ha, rfl⟩ := List.mem_map.1 hT
      exact (hall a ha).1
    obtain ⟨h1, h2⟩ := foldl_record_present _ c hpres
    have hn : c.insert base args = c.insert_n base args := by
      rcases args with _ | ⟨⟨T, w⟩, _ | ⟨b, rest⟩⟩
      · rfl
      · exact absurd rfl hlen
      · rfl
    rw [hn]
    simp only [HeterogeneousArray.insert_n, hempty, Bool.true_or, Bool.not_true,
      Bool.false_eq_true, if_false, if_true, h1, h2]
  · have h1 : c.insert base [(D, v)] =
        .ok ((c.record_type D.id 0).record_dtor D D.id, []) := by
      simp only [HeterogeneousArray.insert, HeterogeneousArray.insert_1, he, if_true]
    have ha : ((c.record_type D.id 0).record_dtor D D.id).is_allocated D = true := by
      simp only [HeterogeneousArray.record_dtor, he, if_true,
        HeterogeneousArray.record_type, HeterogeneousArray.is_allocated]
      exact map_count_emplace_self _ _ _
    have hc : ((c.record_type D.id 0).record_dtor D D.id).is_constructed D = true := by
      simp only [HeterogeneousArray.record_dtor, he, if_true,
        HeterogeneousArray.record_type, HeterogeneousArray.is_constructed]
      exact map_count_emplace_self _ _ _
    refine ⟨_, h1, ?_, ?_, ?_, ?_⟩
    · simp only [HeterogeneousArray.record_dtor, he, if_true, HeterogeneousArray.record_type]
    · simp only [HeterogeneousArray.record_dtor, he, if_true, HeterogeneousArray.record_type,
        map_emplace]
      split
      · exact Nat.le_succ _
      · simp
    · rw [contains_single]; exact hc
    · simp only [HeterogeneousArray.insert, HeterogeneousArray.insert_1, he, if_true]
      rw [(record_present _ D 0 ha hc).1]

/-- C23 at `insert(D{})` on the store that holds an `int`, for the empty `struct D` of
the test `empty_type`. -/
theorem insert_empty_idempotent_witness :
    D_t.is_empty = true ∧
    ((Reachable (fun _ => True) int_store → int_store.contains [D_t] = true →
      int_store.insert 0 [(D_t, [])] = .ok (int_store, [])) ∧
    (Reachable (fun _ => True) int_store → ∀ args : List (TypeInfo × Val), args.length ≠ 1 →
      (∀ a ∈ args, a.1.is_empty = true ∧ int_store.contains [a.1] = true) →
      int_store.insert 0 args = .ok (int_store, [])) ∧
    ∃ c1, int_store.insert 0 [(D_t, [])] = .ok (c1, []) ∧ c1.data = int_store.data ∧
      c1.offsets.length ≤ int_store.offsets.length + 1 ∧ c1.contains [D_t] = true ∧
      c1.insert 0 [(D_t, [])] = .ok (c1, [])) :=
  ⟨rfl, insert_empty_idempotent 0 int_store D_t [] rfl⟩

/-! ## The arena invariant (C30) -/

theorem map_find_emplace_cases {V : Type} (m : List (Nat × V)) (k j : Nat) (v x : V)
    (h : map_find k (map_emplace m j v) = some x) :
    map_find k m = some x ∨ (j = k ∧ v = x ∧ map_count m k = false) := by
  unfold map_emplace at h
  split at h
  · exact Or.inl h
  · rename_i hc
    by_cases hjk : j = k
    · subst hjk
      simp only [map_find, if_true, Option.some.injEq] at h
      exact Or.inr ⟨rfl, h, by simpa using hc⟩
    · simp only [map_find, hjk, if_false] at h
      exact Or.inl h

/-- An entry of the directory after the fold of `emplace` of `reserve` is an entry of
the directory before it, or the offset returned for one of the types. -/
theorem emplace_offsets_find_cases (Ts : List TypeInfo) :
    ∀ (m : List (Nat × Nat)) (offs : List Nat) (k off : Nat),
      map_find k (HeterogeneousArray.emplace_offsets m Ts offs) = some off →
      map_find k m = some off ∨
        ∃ i, ∃ h : i < Ts.length, Ts[i].id = k ∧ offs.getD i 0 = off := by
  induction Ts with
  | nil =>
    intro m offs k off h
    exact Or.inl (by simpa [HeterogeneousArray.emplace_offsets] using h)
  | cons T Ts ih =>
    intro m offs k off h
    cases offs with
    | nil => exact Or.inl (by simpa [HeterogeneousArray.emplace_offsets] using h)
    | cons o offs =>
      simp only [HeterogeneousArray.emplace_offsets] at h
      rcases ih _ _ _ _ h with h1 | ⟨i, hi, hid, hoff⟩
      · rcases map_find_emplace_cases m k T.id o off h1 with h2 | ⟨h2, h3, -⟩
        · exact Or.inl h2
        · exact Or.inr ⟨0, by simp, by simpa using h2, by simpa using h3⟩
      · exact Or.inr ⟨i + 1, by simpa using hi, by simpa using hid, by simpa using hoff⟩

/-- The layout of a `reserve<Ts...>()` that returns on an arena that stays within
`2 ^ 32` bytes: the arena grows by at most the sizes and alignments of the types, every
offset returned is at or after the old end, every type lies inside the new arena, and two
types at different positions of the batch do not overlap. -/
theorem reserve_layout {base : Nat} {c c1 : HeterogeneousArray} {Ts : List TypeInfo}
    {r : List Nat} (hal : ∀ T ∈ Ts, valid_align T.align) (hB : fits c Ts)
    (h : c.reserve base Ts = .ok (c1, r)) :
    c.data.size ≤ c1.data.size ∧
      c1.data.size ≤ c.data.size + (Ts.map (fun T => T.size + T.align)).sum ∧
      (∀ i (h : i < Ts.length),
        c.data.size ≤ r.getD i 0 ∧ r.getD i 0 + Ts[i].size ≤ c1.data.size) ∧
      (∀ i j (hi : i < Ts.length) (hj : j < Ts.length), i ≠ j →
        r.getD i 0 + Ts[i].size ≤ r.getD j 0 ∨ r.getD j 0 + Ts[j].size ≤ r.getD i 0) := by
  obtain ⟨hle, hnot, -, -, -⟩ := reserve_ok h
  unfold fits at hB
  by_cases hN : Ts.length = 1
  · obtain ⟨T, rfl⟩ := List.length_eq_one.1 hN
    have h1 := reserve_single_eq base c T (hle T (List.mem_singleton_self T))
      (hnot T (List.mem_singleton_self T))
    rw [h1] at h
    simp only [Except.ok.injEq, Prod.mk.injEq] at h
    obtain ⟨hc1, hr⟩ := h
    subst hc1
    subst hr
    have hpad := padding_of_lt (hal T (List.mem_singleton_self T))
      (to_size_t (base + c.data.size))
    simp only [List.map_cons, List.map_nil, List.sum_cons, List.sum_nil, Nat.add_zero] at hB
    simp only [HeterogeneousArray.do_allocate_1, Arena.resize, to_size_t, to_offset_t,
      List.length_singleton] at hpad ⊢
    generalize padding_of ((base + c.data.size) % 2 ^ 64) T.align = pad at hpad ⊢
    refine ⟨by omega, ?_, ?_, ?_⟩
    · simp only [List.map_cons, List.map_nil, List.sum_cons, List.sum_nil]
      omega
    · intro i hi
      have hi0 : i = 0 := by omega
      subst hi0
      simp only [List.getD_cons_zero, List.getElem_cons_zero]
      omega
    · intro i j hi hj hij
      omega
  · have h1 := reserve_batch_eq base c Ts hN hle hnot
    rw [h1] at h
    simp only [Except.ok.injEq, Prod.mk.injEq] at h
    obtain ⟨hc1, hr⟩ := h
    subst hc1
    subst hr
    obtain ⟨-, -, hsum, hin, hdis, -⟩ :=
      do_allocate_n_final_packed base c.data.size Ts hal hB
    have hfin := do_allocate_n_final_indices base c.data.size Ts
    rw [hfin] at hsum hin hdis
    simp only [List.length_map, List.map_nil, List.sum_nil, Nat.add_zero,
      List.not_mem_nil, not_false_eq_true, true_implies] at hsum hin hdis
    have hsize : (c.do_allocate_n base Ts).1.data.size =
        c.data.size + (do_allocate_n_final base c.data.size Ts).to_allocate := by
      simp only [HeterogeneousArray.do_allocate_n, Arena.resize, to_size_t]
      omega
    have hout : (c.do_allocate_n base Ts).2 =
        (do_allocate_n_final base c.data.size Ts).output := rfl
    simp only [hsize, hout]
    refine ⟨by omega, by omega, ?_, ?_⟩
    · intro i h
      have := hin i h
      rw [getD_map_size Ts i h] at this
      exact this
    · intro i j hi hj hij
      have := hdis i j hi hj hij
      rw [getD_map_size Ts i hi, getD_map_size Ts j hj] at this
      exact this

/-- `reserve<Ts...>()` keeps the arena invariant on an arena that stays within
`2 ^ 32` bytes. -/
theorem arena_invariant_reserve {U : TypeInfo → Prop} (hU : program_types U) {base : Nat}
    {c c1 : HeterogeneousArray} {Ts : List TypeInfo} {r : List Nat}
    (hTs : ∀ T ∈ Ts, U T) (hB : fits c Ts) (hinv : arena_invariant U c)
    (h : c.reserve base Ts = .ok (c1, r)) :
    arena_invariant U c1 ∧ c.data.size ≤ c1.data.size ∧
      c1.data.size ≤ c.data.size + (Ts.map (fun T => T.size + T.align)).sum := by
  obtain ⟨hgrow, hbound, hin, hdis⟩ := reserve_layout (fun T hT => hU.1 T (hTs T hT)) hB h
  obtain ⟨-, -, -, ho, -⟩ := reserve_ok h
  have hcase : ∀ T off, U T → map_find T.id c1.offsets = some off →
      map_find T.id c.offsets = some off ∨
        ∃ i, ∃ h : i < Ts.length, Ts[i] = T ∧ r.getD i 0 = off := by
    intro T off hT hf
    rw [ho] at hf
    rcases emplace_offsets_find_cases Ts _ _ _ _ hf with h1 | ⟨i, hi, hid, hoff⟩
    · exact Or.inl h1
    · exact Or.inr ⟨i, hi, hU.2 _ _ (hTs _ (List.getElem_mem hi)) hT hid, hoff⟩
  refine ⟨⟨?_, ?_⟩, hgrow, hbound⟩
  · intro T off hT he hf
    rcases hcase T off hT hf with h1 | ⟨i, hi, hTi, hoff⟩
    · have := hinv.1 T off hT he h1
      omega
    · have := (hin i hi).2
      rw [hTi, hoff] at this
      exact this
  · intro T V off off1 hT hV heT heV hne hfT hfV
    rcases hcase T off hT hfT with h1 | ⟨i, hi, hTi, hoff⟩
    · rcases hcase V off1 hV hfV with h2 | ⟨j, hj, hVj, hoff1⟩
      · exact hinv.2 T V off off1 hT hV heT heV hne h1 h2
      · have h3 := hinv.1 T off hT heT h1
        have h4 := (hin j hj).1
        rw [hoff1] at h4
        left; omega
    · rcases hcase V off1 hV hfV with h2 | ⟨j, hj, hVj, hoff1⟩
      · have h3 := hinv.1 V off1 hV heV h2
        have h4 := (hin i hi).1
        rw [hoff] at h4
        right; omega
      · have hij : i ≠ j := by
          intro hij
          subst hij
          exact hne (hTi.symm.trans hVj)
        have := hdis i j hi hj hij
        rw [hTi, hVj, hoff, hoff1] at this
        exact this

/-! ### The steps of each operation -/

theorem arena_steps.append_steps {U : TypeInfo → Prop} {c c1 c2 : HeterogeneousArray}
    {Rs Is Rs2 Is2 : List TypeInfo} (h1 : arena_steps U c Rs Is c1)
    (h2 : arena_steps U c1 Rs2 Is2 c2) : arena_steps U c (Rs ++ Rs2) (Is ++ Is2) c2 := by
  induction h2 with
  | refl => simpa using h1
  | frame _ ho hs ih => exact ih.frame ho hs
  | reserve _ hU hr ih =>
    have := ih.reserve hU hr
    rwa [List.append_assoc] at this
  | record_type _ hU he ho hs ih => exact ih.record_type hU he ho hs
  | index _ hU ha ho hs ih =>
    have := ih.index hU ha ho hs
    rwa [List.append_assoc] at this

/-- Along the steps no entry leaves the directory, and the types `assign_1` has
inserted were not reserved at the start. -/
theorem arena_steps.allocated {U : TypeInfo → Prop} {c c1 : HeterogeneousArray}
    {Rs Is : List TypeInfo} (h : arena_steps U c Rs Is c1) :
    (∀ k, map_count c.offsets k = true → map_count c1.offsets k = true) ∧
      ∀ T ∈ Is, c.is_allocated T = false := by
  induction h with
  | refl => exact ⟨fun k hk => hk, fun T hT => absurd hT (List.not_mem_nil _)⟩
  | frame _ ho hs ih =>
    refine ⟨fun k hk => ?_, ih.2⟩
    rw [ho]; exact ih.1 k hk
  | reserve _ hU hr ih =>
    obtain ⟨-, -, -, ho, -⟩ := reserve_ok hr
    refine ⟨fun k hk => ?_, ih.2⟩
    rw [ho]
    exact map_count_emplace_offsets _ _ _ _ (ih.1 k hk)
  | record_type _ hU he ho hs ih =>
    refine ⟨fun k hk => ?_, ih.2⟩
    rw [ho]
    exact map_count_emplace_of_true _ _ _ _ (ih.1 k hk)
  | @index c1 c2 Rs Is T _ hU ha ho hs ih =>
    refine ⟨fun k hk => ?_, fun V hV => ?_⟩
    · rw [ho]
      have := ih.1 k hk
      by_cases hk2 : T.id = k
      · simp [map_count, map_find, hk2]
      · simpa [map_count, map_find, hk2] using this
    · rcases List.mem_append.1 hV with h1 | h1
      · exact ih.2 V h1
      · rw [List.mem_singleton.1 h1]
        cases hc : c.is_allocated T with
        | false => rfl
        | true =>
          have := ih.1 T.id hc
          simp only [HeterogeneousArray.is_allocated] at ha
          rw [ha] at this
          exact absurd this (by simp)

theorem arena_steps.index_nil {U : TypeInfo → Prop} {c c1 : HeterogeneousArray}
    {Rs Is : List TypeInfo} (h : arena_steps U c Rs Is c1)
    (hall : ∀ T ∈ Is, c.is_allocated T = true) : Is = [] := by
  cases Is with
  | nil => rfl
  | cons T rest =>
    have h1 := h.allocated.2 T (List.mem_cons_self _ _)
    rw [hall T (List.mem_cons_self _ _)] at h1
    exact absurd h1 (by simp)

theorem construct_1_frame {c c1 : HeterogeneousArray} {T : TypeInfo} {off r : Nat} {v : Val}
    (h : c.construct_1 T off v = .ok (c1, r)) :
    c1.offsets = c.offsets ∧ c1.data.size = c.data.size := by
  obtain ⟨-, -, -, heq⟩ := construct_1_ok h
  subst heq
  exact ⟨rfl, rfl⟩

theorem construct_n_frame (args : List (TypeInfo × Val)) :
    ∀ {c c1 : HeterogeneousArray} {offs r : List Nat},
      c.construct_n args offs = .ok (c1, r) →
      c1.offsets = c.offsets ∧ c1.data.size = c.data.size := by
  induction args with
  | nil =>
    intro c c1 offs r h
    simp only [HeterogeneousArray.construct_n, Except.ok.injEq, Prod.mk.injEq] at h
    rw [← h.1]; exact ⟨rfl, rfl⟩
  | cons a rest ih =>
    intro c c1 offs r h
    obtain ⟨T, v⟩ := a
    unfold HeterogeneousArray.construct_n at h
    cases h1 : c.construct_1 T (offs.headD 0) v with
    | error e => rw [h1] at h; simp at h
    | ok p =>
      obtain ⟨c2, r2⟩ := p
      obtain ⟨ho2, hs2⟩ := construct_1_frame h1
      rw [h1] at h
      cases h3 : c2.construct_n rest offs.tail with
      | error e => simp only [h3] at h; simp at h
      | ok q =>
        obtain ⟨c3, r3⟩ := q
        simp only [h3, Except.ok.injEq, Prod.mk.injEq] at h
        obtain ⟨ho3, hs3⟩ := ih h3
        rw [← h.1]
        exact ⟨ho3.trans ho2, hs3.trans hs2⟩

/-- `construct` leaves the offset directory and the arena length as they are. -/
theorem construct_frame {c c1 : HeterogeneousArray} {args : List (TypeInfo × Val)}
    {r : List Nat} (h : c.construct args = .ok (c1, r)) :
    c1.offsets = c.offsets ∧ c1.data.size = c.data.size := by
  unfold HeterogeneousArray.construct at h
  split at h
  · simp at h
  · rcases args with _ | ⟨⟨T, v⟩, _ | ⟨b, rest⟩⟩
    · simp at h
    · simp only at h
      cases h1 : c.offset_of [T] with
      | error e => rw [h1] at h; simp at h
      | ok offs =>
        rw [h1] at h
        cases h2 : c.construct_1 T (offs.headD 0) v with
        | error e => simp only [h2] at h; simp at h
        | ok p =>
          obtain ⟨c2, r2⟩ := p
          simp only [h2, Except.ok.injEq, Prod.mk.injEq] at h
          rw [← h.1]
          exact construct_1_frame h2
    · simp only at h
      split at h
      · simp at h
      · cases h1 : c.offset_of (((T, v) :: b :: rest).map (fun a => a.1)) with
        | error e => rw [h1] at h; simp at h
        | ok offs =>
          rw [h1] at h
          exact construct_n_frame _ h

theorem do_destruct_frame {c c1 : HeterogeneousArray} {T : TypeInfo} {called : List Nat}
    (h : c.do_destruct T = .ok (c1, called)) :
    c1.offsets = c.offsets ∧ c1.data = c.data := by
  obtain ⟨-, heq, -⟩ := do_destruct_ok h
  subst heq
  exact ⟨rfl, rfl⟩

/-- `destruct<Ts...>()` leaves the offset directory and the arena as they are. -/
theorem destruct_offsets_data (Ts : List TypeInfo) :
    ∀ {c c1 : HeterogeneousArray} {called : List Nat}, c.destruct Ts = .ok (c1, called) →
      c1.offsets = c.offsets ∧ c1.data = c.data := by
  induction Ts with
  | nil =>
    intro c c1 called h
    simp only [HeterogeneousArray.destruct, Except.ok.injEq, Prod.mk.injEq] at h
    rw [← h.1]; exact ⟨rfl, rfl⟩
  | cons T Ts ih =>
    intro c c1 called h
    unfold HeterogeneousArray.destruct at h
    cases h1 : c.do_destruct T with
    | error e => rw [h1] at h; simp at h
    | ok p =>
      obtain ⟨c2, called2⟩ := p
      obtain ⟨ho2, hd2⟩ := do_destruct_frame h1
      rw [h1] at h
      cases h3 : c2.destruct Ts with
      | error e => simp only [h3] at h; simp at h
      | ok q =>
        obtain ⟨c3, called3⟩ := q
        simp only [h3, Except.ok.injEq, Prod.mk.injEq] at h
        obtain ⟨ho3, hd3⟩ := ih h3
        rw [← h.1]
        exact ⟨ho3.trans ho2, hd3.trans hd2⟩

theorem record_dtor_frame (c : HeterogeneousArray) (T : TypeInfo) (k : Nat) :
    (c.record_dtor T k).offsets = c.offsets ∧ (c.record_dtor T k).data = c.data := by
  unfold HeterogeneousArray.record_dtor
  split <;> exact ⟨rfl, rfl⟩

theorem foldl_record_dtor_frame (Ts : List TypeInfo) :
    ∀ (c : HeterogeneousArray),
      (Ts.foldl (fun c T => c.record_dtor T T.id) c).offsets = c.offsets ∧
      (Ts.foldl (fun c T => c.record_dtor T T.id) c).data = c.data := by
  induction Ts with
  | nil => intro c; exact ⟨rfl, rfl⟩
  | cons T Ts ih =>
    intro c
    simp only [List.foldl_cons]
    obtain ⟨h1, h2⟩ := ih (c.record_dtor T T.id)
    obtain ⟨h3, h4⟩ := record_dtor_frame c T T.id
    exact ⟨h1.trans h3, h2.trans h4⟩

theorem arena_steps_foldl_record_type {U : TypeInfo → Prop} {c : HeterogeneousArray}
    {Rs Is : List TypeInfo} (Ts : List TypeInfo) :
    ∀ (c1 : HeterogeneousArray), arena_steps U c Rs Is c1 →
      (∀ T ∈ Ts, U T ∧ T.is_empty = true) →
      arena_steps U c Rs Is (Ts.foldl (fun c T => c.record_type T.id 0) c1) := by
  induction Ts with
  | nil => intro c1 h _; exact h
  | cons T Ts ih =>
    intro c1 h hall
    simp only [List.foldl_cons]
    obtain ⟨hT, he⟩ := hall T (List.mem_cons_self _ _)
    have s1 : arena_steps U c Rs Is (c1.record_type T.id 0) :=
      arena_steps.record_type h hT he rfl rfl
    exact ih _ s1 (fun V hV => hall V (List.mem_cons_of_mem _ hV))

theorem arena_steps_insert_1 {U : TypeInfo → Prop} {base : Nat} {c c1 : HeterogeneousArray}
    {T : TypeInfo} {v : Val} {r : List Nat} (hT : U T)
    (h : c.insert_1 base T v = .ok (c1, r)) :
    ∃ Rs, Rs.Sublist [T] ∧ arena_steps U c Rs [] c1 := by
  unfold HeterogeneousArray.insert_1 at h
  split at h
  · rename_i he
    simp only [Except.ok.injEq, Prod.mk.injEq] at h
    refine ⟨[], List.nil_sublist _, ?_⟩
    rw [← h.1]
    obtain ⟨h1, h2⟩ := record_dtor_frame (c.record_type T.id 0) T T.id
    have s1 : arena_steps U c [] [] (c.record_type T.id 0) :=
      arena_steps.record_type arena_steps.refl hT he rfl rfl
    exact s1.frame h1 (by rw [h2])
  · split at h
    · simp at h
    · split at h
      · simp at h
      · cases h1 : c.reserve base [T] with
        | error e => rw [h1] at h; simp at h
        | ok p =>
          obtain ⟨c2, n⟩ := p
          rw [h1] at h
          cases h2 : c2.construct_1 T (n.headD 0) v with
          | error e => simp only [h2] at h; simp at h
          | ok q =>
            obtain ⟨c3, r3⟩ := q
            simp only [h2, Except.ok.injEq, Prod.mk.injEq] at h
            rw [← h.1]
            obtain ⟨ho, hs⟩ := construct_1_frame h2
            have s1 : arena_steps U c [T] [] c2 :=
              arena_steps.refl.reserve (by simpa using hT) h1
            exact ⟨[T], List.Sublist.refl _, s1.frame ho hs⟩

theorem arena_steps_insert_n {U : TypeInfo → Prop} {base : Nat} {c c1 : HeterogeneousArray}
    {args : List (TypeInfo × Val)} {r : List Nat} (hU : ∀ a ∈ args, U a.1)
    (h : c.insert_n base args = .ok (c1, r)) :
    ∃ Rs, Rs.Sublist (args.map (fun a => a.1)) ∧ arena_steps U c Rs [] c1 := by
  have hU2 : ∀ T ∈ args.map (fun a => a.1), U T := by
    intro T hT
    obtain ⟨a, ha, rfl⟩ := List.mem_map.1 hT
    exact hU a ha
  unfold HeterogeneousArray.insert_n at h
  simp only at h
  split at h
  · simp at h
  · split at h
    · rename_i hall
      simp only [Except.ok.injEq, Prod.mk.injEq] at h
      rw [← h.1]
      simp only [List.all_eq_true] at hall
      obtain ⟨d1, d2⟩ := foldl_record_dtor_frame (args.map (fun a => a.1))
        ((args.map (fun a => a.1)).foldl (fun c T => c.record_type T.id 0) c)
      refine ⟨[], List.nil_sublist _, ?_⟩
      exact (arena_steps_foldl_record_type _ c arena_steps.refl
        (fun T hT => ⟨hU2 T hT, hall T hT⟩)).frame d1 (by rw [d2])
    · split at h
      · simp at h
      · split at h
        · simp at h
        · cases h1 : c.reserve base (args.map (fun a => a.1)) with
          | error e => rw [h1] at h; simp at h
          | ok p =>
            obtain ⟨c2, offs⟩ := p
            rw [h1] at h
            simp only at h
            obtain ⟨ho, hs⟩ := construct_n_frame args h
            have s1 : arena_steps U c (args.map (fun a => a.1)) [] c2 :=
              arena_steps.refl.reserve hU2 h1
            exact ⟨_, List.Sublist.refl _, s1.frame ho hs⟩

/-- The steps of `insert`: a reservation of the types given, or of none of them. -/
theorem arena_steps_insert {U : TypeInfo → Prop} {base : Nat} {c c1 : HeterogeneousArray}
    {args : List (TypeInfo × Val)} {r : List Nat} (hU : ∀ a ∈ args, U a.1)
    (h : c.insert base args = .ok (c1, r)) :
    ∃ Rs, Rs.Sublist (args.map (fun a => a.1)) ∧ arena_steps U c Rs [] c1 := by
  rcases args with _ | ⟨⟨T, v⟩, _ | ⟨b, rest⟩⟩
  · exact @arena_steps_insert_n U base c c1 [] r hU h
  · exact @arena_steps_insert_1 U base c c1 T v r (hU (T, v) (List.mem_singleton_self _)) h
  · exact @arena_steps_insert_n U base c c1 ((T, v) :: b :: rest) r hU h

theorem assign_1_frame {c c1 : HeterogeneousArray} {T : TypeInfo} {v : Val} {r : Nat}
    (h : c.assign_1 T v = .ok (c1, r)) :
    c1.offsets = (map_index c.offsets T.id).1 ∧ c1.data.size = c.data.size := by
  unfold HeterogeneousArray.assign_1 at h
  split at h
  · simp at h
  · split at h
    · exact construct_1_frame h
    · simp only [HeterogeneousArray.do_assign, Except.ok.injEq, Prod.mk.injEq] at h
      rw [← h.1]
      exact ⟨rfl, rfl⟩

theorem arena_steps_assign_1 {U : TypeInfo → Prop} {c c1 : HeterogeneousArray}
    {T : TypeInfo} {v : Val} {r : Nat} (hT : U T) (h : c.assign_1 T v = .ok (c1, r)) :
    ∃ Is, Is.Sublist [T] ∧ arena_steps U c [] Is c1 := by
  obtain ⟨ho, hs⟩ := assign_1_frame h
  cases hf : map_find T.id c.offsets with
  | some off =>
    have hidx : (map_index c.offsets T.id).1 = c.offsets := by simp [map_index, hf]
    exact ⟨[], List.nil_sublist _, arena_steps.refl.frame (ho.trans hidx) hs⟩
  | none =>
    have hidx : (map_index c.offsets T.id).1 = (T.id, 0) :: c.offsets := by
      simp [map_index, hf]
    have ha : c.is_allocated T = false := by
      simp [HeterogeneousArray.is_allocated, map_count, hf]
    have s1 : arena_steps U c [] [T] c1 :=
      arena_steps.index arena_steps.refl hT ha (ho.trans hidx) hs
    exact ⟨[T], List.Sublist.refl _, s1⟩

theorem arena_steps_assign_n {U : TypeInfo → Prop} (args : List (TypeInfo × Val)) :
    ∀ {c c1 : HeterogeneousArray} {r : List Nat}, (∀ a ∈ args, U a.1) →
      c.assign_n args = .ok (c1, r) →
      ∃ Is, Is.Sublist (args.map (fun a => a.1)) ∧ arena_steps U c [] Is c1 := by
  induction args with
  | nil =>
    intro c c1 r _ h
    simp only [HeterogeneousArray.assign_n, Except.ok.injEq, Prod.mk.injEq] at h
    rw [← h.1]
    exact ⟨[], List.nil_sublist _, arena_steps.refl⟩
  | cons a rest ih =>
    intro c c1 r hU h
    obtain ⟨T, v⟩ := a
    unfold HeterogeneousArray.assign_n at h
    cases h1 : c.assign_1 T v with
    | error e => rw [h1] at h; simp at h
    | ok p =>
      obtain ⟨c2, r2⟩ := p
      rw [h1] at h
      cases h3 : c2.assign_n rest with
      | error e => simp only [h3] at h; simp at h
      | ok q =>
        obtain ⟨c3, r3⟩ := q
        simp only [h3, Except.ok.injEq, Prod.mk.injEq] at h
        obtain ⟨Is1, hsub1, s1⟩ := arena_steps_assign_1 (hU (T, v) (List.mem_cons_self _ _)) h1
        obtain ⟨Is2, hsub2, s2⟩ := ih (fun a ha => hU a (List.mem_cons_of_mem _ ha)) h3
        rw [← h.1]
        exact ⟨Is1 ++ Is2, hsub1.append hsub2, s1.append_steps s2⟩

/-- The steps of `assign`: no reservation; a type that is not reserved gets the
offset 0. -/
theorem arena_steps_assign {U : TypeInfo → Prop} {c c1 : HeterogeneousArray}
    {args : List (TypeInfo × Val)} {r : List Nat} (hU : ∀ a ∈ args, U a.1)
    (h : c.assign args = .ok (c1, r)) :
    ∃ Is, Is.Sublist (args.map (fun a => a.1)) ∧ arena_steps U c [] Is c1 := by
  rcases args with _ | ⟨⟨T, v⟩, _ | ⟨b, rest⟩⟩
  · simp [HeterogeneousArray.assign] at h
  · simp only [HeterogeneousArray.assign] at h
    cases h1 : c.assign_1 T v with
    | error e => rw [h1] at h; simp at h
    | ok p =>
      obtain ⟨c2, r2⟩ := p
      simp only [h1, Except.ok.injEq, Prod.mk.injEq] at h
      rw [← h.1]
      exact arena_steps_assign_1 (hU (T, v) (List.mem_singleton_self _)) h1
  · simp only [HeterogeneousArray.assign] at h
    split at h
    · simp at h
    · exact arena_steps_assign_n _ hU h

theorem arena_steps_insert_or_assign_1 {U : TypeInfo → Prop} {base : Nat}
    {c c1 : HeterogeneousArray} {T : TypeInfo} {v : Val} {r : List Nat} (hT : U T)
    (h : c.insert_or_assign_1 base T v = .ok (c1, r)) :
    ∃ Rs, Rs.Sublist [T] ∧ arena_steps U c Rs [] c1 := by
  have hU : ∀ a ∈ [(T, v)], U a.1 := by
    intro a ha
    rw [List.mem_singleton.1 ha]; exact hT
  unfold HeterogeneousArray.insert_or_assign_1 at h
  split at h
  · simp at h
  · split at h
    · exact arena_steps_insert hU h
    · rename_i ha
      have ha2 : c.is_allocated T = true := by simpa using ha
      obtain ⟨Is, hsub, s⟩ := arena_steps_assign hU h
      have hnil : Is = [] := s.index_nil (fun V hV => by
        have := hsub.subset hV
        rw [List.map_singleton, List.mem_singleton] at this
        rw [this]; exact ha2)
      subst hnil
      exact ⟨[], List.nil_sublist _, s⟩

/-- The steps of `insert_or_assign`: reservations of some of the types given. -/
theorem arena_steps_insert_or_assign {U : TypeInfo → Prop} {base : Nat}
    (args : List (TypeInfo × Val)) :
    ∀ {c c1 : HeterogeneousArray} {r : List Nat}, (∀ a ∈ args, U a.1) →
      c.insert_or_assign base args = .ok (c1, r) →
      ∃ Rs, Rs.Sublist (args.map (fun a => a.1)) ∧ arena_steps U c Rs [] c1 := by
  induction args with
  | nil =>
    intro c c1 r _ h
    simp only [HeterogeneousArray.insert_or_assign, Except.ok.injEq, Prod.mk.injEq] at h
    rw [← h.1]
    exact ⟨[], List.nil_sublist _, arena_steps.refl⟩
  | cons a rest ih =>
    intro c c1 r hU h
    obtain ⟨T, v⟩ := a
    unfold HeterogeneousArray.insert_or_assign at h
    cases h1 : c.insert_or_assign_1 base T v with
    | error e => rw [h1] at h; simp at h
    | ok p =>
      obtain ⟨c2, r2⟩ := p
      rw [h1] at h
      cases h3 : c2.insert_or_assign base rest with
      | error e => simp only [h3] at h; simp at h
      | ok q =>
        obtain ⟨c3, r3⟩ := q
        simp only [h3, Except.ok.injEq, Prod.mk.injEq] at h
        obtain ⟨Rs1, hsub1, s1⟩ :=
          arena_steps_insert_or_assign_1 (hU (T, v) (List.mem_cons_self _ _)) h1
        obtain ⟨Rs2, hsub2, s2⟩ := ih (fun a ha => hU a (List.mem_cons_of_mem _ ha)) h3
        rw [← h.1]
        exact ⟨Rs1 ++ Rs2, hsub1.append hsub2, s1.append_steps s2⟩

/-! ### The invariant along the steps -/

theorem fits_of_sublist {c : HeterogeneousArray} {Rs Ts : List TypeInfo}
    (hsub : Rs.Sublist Ts) (h : fits c Ts) : fits c Rs := by
  unfold fits at h ⊢
  have := (hsub.map (fun T => T.size + T.align)).sum_le_sum (fun a _ => Nat.zero_le a)
  omega

/-- The arena invariant holds along steps that reserve within `2 ^ 32` bytes and in
which `assign_1` has inserted no type. -/
theorem arena_invariant_steps {U : TypeInfo → Prop} (hU : program_types U)
    {c c1 : HeterogeneousArray} {Rs Is : List TypeInfo} (h : arena_steps U c Rs Is c1) :
    Is = [] → fits c Rs → arena_invariant U c →
      arena_invariant U c1 ∧ c.data.size ≤ c1.data.size ∧
        c1.data.size ≤ c.data.size + (Rs.map (fun T => T.size + T.align)).sum := by
  induction h with
  | refl => intro _ _ hinv; exact ⟨hinv, le_refl _, by simp⟩
  | frame _ ho hs ih =>
    intro hIs hfit hinv
    obtain ⟨h1, h2, h3⟩ := ih hIs hfit hinv
    refine ⟨⟨?_, ?_⟩, by omega, by omega⟩
    · intro T off hT he hf
      rw [ho] at hf
      rw [hs]
      exact h1.1 T off hT he hf
    · intro T V off off1 hT hV heT heV hne hfT hfV
      rw [ho] at hfT hfV
      exact h1.2 T V off off1 hT hV heT heV hne hfT hfV
  | @reserve c1 c2 Rs Is base Ts r _ hTs hr ih =>
    intro hIs hfit hinv
    have hfit1 : fits c Rs := fits_of_sublist (List.sublist_append_left Rs Ts) hfit
    obtain ⟨h1, h2, h3⟩ := ih hIs hfit1 hinv
    have hfit2 : fits c1 Ts := by
      unfold fits at hfit ⊢
      simp only [List.map_append, List.sum_append] at hfit
      omega
    obtain ⟨h4, h5, h6⟩ := arena_invariant_reserve hU hTs hfit2 h1 hr
    refine ⟨h4, by omega, ?_⟩
    simp only [List.map_append, List.sum_append]
    omega
  | @record_type c1 c2 Rs Is D _ hD he ho hs ih =>
    intro hIs hfit hinv
    obtain ⟨h1, h2, h3⟩ := ih hIs hfit hinv
    have hcase : ∀ T off, U T → T.is_empty = false → map_find T.id c2.offsets = some off →
        map_find T.id c1.offsets = some off := by
      intro T off hT heT hf
      rw [ho] at hf
      rcases map_find_emplace_cases _ _ _ _ _ hf with h4 | ⟨h4, -, -⟩
      · exact h4
      · have := hU.2 D T hD hT h4
        rw [this] at he
        rw [he] at heT
        exact absurd heT (by simp)
    refine ⟨⟨?_, ?_⟩, by omega, by omega⟩
    · intro T off hT heT hf
      rw [hs]
      exact h1.1 T off hT heT (hcase T off hT heT hf)
    · intro T V off off1 hT hV heT heV hne hfT hfV
      exact h1.2 T V off off1 hT hV heT heV hne (hcase T off hT heT hfT)
        (hcase V off1 hV heV hfV)
  | index _ hT ha ho hs ih =>
    intro hIs
    simp at hIs

/-! ### The invariant in the reachable stores -/

theorem ReachableBounded.reachable {U : TypeInfo → Prop} {c : HeterogeneousArray}
    (h : ReachableBounded U c) : Reachable U c := by
  induction h with
  | empty => exact Reachable.empty
  | reserve _ hb hT _ heq ih => exact Reachable.reserve ih hb hT heq
  | construct _ hw heq ih => exact Reachable.construct ih hw heq
  | insert _ hb hw _ heq ih => exact Reachable.insert ih hb hw heq
  | assign _ hw _ heq ih => exact Reachable.assign ih hw heq
  | insert_or_assign _ hb hw _ heq ih => exact Reachable.insert_or_assign ih hb hw heq
  | destruct _ hT heq ih => exact Reachable.destruct ih hT heq
  | clear _ heq ih => exact Reachable.clear ih heq

theorem clear_ok {c c1 : HeterogeneousArray} {called : List Nat}
    (h : c.clear = .ok (c1, called)) :
    c1.offsets = [] ∧ c1.destructors = [] ∧ c1.data.size = 0 := by
  unfold HeterogeneousArray.clear at h
  cases h1 : c.invoke_all c.destructors with
  | error e => rw [h1] at h; simp at h
  | ok l =>
    simp only [h1, Except.ok.injEq, Prod.mk.injEq] at h
    rw [← h.1]
    exact ⟨rfl, rfl, rfl⟩

theorem arena_invariant_of_nil {U : TypeInfo → Prop} {c : HeterogeneousArray}
    (h : c.offsets = []) : arena_invariant U c := by
  refine ⟨?_, ?_⟩
  · intro T off _ _ hf
    rw [h] at hf
    simp [map_find] at hf
  · intro T V off off1 _ _ _ _ _ hf
    rw [h] at hf
    simp [map_find] at hf

theorem fits_nil {c : HeterogeneousArray} (h : c.data.size ≤ 2 ^ 32) : fits c [] := by
  unfold fits
  simpa using h

/-- In the stores reached within `2 ^ 32` bytes the arena invariant holds, and the
arena has at most `2 ^ 32` bytes. -/
theorem ReachableBounded.invariant {U : TypeInfo → Prop} (hU : program_types U)
    {c : HeterogeneousArray} (h : ReachableBounded U c) :
    arena_invariant U c ∧ c.data.size ≤ 2 ^ 32 := by
  induction h with
  | empty => exact ⟨arena_invariant_of_nil rfl, by simp [HeterogeneousArray.empty]⟩
  | reserve _ _ hT hfit heq ih =>
    obtain ⟨h1, -, h3⟩ := arena_invariant_reserve hU hT hfit ih.1 heq
    unfold fits at hfit
    exact ⟨h1, by omega⟩
  | construct _ _ heq ih =>
    obtain ⟨ho, hs⟩ := construct_frame heq
    obtain ⟨h1, -, h3⟩ := arena_invariant_steps hU (arena_steps.refl.frame ho hs) rfl
      (fits_nil ih.2) ih.1
    exact ⟨h1, by rw [hs]; exact ih.2⟩
  | insert hr _ hw hfit heq ih =>
    obtain ⟨Rs, hsub, s⟩ := arena_steps_insert (fun a ha => (hw a ha).1) heq
    have hfit2 := fits_of_sublist hsub hfit
    obtain ⟨h1, -, h3⟩ := arena_invariant_steps hU s rfl hfit2 ih.1
    unfold fits at hfit2
    exact ⟨h1, by omega⟩
  | assign hr hw hall heq ih =>
    obtain ⟨Is, hsub, s⟩ := arena_steps_assign (fun a ha => (hw a ha).1) heq
    have hnil : Is = [] := s.index_nil (fun V hV => by
      obtain ⟨a, ha, rfl⟩ := List.mem_map.1 (hsub.subset hV)
      exact hall a ha)
    obtain ⟨h1, -, h3⟩ := arena_invariant_steps hU s hnil (fits_nil ih.2) ih.1
    have := ih.2
    simp only [List.map_nil, List.sum_nil, Nat.add_zero] at h3
    exact ⟨h1, by omega⟩
  | insert_or_assign hr _ hw hfit heq ih =>
    obtain ⟨Rs, hsub, s⟩ := arena_steps_insert_or_assign _ (fun a ha => (hw a ha).1) heq
    have hfit2 := fits_of_sublist hsub hfit
    obtain ⟨h1, -, h3⟩ := arena_invariant_steps hU s rfl hfit2 ih.1
    unfold fits at hfit2
    exact ⟨h1, by omega⟩
  | destruct _ _ heq ih =>
    obtain ⟨ho, hd⟩ := destruct_offsets_data _ heq
    obtain ⟨h1, -, h3⟩ := arena_invariant_steps hU
      (arena_steps.refl.frame ho (by rw [hd])) rfl (fits_nil ih.2) ih.1
    exact ⟨h1, by rw [hd]; exact ih.2⟩
  | clear _ heq _ =>
    exact ⟨arena_invariant_of_nil (clear_ok heq).1, by rw [(clear_ok heq).2.2]; omega⟩

theorem offset_of_single_find {c : HeterogeneousArray} {T : TypeInfo} {off : Nat}
    (h : c.offset_of [T] = .ok [off]) : map_find T.id c.offsets = some off := by
  rw [offset_of_single_eq] at h
  cases hf : map_find T.id c.offsets with
  | none => rw [hf] at h; simp at h
  | some x =>
    rw [hf] at h
    simp only [Except.ok.injEq, List.cons.injEq, and_true] at h
    rw [h]

/-- C30, as amended. For a program whose types have power-of-two alignments of at most
64 and distinct type ids: in every store reached from the empty store by `reserve`,
`construct`, `insert`, `insert_or_assign`, `destruct`, `clear` and by `assign` on
reserved types, in which every `reserve`, `insert` and `insert_or_assign` found the
arena length plus the sizes and alignments of its types at or below `2 ^ 32`, the byte
range `[offset, offset + size)` of every type that is not empty and has an offset lies
within the arena, the byte ranges of two distinct such types do not overlap, and every
constructed type has an offset. -/
theorem arena_ranges_within_disjoint {U : TypeInfo → Prop} (hU : program_types U)
    (c : HeterogeneousArray) (hr : ReachableBounded U c) :
    arena_invariant U c ∧
    (∀ T off, U T → T.is_empty = false → c.offset_of [T] = .ok [off] →
      off + T.size ≤ c.data.size) ∧
    (∀ T V off off1, U T → U V → T.is_empty = false → V.is_empty = false → T ≠ V →
      c.offset_of [T] = .ok [off] → c.offset_of [V] = .ok [off1] →
      off + T.size ≤ off1 ∨ off1 + V.size ≤ off) ∧
    (∀ T : TypeInfo, c.is_constructed T = true → c.is_allocated T = true) := by
  have hinv := (hr.invariant hU).1
  refine ⟨hinv, ?_, ?_, ?_⟩
  · intro T off hT he hf
    exact hinv.1 T off hT he (offset_of_single_find hf)
  · intro T V off off1 hT hV heT heV hne hfT hfV
    exact hinv.2 T V off off1 hT hV heT heV hne (offset_of_single_find hfT)
      (offset_of_single_find hfV)
  · intro T hc
    exact hr.reachable.registered_allocated T.id hc

/-- C30 fails in the store reached by `insert<int>(7)`, `reserve<Big>()` and
`insert<char>('a')`, three operations that return: the arena has `2 ^ 32 + 1` bytes, the
offset of the `char` is truncated to 32 bits, and the `int` and the `char` both lie at
the offset 0. -/
theorem arena_ranges_within_disjoint_counterexample :
    Reachable (fun _ => True) int_big_char_store ∧
      int_big_char_store.data.size = 4294967297 ∧
      int_big_char_store.is_constructed int_t = true ∧
      int_big_char_store.is_constructed char_t = true ∧
      int_big_char_store.offset_of [int_t] = .ok [0] ∧
      int_big_char_store.offset_of [char_t] = .ok [0] ∧
      int_t ≠ char_t ∧ int_t.is_empty = false ∧ char_t.is_empty = false ∧
      ¬ (0 + int_t.size ≤ 0 ∨ 0 + char_t.size ≤ 0) := by
  have h1 : Reachable (fun _ => True) int_big_store :=
    @Reachable.reserve (fun _ => True) int_store int_big_store 0 [big_t] [4]
      int_store_reachable rfl (fun _ _ => trivial) rfl
  have h2 : Reachable (fun _ => True) int_big_char_store :=
    @Reachable.insert (fun _ => True) int_big_store int_big_char_store 0
      [(char_t, [97])] [0] h1 rfl
      (by intro a ha; simp at ha; subst ha; exact ⟨trivial, rfl⟩) rfl
  exact ⟨h2, by decide, by decide, by decide, rfl, rfl, by decide, rfl, rfl, by decide⟩

/-- C30, as amended, at the store reached by `insert<int>(7)` and `insert<double>(v)`,
for the program whose types are `int` and `double`. -/
theorem arena_ranges_within_disjoint_witness :
    (program_types (fun T => T = int_t ∨ T = double_t) ∧
      ReachableBounded (fun T => T = int_t ∨ T = double_t) int_double_store) ∧
    (arena_invariant (fun T => T = int_t ∨ T = double_t) int_double_store ∧
    (∀ T off, (T = int_t ∨ T = double_t) → T.is_empty = false →
      int_double_store.offset_of [T] = .ok [off] →
      off + T.size ≤ int_double_store.data.size) ∧
    (∀ T V off off1, (T = int_t ∨ T = double_t) → (V = int_t ∨ V = double_t) →
      T.is_empty = false → V.is_empty = false → T ≠ V →
      int_double_store.offset_of [T] = .ok [off] →
      int_double_store.offset_of [V] = .ok [off1] →
      off + T.size ≤ off1 ∨ off1 + V.size ≤ off) ∧
    (∀ T : TypeInfo, int_double_store.is_constructed T = true →
      int_double_store.is_allocated T = true)) :=
  have hU : program_types (fun T => T = int_t ∨ T = double_t) :=
    ⟨by
      rintro T (rfl | rfl)
      · exact valid_align_pow 2 (by decide)
      · exact valid_align_pow 3 (by decide),
     by
      rintro T V (rfl | rfl) (rfl | rfl) h
      · rfl
      · exact absurd h (by decide)
      · exact absurd h (by decide)
      · rfl⟩
  have h1 : ReachableBounded (fun T => T = int_t ∨ T = double_t) int_store :=
    @ReachableBounded.insert (fun T => T = int_t ∨ T = double_t) HeterogeneousArray.empty
      int_store 0 [(int_t, [7, 0, 0, 0])] [0] ReachableBounded.empty rfl
      (by intro a ha; simp at ha; subst ha; exact ⟨Or.inl rfl, rfl⟩) (by decide) rfl
  have h2 : ReachableBounded (fun T => T = int_t ∨ T = double_t) int_double_store :=
    @ReachableBounded.insert (fun T => T = int_t ∨ T = double_t) int_store
      int_double_store 64 [(double_t, [1, 2, 3, 4, 5, 6, 7, 8])] [8] h1 rfl
      (by intro a ha; simp at ha; subst ha; exact ⟨Or.inr rfl, rfl⟩) (by decide) rfl
  ⟨⟨hU, h2⟩, arena_ranges_within_disjoint hU int_double_store h2⟩

/-! ## Move construction (C28) -/

/-- C28. Moving a reachable store into a new instance leaves the target with the store
the source held: its offset directory, its destructor registry and its arena, so that
`get`, `offset_of` and `contains` on the target are those of the source before the move,
and the destruction of the target calls the stored destructor of every constructed type
once. The source is left as a default-constructed store, with an empty offset directory,
an empty destructor registry and an arena of length 0: its destruction calls no
destructor, `get<T>()` on it ends with `std::out_of_range`, and every later operation on
it is an operation on a fresh store. -/
theorem move_construct_transfers {W : TypeInfo → Prop} (c : HeterogeneousArray)
    (hr : Reachable W c) :
    c.move_construct.1 = c ∧
    c.move_construct.1.offsets = c.offsets ∧
    c.move_construct.1.destructors = c.destructors ∧
    c.move_construct.1.data = c.data ∧
    (∀ Ts, c.move_construct.1.get Ts = c.get Ts) ∧
    (∀ Ts, c.move_construct.1.offset_of Ts = c.offset_of Ts) ∧
    (∀ Ts, c.move_construct.1.contains Ts = c.contains Ts) ∧
    c.move_construct.1.destructor = .ok (c.destructors.map (fun e => e.1)) ∧
    (∀ k, (c.destructors.map (fun e => e.1)).count k =
      if map_count c.destructors k then 1 else 0) ∧
    c.move_construct.2 = HeterogeneousArray.empty ∧
    c.move_construct.2.offsets = [] ∧
    c.move_construct.2.destructors = [] ∧
    c.move_construct.2.data.size = 0 ∧
    c.move_construct.2.destructor = .ok [] ∧
    (∀ T : TypeInfo, c.move_construct.2.contains [T] = false) ∧
    (∀ T : TypeInfo, T.is_empty = false →
      c.move_construct.2.get [T] = .error Fault.out_of_range) ∧
    Reachable W c.move_construct.1 ∧ Reachable W c.move_construct.2 := by
  have hcount : ∀ k, (c.destructors.map (fun e => e.1)).count k =
      if map_count c.destructors k then 1 else 0 := by
    intro k
    by_cases hk : map_count c.destructors k = true
    · rw [hk, if_pos rfl]
      exact List.count_eq_one_of_mem hr.registry_ok.1 ((map_count_iff_mem _ _).1 hk)
    · have hk2 : map_count c.destructors k = false := by simpa using hk
      rw [hk2]
      simp only [Bool.false_eq_true, if_false]
      exact List.count_eq_zero_of_not_mem (fun hm => hk ((map_count_iff_mem _ _).2 hm))
  refine ⟨rfl, rfl, rfl, rfl, fun _ => rfl, fun _ => rfl, fun _ => rfl,
    invoke_all_eq c c.destructors hr.invoke_mem_ok, hcount, rfl, rfl, rfl, rfl, rfl,
    fun _ => rfl, ?_, hr, Reachable.empty⟩
  intro T he
  simp [HeterogeneousArray.move_construct, move_map, move_vector, HeterogeneousArray.get,
    he, HeterogeneousArray.offset_of, map_find]

/-- C28 at the move of the store that holds the `int` 7. -/
theorem move_construct_transfers_witness :
    Reachable (fun _ => True) int_store ∧
    (int_store.move_construct.1 = int_store ∧
    int_store.move_construct.1.offsets = int_store.offsets ∧
    int_store.move_construct.1.destructors = int_store.destructors ∧
    int_store.move_construct.1.data = int_store.data ∧
    (∀ Ts, int_store.move_construct.1.get Ts = int_store.get Ts) ∧
    (∀ Ts, int_store.move_construct.1.offset_of Ts = int_store.offset_of Ts) ∧
    (∀ Ts, int_store.move_construct.1.contains Ts = int_store.contains Ts) ∧
    int_store.move_construct.1.destructor = .ok (int_store.destructors.map (fun e => e.1)) ∧
    (∀ k, (int_store.destructors.map (fun e => e.1)).count k =
      if map_count int_store.destructors k then 1 else 0) ∧
    int_store.move_construct.2 = HeterogeneousArray.empty ∧
    int_store.move_construct.2.offsets = [] ∧
    int_store.move_construct.2.destructors = [] ∧
    int_store.move_construct.2.data.size = 0 ∧
    int_store.move_construct.2.destructor = .ok [] ∧
    (∀ T : TypeInfo, int_store.move_construct.2.contains [T] = false) ∧
    (∀ T : TypeInfo, T.is_empty = false →
      int_store.move_construct.2.get [T] = .error Fault.out_of_range) ∧
    Reachable (fun _ => True) int_store.move_construct.1 ∧
    Reachable (fun _ => True) int_store.move_construct.2) :=
  ⟨int_store_reachable, move_construct_transfers int_store int_store_reachable⟩

/-! ## Type identifiers (C29) -/

theorem init_id_find {tc : TypeCounter} {T k : Nat} (V : Nat)
    (h : map_find T tc.id = some k) : map_find T (tc.init_id V).id = some k := by
  unfold TypeCounter.init_id
  split
  · exact h
  · rename_i hc
    by_cases hVT : V = T
    · subst hVT
      exact absurd (by simp [map_count, h] : map_count tc.id V = true) hc
    · simp only [map_find, hVT, if_false]
      exact h

theorem foldl_init_id_find {T k : Nat} (Ts : List Nat) :
    ∀ (tc : TypeCounter), map_find T tc.id = some k →
      map_find T (Ts.foldl TypeCounter.init_id tc).id = some k := by
  induction Ts with
  | nil => intro tc h; exact h
  | cons V Ts ih =>
    intro tc h
    simp only [List.foldl_cons]
    exact ih _ (init_id_find V h)

theorem init_id_self (tc : TypeCounter) (T : Nat) :
    map_count (tc.init_id T).id T = true := by
  unfold TypeCounter.init_id
  split
  · rename_i hc; exact hc
  · simp [map_count, map_find]

theorem foldl_init_id_mem (Ts : List Nat) :
    ∀ (tc : TypeCounter), ∀ T ∈ Ts,
      map_count (Ts.foldl TypeCounter.init_id tc).id T = true := by
  induction Ts with
  | nil => intro tc T hT; exact absurd hT (List.not_mem_nil _)
  | cons V Ts ih =>
    intro tc T hT
    simp only [List.foldl_cons]
    rcases List.mem_cons.1 hT with h | h
    · subst h
      obtain ⟨k, hk⟩ := map_find_of_count (init_id_self tc T)
      simp [map_count, foldl_init_id_find Ts _ hk]
    · exact ih _ T h

theorem init_id_consistent {tc : TypeCounter} (h : tc.consistent) (T : Nat) :
    (tc.init_id T).consistent := by
  unfold TypeCounter.init_id
  split
  · exact h
  · rename_i hc
    obtain ⟨h1, h2, h3⟩ := h
    refine ⟨?_, ?_, ?_⟩
    · simp only [List.length_cons, to_type_id_t, h1]
      omega
    · simp only [List.map_cons, List.length_cons, List.range_succ, List.reverse_append,
        List.reverse_cons, List.reverse_nil, List.nil_append, List.singleton_append, h2, h1]
    · simp only [List.map_cons, List.nodup_cons]
      refine ⟨fun hm => hc ((map_count_iff_mem _ _).2 hm), h3⟩

theorem run_consistent (Ts : List Nat) : (TypeCounter.run Ts).consistent := by
  unfold TypeCounter.run
  have : ∀ (l : List Nat) (tc : TypeCounter), tc.consistent →
      (l.foldl TypeCounter.init_id tc).consistent := by
    intro l
    induction l with
    | nil => intro tc h; exact h
    | cons V l ih => intro tc h; exact ih _ (init_id_consistent h V)
  exact this Ts _ ⟨rfl, rfl, List.nodup_nil⟩

/-- In a consistent state with at most `2 ^ 32` variables, the values handed out are
below the number of variables and pairwise distinct. -/
theorem consistent_values {tc : TypeCounter} (h : tc.consistent)
    (hn : tc.id.length ≤ 2 ^ 32) :
    (tc.id.map (fun e => e.2)).Nodup ∧ ∀ e ∈ tc.id, e.2 < tc.id.length := by
  obtain ⟨-, h2, -⟩ := h
  have hid : (List.range tc.id.length).reverse.map to_type_id_t =
      (List.range tc.id.length).reverse := by
    conv_rhs => rw [← List.map_id (List.range tc.id.length).reverse]
    apply List.map_congr_left
    intro j hj
    have : j < tc.id.length := by simpa using hj
    simp only [to_type_id_t, id]
    omega
  rw [hid] at h2
  constructor
  · rw [h2]
    exact List.nodup_reverse.2 (List.nodup_range _)
  · intro e he
    have : e.2 ∈ tc.id.map (fun e => e.2) := List.mem_map_of_mem (fun e => e.2) he
    rw [h2] at this
    simpa using this

theorem find_range_table (f : Nat → Nat) :
    ∀ (n k : Nat), map_find k ((List.range n).reverse.map (fun j => (j, f j))) =
      if k < n then some (f k) else none := by
  intro n
  induction n with
  | zero => intro k; simp [map_find]
  | succ n ih =>
    intro k
    simp only [List.range_succ, List.reverse_append, List.reverse_cons, List.reverse_nil,
      List.nil_append, List.singleton_append, List.map_cons, map_find, ih]
    by_cases hk : n = k
    · subst hk; simp
    · by_cases hk2 : k < n
      · simp [hk, hk2, Nat.lt_succ_of_lt hk2]
      · have : ¬ k < n + 1 := by omega
        simp [hk, hk2, this]

/-- The state after the variables of the value types `0, ..., n - 1` are initialised. -/
theorem run_range (n : Nat) :
    TypeCounter.run (List.range n) =
      { i := to_type_id_t n,
        id := (List.range n).reverse.map (fun j => (j, to_type_id_t j)) } := by
  induction n with
  | zero => rfl
  | succ n ih =>
    have hc : map_count ((List.range n).reverse.map (fun j => (j, to_type_id_t j))) n =
        false := by
      unfold map_count
      rw [find_range_table]
      simp
    unfold TypeCounter.run at ih ⊢
    rw [List.range_succ, List.foldl_append, ih]
    simp only [List.foldl_cons, List.foldl_nil, TypeCounter.init_id, hc, Bool.false_eq_true,
      if_false, List.reverse_append, List.reverse_cons, List.reverse_nil, List.nil_append,
      List.singleton_append, List.map_cons, TypeCounter.mk.injEq, and_true]
    simp only [to_type_id_t]
    omega

theorem map_find_of_mem_nodup {V : Type} {m : List (Nat × V)}
    (hnd : (m.map (fun e => e.1)).Nodup) {e : Nat × V} (he : e ∈ m) :
    map_find e.1 m = some e.2 := by
  induction m with
  | nil => exact absurd he (List.not_mem_nil _)
  | cons x rest ih =>
    simp only [List.map_cons, List.nodup_cons] at hnd
    rcases List.mem_cons.1 he with h | h
    · subst h; simp [map_find]
    · have hne : x.1 ≠ e.1 := by
        intro hx
        exact hnd.1 (hx ▸ List.mem_map_of_mem (fun e => e.1) h)
      simp only [map_find, hne, if_false]
      exact ih hnd.2 h

theorem init_id_length (tc : TypeCounter) (T : Nat) :
    tc.id.length ≤ (tc.init_id T).id.length := by
  unfold TypeCounter.init_id
  split
  · exact le_refl _
  · simp

theorem foldl_init_id_length (Ts : List Nat) :
    ∀ (tc : TypeCounter), tc.id.length ≤ (Ts.foldl TypeCounter.init_id tc).id.length := by
  induction Ts with
  | nil => intro tc; exact le_refl _
  | cons V Ts ih =>
    intro tc
    simp only [List.foldl_cons]
    exact le_trans (init_id_length tc V) (ih _)

theorem run_append (Ts Ts1 : List Nat) :
    TypeCounter.run (Ts ++ Ts1) = Ts1.foldl TypeCounter.init_id (TypeCounter.run Ts) := by
  simp only [TypeCounter.run, List.foldl_append]

/-- In a consistent state with at most `2 ^ 32` variables two value types with the same
value are the same. -/
theorem consistent_injective {tc : TypeCounter} (h : tc.consistent)
    (hn : tc.id.length ≤ 2 ^ 32) {a b k : Nat} (ha : map_find a tc.id = some k)
    (hb : map_find b tc.id = some k) : a = b := by
  have hnd := (consistent_values h hn).1
  have := List.inj_on_of_nodup_map hnd (map_find_mem ha) (map_find_mem hb) rfl
  exact congrArg Prod.fst this

/-- C29, as amended. Let the variables `id<T>` of the value types `Ts` be initialised,
and later those of `Ts1`, fewer than `2 ^ 32` value types in all. Then `type_id<T>()`
reads the variable of `rm_cvref_t<T>`, so it does not depend on the `const`, `volatile`
and reference qualifiers of `T`; every type of `Ts` has an identifier, which it keeps
when further types are initialised; two types with the same identifier have the same
value type; the counter is the number of identifiers handed out, it does not decrease,
every identifier handed out is below it, and the identifiers handed out later are at or
above it. -/
theorem type_id_stable_injective (Ts Ts1 : List Nat)
    (hn : (TypeCounter.run (Ts ++ Ts1)).id.length < 2 ^ 32) :
    (∀ T : QualType, type_id (TypeCounter.run Ts) T =
      type_id (TypeCounter.run Ts) (rm_cvref_t T)) ∧
    (∀ T V : QualType, T.name = V.name →
      type_id (TypeCounter.run Ts) T = type_id (TypeCounter.run Ts) V) ∧
    (∀ T : QualType, T.name ∈ Ts → ∃ k, type_id (TypeCounter.run Ts) T = some k) ∧
    (∀ (T : QualType) (k : Nat), type_id (TypeCounter.run Ts) T = some k →
      type_id (TypeCounter.run (Ts ++ Ts1)) T = some k) ∧
    (∀ (T V : QualType) (k : Nat), type_id (TypeCounter.run (Ts ++ Ts1)) T = some k →
      type_id (TypeCounter.run (Ts ++ Ts1)) V = some k → rm_cvref_t T = rm_cvref_t V) ∧
    (∀ (T V : QualType) (k : Nat), type_id (TypeCounter.run Ts) T = some k →
      type_id (TypeCounter.run Ts) V = some k → rm_cvref_t T = rm_cvref_t V) ∧
    (TypeCounter.run Ts).i = (TypeCounter.run Ts).id.length ∧
    (TypeCounter.run (Ts ++ Ts1)).i = (TypeCounter.run (Ts ++ Ts1)).id.length ∧
    (TypeCounter.run Ts).i ≤ (TypeCounter.run (Ts ++ Ts1)).i ∧
    (∀ (T : QualType) (k : Nat), type_id (TypeCounter.run Ts) T = some k →
      k < (TypeCounter.run Ts).i) ∧
    (∀ (T : QualType) (k : Nat), type_id (TypeCounter.run Ts) T = none →
      type_id (TypeCounter.run (Ts ++ Ts1)) T = some k → (TypeCounter.run Ts).i ≤ k) := by
  have hc := run_consistent Ts
  have hc1 := run_consistent (Ts ++ Ts1)
  have hlen : (TypeCounter.run Ts).id.length ≤ (TypeCounter.run (Ts ++ Ts1)).id.length := by
    rw [run_append]
    exact foldl_init_id_length Ts1 _
  have hstab : ∀ (a k : Nat), map_find a (TypeCounter.run Ts).id = some k →
      map_find a (TypeCounter.run (Ts ++ Ts1)).id = some k := by
    intro a k h
    rw [run_append]
    exact foldl_init_id_find Ts1 _ h
  have hi : (TypeCounter.run Ts).i = (TypeCounter.run Ts).id.length := by
    rw [hc.1]; simp only [to_type_id_t]; omega
  have hi1 : (TypeCounter.run (Ts ++ Ts1)).i = (TypeCounter.run (Ts ++ Ts1)).id.length := by
    rw [hc1.1]; simp only [to_type_id_t]; omega
  have hname : ∀ T V : QualType, T.name = V.name → rm_cvref_t T = rm_cvref_t V := by
    intro T V h
    simp only [rm_cvref_t, h]
  refine ⟨fun _ => rfl, ?_, ?_, ?_, ?_, ?_, hi, hi1, by omega, ?_, ?_⟩
  · intro T V h
    simp only [type_id, rm_cvref_t, h]
  · intro T hT
    exact map_find_of_count (foldl_init_id_mem Ts _ T.name hT)
  · intro T k h
    exact hstab _ k h
  · intro T V k hT hV
    exact hname T V (consistent_injective hc1 (by omega) hT hV)
  · intro T V k hT hV
    exact hname T V (consistent_injective hc (by omega) hT hV)
  · intro T k h
    rw [hi]
    exact (consistent_values hc (by omega)).2 _ (map_find_mem h)
  · intro T k hnone hk
    by_contra hlt
    have hk2 : k < (TypeCounter.run Ts).id.length := by omega
    have hmem : k ∈ (TypeCounter.run Ts).id.map (fun e => e.2) := by
      rw [hc.2.1]
      simp only [List.mem_map, List.mem_reverse, List.mem_range]
      exact ⟨k, hk2, by simp only [to_type_id_t]; omega⟩
    obtain ⟨e, he, hek⟩ := List.mem_map.1 hmem
    have hfind := map_find_of_mem_nodup hc.2.2 he
    rw [hek] at hfind
    have := consistent_injective hc1 (by omega) hk (hstab _ _ hfind)
    simp only [type_id] at hnone
    rw [this, hfind] at hnone
    exact absurd hnone (by simp)

/-- C29 fails for a program with more than `2 ^ 32` value types: `i` is a
`std::uint32_t`, after `2 ^ 32 - 1` initialisations it is `2 ^ 32 - 1`, the next
initialisation wraps it to `0`, and the value type initialised after that receives the
identifier `0`, which the first value type holds. -/
theorem type_id_stable_injective_counterexample :
    (TypeCounter.run (List.range (2 ^ 32 - 1))).i = 4294967295 ∧
      (TypeCounter.run (List.range (2 ^ 32))).i = 0 ∧
      type_id (TypeCounter.run (List.range (2 ^ 32 + 1))) (QualType.mk 0 false false false) =
        some 0 ∧
      type_id (TypeCounter.run (List.range (2 ^ 32 + 1)))
        (QualType.mk 4294967296 false false false) = some 0 ∧
      rm_cvref_t (QualType.mk 0 false false false) ≠
        rm_cvref_t (QualType.mk 4294967296 false false false) := by
  refine ⟨?_, ?_, ?_, ?_, by decide⟩
  · rw [run_range]; rfl
  · rw [run_range]; rfl
  · simp only [type_id, rm_cvref_t]
    rw [run_range]
    simp only
    rw [find_range_table]
    rfl
  · simp only [type_id, rm_cvref_t]
    rw [run_range]
    simp only
    rw [find_range_table]
    rfl

/-- C29, as amended, for three value types: the types 10 and 20 are initialised first,
then 20 is used again and 30 is initialised. -/
theorem type_id_stable_injective_witness :
    (TypeCounter.run ([10, 20] ++ [20, 30])).id.length < 2 ^ 32 ∧
    ((∀ T : QualType, type_id (TypeCounter.run [10, 20]) T =
      type_id (TypeCounter.run [10, 20]) (rm_cvref_t T)) ∧
    (∀ T V : QualType, T.name = V.name →
      type_id (TypeCounter.run [10, 20]) T = type_id (TypeCounter.run [10, 20]) V) ∧
    (∀ T : QualType, T.name ∈ [10, 20] → ∃ k, type_id (TypeCounter.run [10, 20]) T = some k) ∧
    (∀ (T : QualType) (k : Nat), type_id (TypeCounter.run [10, 20]) T = some k →
      type_id (TypeCounter.run ([10, 20] ++ [20, 30])) T = some k) ∧
    (∀ (T V : QualType) (k : Nat),
      type_id (TypeCounter.run ([10, 20] ++ [20, 30])) T = some k →
      type_id (TypeCounter.run ([10, 20] ++ [20, 30])) V = some k →
      rm_cvref_t T = rm_cvref_t V) ∧
    (∀ (T V : QualType) (k : Nat), type_id (TypeCounter.run [10, 20]) T = some k →
      type_id (TypeCounter.run [10, 20]) V = some k → rm_cvref_t T = rm_cvref_t V) ∧
    (TypeCounter.run [10, 20]).i = (TypeCounter.run [10, 20]).id.length ∧
    (TypeCounter.run ([10, 20] ++ [20, 30])).i =
      (TypeCounter.run ([10, 20] ++ [20, 30])).id.length ∧
    (TypeCounter.run [10, 20]).i ≤ (TypeCounter.run ([10, 20] ++ [20, 30])).i ∧
    (∀ (T : QualType) (k : Nat), type_id (TypeCounter.run [10, 20]) T = some k →
      k < (TypeCounter.run [10, 20]).i) ∧
    (∀ (T : QualType) (k : Nat), type_id (TypeCounter.run [10, 20]) T = none →
      type_id (TypeCounter.run ([10, 20] ++ [20, 30])) T = some k →
      (TypeCounter.run [10, 20]).i ≤ k)) :=
  ⟨by decide, type_id_stable_injective [10, 20] [20, 30] (by decide)⟩

/-! ## One type through the batch allocator (C39) -/

/-- C39. For every store (every arena length and base address) and every type (every
size and alignment), `do_allocate_n` on the batch of that one type leaves the store
`do_allocate_1` leaves and returns the offset `do_allocate_1` returns: the same offset
and the same new arena length. -/
theorem do_allocate_n_single (base : Nat) (c : HeterogeneousArray) (T : TypeInfo) :
    c.do_allocate_n base [T] = c.do_allocate_1 base T ∧
      (c.do_allocate_n base [T]).2 = (c.do_allocate_1 base T).2 ∧
      (c.do_allocate_n base [T]).1.data.size = (c.do_allocate_1 base T).1.data.size := by
  have h : c.do_allocate_n base [T] = c.do_allocate_1 base T := by
    have hmin : ∀ comp : Nat → Nat → Bool, min_element comp [0] = some 0 := fun _ => rfl
    have hmax : ∀ comp : Nat → Nat → Bool, max_element comp [0] = some 0 := fun _ => rfl
    have hsz : to_size_t (c.data.size +
        to_size_t (0 + (padding_of (to_size_t (base + c.data.size)) T.align + T.size))) =
        to_size_t (c.data.size + padding_of (to_size_t (base + c.data.size)) T.align +
          T.size) := by
      simp only [to_size_t]
      omega
    simp only [HeterogeneousArray.do_allocate_n, HeterogeneousArray.do_allocate_1,
      do_allocate_n_final, do_allocate_n_loop, do_allocate_n_init, do_allocate_n_body,
      List.length_singleton, List.map_cons, List.map_nil, List.range_succ, List.range_zero,
      List.nil_append, List.isEmpty_cons, Bool.false_eq_true, if_false, hmin,
      List.getD_cons_zero, beq_self_eq_true, List.filter_cons_of_pos, List.filter_nil,
      hmax, List.replicate, List.set_cons_zero, Nat.add_zero, hsz]
  exact ⟨h, by rw [h], by rw [h]⟩

/-! ## The layout does not depend on the base address (C40) -/

/-- C40. Two runs start with the same arena length and are given types with the same
sizes and alignments, the alignments powers of two of at most 64; the base addresses of
the two arenas are multiples of 64. Then `do_allocate_n` returns the same offsets and
leaves the same arena length in both runs, and so does `do_allocate_1` on two types with
the same size and alignment, although `padding_of` is computed from the end pointer
`base + length`. -/
theorem layout_base_independent (base base1 : Nat) (hb : base % 64 = 0)
    (hb1 : base1 % 64 = 0) (c c1 : HeterogeneousArray) (hsize : c.data.size = c1.data.size)
    (Ts Ts1 : List TypeInfo) (hal : ∀ T ∈ Ts, valid_align T.align)
    (hsz : Ts.map (fun T => T.size) = Ts1.map (fun T => T.size))
    (hag : Ts.map (fun T => T.align) = Ts1.map (fun T => T.align)) :
    (c.do_allocate_n base Ts).2 = (c1.do_allocate_n base1 Ts1).2 ∧
    (c.do_allocate_n base Ts).1.data.size = (c1.do_allocate_n base1 Ts1).1.data.size ∧
    (∀ T T1 : TypeInfo, valid_align T.align → T.size = T1.size → T.align = T1.align →
      (c.do_allocate_1 base T).2 = (c1.do_allocate_1 base1 T1).2 ∧
      (c.do_allocate_1 base T).1.data.size = (c1.do_allocate_1 base1 T1).1.data.size) := by
  have hlen : Ts.length = Ts1.length := by
    have := congrArg List.length hsz
    simpa using this
  have hal1 : ∀ T ∈ Ts1, valid_align T.align := by
    intro T hT
    have hm : T.align ∈ Ts1.map (fun T => T.align) := List.mem_map_of_mem _ hT
    rw [← hag] at hm
    obtain ⟨V, hV, hVa⟩ := List.mem_map.1 hm
    rw [← hVa]
    exact hal V hV
  have hsame : ∀ b, do_allocate_n_final b c.data.size Ts =
      do_allocate_n_final b c1.data.size Ts1 := by
    intro b
    simp only [do_allocate_n_final, hsz, hag, hlen, hsize]
  obtain ⟨h1, h2⟩ := do_allocate_n_final_base base c.data.size hb Ts hal
  obtain ⟨h3, h4⟩ := do_allocate_n_final_base base1 c1.data.size hb1 Ts1 hal1
  refine ⟨?_, ?_, ?_⟩
  · simp only [HeterogeneousArray.do_allocate_n]
    rw [h1, h3, hsame 0]
  · simp only [HeterogeneousArray.do_allocate_n, Arena.resize]
    rw [h2, h4, hsame 0, hsize]
  · intro T T1 hT hs ha
    have hT1 : valid_align T1.align := by rw [← ha]; exact hT
    rw [do_allocate_1_eq base hb c T hT, do_allocate_1_eq base1 hb1 c1 T1 hT1]
    simp only [Arena.resize, hsize, hs, ha, and_self]

/-- C40 at `reserve<A, C>()` and `reserve<C>()` on the store that holds a `char`, with
the arena at the addresses 64 and 4096. -/
theorem layout_base_independent_witness :
    (64 % 64 = 0 ∧ 4096 % 64 = 0 ∧ char_store.data.size = char_store.data.size ∧
      (∀ T ∈ [A_t, C_t], valid_align T.align) ∧
      [A_t, C_t].map (fun T => T.size) = [A_t, C_t].map (fun T => T.size) ∧
      [A_t, C_t].map (fun T => T.align) = [A_t, C_t].map (fun T => T.align)) ∧
    ((char_store.do_allocate_n 64 [A_t, C_t]).2 = (char_store.do_allocate_n 4096 [A_t, C_t]).2 ∧
    (char_store.do_allocate_n 64 [A_t, C_t]).1.data.size =
      (char_store.do_allocate_n 4096 [A_t, C_t]).1.data.size ∧
    (∀ T T1 : TypeInfo, valid_align T.align → T.size = T1.size → T.align = T1.align →
      (char_store.do_allocate_1 64 T).2 = (char_store.do_allocate_1 4096 T1).2 ∧
      (char_store.do_allocate_1 64 T).1.data.size =
        (char_store.do_allocate_1 4096 T1).1.data.size)) :=
  have hal : ∀ T ∈ [A_t, C_t], valid_align T.align := by
    intro T hT
    rcases List.mem_cons.1 hT with h | h
    · subst h; exact valid_align_pow 2 (by decide)
    · rw [List.mem_singleton.1 h]; exact valid_align_pow 3 (by decide)
  ⟨⟨rfl, rfl, rfl, hal, rfl, rfl⟩,
    layout_base_independent 64 4096 rfl rfl char_store char_store rfl [A_t, C_t] [A_t, C_t]
      hal rfl rfl⟩

/-! ## Every constructed type is reserved (C33) -/

/-- C33. In every store reached from the empty store through the public operations,
every constructed type is reserved: every key of the destructor registry is a key of
the offset directory. So the call of every stored destructor returns (its `get` finds
the offset of its type), and `clear()` returns. -/
theorem constructed_is_reserved {W : TypeInfo → Prop} (c : HeterogeneousArray)
    (hr : Reachable W c) :
    (∀ T : TypeInfo, c.is_constructed T = true → c.is_allocated T = true) ∧
    (∀ k, k ∈ c.destructors.map (fun e => e.1) → k ∈ c.offsets.map (fun e => e.1)) ∧
    (∀ k d, map_find k c.destructors = some d → ∃ off, map_find k c.offsets = some off) ∧
    (∀ e ∈ c.destructors, c.invoke e.2 = .ok ()) ∧
    (∃ c1 called, c.clear = .ok (c1, called)) ∧
    (∃ called, c.destructor = .ok called) := by
  refine ⟨fun T hT => hr.registered_allocated T.id hT, ?_, ?_, hr.invoke_mem_ok,
    ⟨_, _, hr.clear_eq⟩, ⟨_, invoke_all_eq c c.destructors hr.invoke_mem_ok⟩⟩
  · intro k hk
    exact (map_count_iff_mem _ _).1 (hr.registered_allocated k ((map_count_iff_mem _ _).2 hk))
  · intro k d hd
    exact map_find_of_count (hr.registered_allocated k (by simp [map_count, hd]))

/-- C33 at the store that holds the `int` 7. -/
theorem constructed_is_reserved_witness :
    Reachable (fun _ => True) int_store ∧
    ((∀ T : TypeInfo, int_store.is_constructed T = true → int_store.is_allocated T = true) ∧
    (∀ k, k ∈ int_store.destructors.map (fun e => e.1) →
      k ∈ int_store.offsets.map (fun e => e.1)) ∧
    (∀ k d, map_find k int_store.destructors = some d →
      ∃ off, map_find k int_store.offsets = some off) ∧
    (∀ e ∈ int_store.destructors, int_store.invoke e.2 = .ok ()) ∧
    (∃ c1 called, int_store.clear = .ok (c1, called)) ∧
    (∃ called, int_store.destructor = .ok called)) :=
  ⟨int_store_reachable, constructed_is_reserved int_store int_store_reachable⟩

/-! ## `insert_or_assign` is total (C34) -/

theorem construct_1_returns (c : HeterogeneousArray) (T : TypeInfo) (off : Nat) (v : Val)
    (he : T.is_empty = false) (hnc : c.is_constructed T = false) :
    ∃ c2 r, c.construct_1 T off v = .ok (c2, r) := by
  have h : c.construct_1 T off v = .ok ((c.record_dtor T T.id).do_construct T off v) := by
    simp [HeterogeneousArray.construct_1, he, hnc]
  exact ⟨((c.record_dtor T T.id).do_construct T off v).1,
    ((c.record_dtor T T.id).do_construct T off v).2, h⟩

/-- C34. In every reachable store, for every type `T` that is not empty and every
object `v` of `T`, `insert_or_assign<T>(v)` returns when the call compiles (alignment of
at most 64) and is ill-formed otherwise: it never ends on an `assert` or on
`std::out_of_range`. On the path through `insert_1`, taken when `T` is not reserved,
`contains<T>()` is false, `reserve<T>()` returns and `T` is not constructed after it; on
the path through `assign_1`, taken when `T` is reserved, `assign<T>(v)` returns. -/
theorem insert_or_assign_total {W : TypeInfo → Prop} (base : Nat) (c : HeterogeneousArray)
    (hr : Reachable W c) (T : TypeInfo) (v : Val) (he : T.is_empty = false)
    (hv : v.length = T.size) :
    (T.align ≤ default_alignment →
      ∃ c1 r, c.insert_or_assign base [(T, v)] = .ok (c1, [r])) ∧
    (¬ T.align ≤ default_alignment →
      c.insert_or_assign base [(T, v)] = .error Fault.ill_formed) ∧
    fault_of (c.insert_or_assign base [(T, v)]) ≠ some Fault.assertion ∧
    fault_of (c.insert_or_assign base [(T, v)]) ≠ some Fault.out_of_range ∧
    (T.align ≤ default_alignment → c.is_allocated T = false →
      c.contains [T] = false ∧
      ∃ c1 n, c.reserve base [T] = .ok (c1, [n]) ∧ c1.is_constructed T = false ∧
        ∃ c2 r, c1.construct_1 T n v = .ok (c2, r)) ∧
    (c.is_allocated T = true → ∃ c1 r, c.assign [(T, v)] = .ok (c1, [r])) := by
  have hok : T.align ≤ default_alignment →
      ∃ c1 r, c.insert_or_assign base [(T, v)] = .ok (c1, [r]) := by
    intro hle
    have hsingle := insert_or_assign_single base c T v he hle
    by_cases ha : c.is_allocated T = true
    · obtain ⟨c1, r, h1, -⟩ := assign_allocated_get c T v he ha hv
      exact ⟨c1, r, by rw [hsingle, ha]; exact h1⟩
    · have ha2 : c.is_allocated T = false := by simpa using ha
      have hnc := hr.not_constructed ha2
      exact ⟨_, _, by rw [hsingle, ha2]; exact insert_single_eq base c T v he hle ha2 hnc⟩
  have hill : ¬ T.align ≤ default_alignment →
      c.insert_or_assign base [(T, v)] = .error Fault.ill_formed := by
    intro hle
    have hs : HeterogeneousArray.do_allocate_static [T] = false := by
      simp [HeterogeneousArray.do_allocate_static, hle]
    simp [HeterogeneousArray.insert_or_assign, HeterogeneousArray.insert_or_assign_1, he, hs]
  have hfault : ∀ f, f ≠ Fault.ill_formed →
      fault_of (c.insert_or_assign base [(T, v)]) ≠ some f := by
    intro f hf
    by_cases hle : T.align ≤ default_alignment
    · obtain ⟨c1, r, h⟩ := hok hle
      rw [h]
      simp [fault_of]
    · rw [hill hle]
      simp only [fault_of, ne_eq, Option.some.injEq]
      exact fun h => hf h.symm
  refine ⟨hok, hill, hfault _ (by decide), hfault _ (by decide), ?_, ?_⟩
  · intro hle ha
    have hnc := hr.not_constructed ha
    have h := reserve_single_eq base c T hle ha
    refine ⟨by rw [contains_single]; exact hnc,
      HeterogeneousArray.mk
        (map_emplace c.offsets T.id ((c.do_allocate_1 base T).2.headD 0))
        (c.do_allocate_1 base T).1.data (c.do_allocate_1 base T).1.destructors,
      (c.do_allocate_1 base T).2.headD 0, ?_, hnc, ?_⟩
    · rw [h]; rfl
    · exact construct_1_returns _ T _ v he hnc
  · intro ha
    obtain ⟨c1, r, h1, -⟩ := assign_allocated_get c T v he ha hv
    exact ⟨c1, r, h1⟩

/-- C34 at `insert_or_assign<double>(v)` on the store that holds an `int`. -/
theorem insert_or_assign_total_witness :
    (Reachable (fun _ => True) int_store ∧ double_t.is_empty = false ∧
      [1, 2, 3, 4, 5, 6, 7, 8].length = double_t.size) ∧
    ((double_t.align ≤ default_alignment →
      ∃ c1 r, int_store.insert_or_assign 64 [(double_t, [1, 2, 3, 4, 5, 6, 7, 8])] =
        .ok (c1, [r])) ∧
    (¬ double_t.align ≤ default_alignment →
      int_store.insert_or_assign 64 [(double_t, [1, 2, 3, 4, 5, 6, 7, 8])] =
        .error Fault.ill_formed) ∧
    fault_of (int_store.insert_or_assign 64 [(double_t, [1, 2, 3, 4, 5, 6, 7, 8])]) ≠
      some Fault.assertion ∧
    fault_of (int_store.insert_or_assign 64 [(double_t, [1, 2, 3, 4, 5, 6, 7, 8])]) ≠
      some Fault.out_of_range ∧
    (double_t.align ≤ default_alignment → int_store.is_allocated double_t = false →
      int_store.contains [double_t] = false ∧
      ∃ c1 n, int_store.reserve 64 [double_t] = .ok (c1, [n]) ∧
        c1.is_constructed double_t = false ∧
        ∃ c2 r, c1.construct_1 double_t n [1, 2, 3, 4, 5, 6, 7, 8] = .ok (c2, r)) ∧
    (int_store.is_allocated double_t = true →
      ∃ c1 r, int_store.assign [(double_t, [1, 2, 3, 4, 5, 6, 7, 8])] = .ok (c1, [r]))) :=
  ⟨⟨int_store_reachable, rfl, rfl⟩,
    insert_or_assign_total 64 int_store int_store_reachable double_t
      [1, 2, 3, 4, 5, 6, 7, 8] rfl rfl⟩

/-! ## `assign` on a type that was never reserved (C35) -/

/-- C36. For every type `T` that is not empty: in every store in which `T` is reserved
at the offset `off` and not constructed, `contains<T>()` is false and `get<T>()` returns
the reference at `off`, as `get<T>(off)` does. This is the state after `reserve<T>()` in
a reachable store, where `T` was never constructed, and the state after `destruct<T>()`
in a reachable store, where `get<T>()` returns what it returned before. -/
theorem get_checks_reservation {W : TypeInfo → Prop} (c : HeterogeneousArray)
    (T : TypeInfo) (he : T.is_empty = false) :
    (∀ off, map_find T.id c.offsets = some off → c.is_constructed T = false →
      c.contains [T] = false ∧ c.offset_of [T] = .ok [off] ∧
      c.get [T] = .ok [c.do_get T off] ∧ c.get_at [T] [off] = .ok [c.do_get T off]) ∧
    (Reachable W c → ∀ base c1 r, c.reserve base [T] = .ok (c1, r) →
      c1.is_constructed T = false ∧
      ∃ off, r = [off] ∧ c1.offset_of [T] = .ok [off] ∧ c1.get [T] = .ok [c1.do_get T off]) ∧
    (Reachable W c → c.is_constructed T = true →
      ∃ c1 called off, c.destruct [T] = .ok (c1, called) ∧ c1.is_constructed T = false ∧
        c1.offset_of [T] = .ok [off] ∧ c1.get [T] = .ok [c1.do_get T off] ∧
        c1.get [T] = c.get [T]) := by
  have hget : ∀ (d : HeterogeneousArray) (off : Nat), map_find T.id d.offsets = some off →
      d.offset_of [T] = .ok [off] ∧ d.get [T] = .ok [d.do_get T off] ∧
        d.get_at [T] [off] = .ok [d.do_get T off] := by
    intro d off hoff
    refine ⟨by rw [offset_of_single_eq, hoff], get_single_eq d T off he hoff, ?_⟩
    simp [HeterogeneousArray.get_at, HeterogeneousArray.check_offsets, he, hoff]
  refine ⟨?_, ?_, ?_⟩
  · intro off hoff hc
    obtain ⟨h1, h2, h3⟩ := hget c off hoff
    exact ⟨by rw [contains_single]; exact hc, h1, h2, h3⟩
  · intro hr base c1 r h
    obtain ⟨hle, hnot, -, -, hd⟩ := reserve_ok h
    have ha := hnot T (List.mem_singleton_self T)
    have hnc := hr.not_constructed ha
    have h1 := reserve_single_eq base c T (hle T (List.mem_singleton_self T)) ha
    rw [h1] at h
    simp only [Except.ok.injEq, Prod.mk.injEq] at h
    obtain ⟨hc1, hr1⟩ := h
    refine ⟨?_, (c.do_allocate_1 base T).2.headD 0, ?_, ?_⟩
    · simp only [HeterogeneousArray.is_constructed, hd]
      exact hnc
    · rw [← hr1]; rfl
    · have hoff : map_find T.id c1.offsets = some ((c.do_allocate_1 base T).2.headD 0) := by
        rw [← hc1]
        exact map_find_emplace_self _ _ _ ha
      exact ⟨(hget c1 _ hoff).1, (hget c1 _ hoff).2.1⟩
  · intro hr hc
    obtain ⟨off, hoff⟩ := map_find_of_count (hr.registered_allocated T.id hc)
    refine ⟨_, _, off, (destruct_single c T).trans (do_destruct_eq c hr T hc), ?_, ?_, ?_, ?_⟩
    · exact map_count_erase_self _ _
    · exact (hget (HeterogeneousArray.mk c.offsets c.data (map_erase c.destructors T.id)) off
        hoff).1
    · exact (hget (HeterogeneousArray.mk c.offsets c.data (map_erase c.destructors T.id)) off
        hoff).2.1
    · rw [(hget (HeterogeneousArray.mk c.offsets c.data (map_erase c.destructors T.id)) off
        hoff).2.1, (hget c off hoff).2.1]
      rfl

/-- C36 at `get<int>()` on the store that holds an `int`, after `destruct<int>()`. -/
theorem get_checks_reservation_witness :
    int_t.is_empty = false ∧
    ((∀ off, map_find int_t.id int_store.offsets = some off →
      int_store.is_constructed int_t = false →
      int_store.contains [int_t] = false ∧ int_store.offset_of [int_t] = .ok [off] ∧
      int_store.get [int_t] = .ok [int_store.do_get int_t off] ∧
      int_store.get_at [int_t] [off] = .ok [int_store.do_get int_t off]) ∧
    (Reachable (fun _ => True) int_store → ∀ base c1 r,
      int_store.reserve base [int_t] = .ok (c1, r) →
      c1.is_constructed int_t = false ∧
      ∃ off, r = [off] ∧ c1.offset_of [int_t] = .ok [off] ∧
        c1.get [int_t] = .ok [c1.do_get int_t off]) ∧
    (Reachable (fun _ => True) int_store → int_store.is_constructed int_t = true →
      ∃ c1 called off, int_store.destruct [int_t] = .ok (c1, called) ∧
        c1.is_constructed int_t = false ∧
        c1.offset_of [int_t] = .ok [off] ∧ c1.get [int_t] = .ok [c1.do_get int_t off] ∧
        c1.get [int_t] = int_store.get [int_t])) :=
  ⟨rfl, get_checks_reservation int_store int_t rfl⟩

/-! ## The iterations of the loop of `do_allocate_n` (C37, C38) -/

/-- One more iteration of fuel is one more iteration of the loop, when an index is
pending. -/
theorem do_allocate_n_loop_succ (alignments sizes : List Nat) (size_before : Nat) :
    ∀ (fuel : Nat) (st : AllocState),
      do_allocate_n_loop alignments sizes size_before (fuel + 1) st =
        if (do_allocate_n_loop alignments sizes size_before fuel st).indices.isEmpty then
          do_allocate_n_loop alignments sizes size_before fuel st
        else do_allocate_n_body alignments sizes size_before
          (do_allocate_n_loop alignments sizes size_before fuel st) := by
  intro fuel
  induction fuel with
  | zero =>
    intro st
    simp only [do_allocate_n_loop]
  | succ n ih =>
    intro st
    rw [do_allocate_n_loop]
    by_cases hst : st.indices.isEmpty = true
    · have h1 : do_allocate_n_loop alignments sizes size_before (n + 1) st = st := by
        rw [do_allocate_n_loop, if_pos hst]
      rw [if_pos hst, h1, if_pos hst]
    · have h1 : do_allocate_n_loop alignments sizes size_before (n + 1) st =
          do_allocate_n_loop alignments sizes size_before n
            (do_allocate_n_body alignments sizes size_before st) := by
        rw [do_allocate_n_loop, if_neg hst]
      rw [if_neg hst, h1]
      exact ih _

theorem do_allocate_n_after_succ (base size_before : Nat) (Ts : List TypeInfo) (k : Nat)
    (h : (do_allocate_n_after base size_before Ts k).indices ≠ []) :
    do_allocate_n_after base size_before Ts (k + 1) =
      do_allocate_n_body (Ts.map (fun T => T.align)) (Ts.map (fun T => T.size)) size_before
        (do_allocate_n_after base size_before Ts k) := by
  unfold do_allocate_n_after at h ⊢
  rw [do_allocate_n_loop_succ, if_neg]
  simpa using h

theorem do_allocate_n_after_shaped (base size_before : Nat) (Ts : List TypeInfo) (k : Nat) :
    (do_allocate_n_after base size_before Ts k).shaped Ts.length := by
  unfold do_allocate_n_after
  apply do_allocate_n_loop_induct _ _ _ (fun st => st.shaped Ts.length)
  · intro st hst hne
    exact do_allocate_n_body_shaped _ _ _ _ st hst hne
  · exact do_allocate_n_init_shaped base size_before Ts.length

/-- After `k` of the `N` iterations, `N - k` indices are pending. -/
theorem do_allocate_n_after_length (base size_before : Nat) (Ts : List TypeInfo) :
    ∀ k, k ≤ Ts.length →
      (do_allocate_n_after base size_before Ts k).indices.length = Ts.length - k := by
  intro k
  induction k with
  | zero =>
    intro _
    simp [do_allocate_n_after, do_allocate_n_loop, do_allocate_n_init]
  | succ n ih =>
    intro hk
    have hlen := ih (by omega)
    have hne : (do_allocate_n_after base size_before Ts n).indices ≠ [] := by
      intro hnil
      rw [hnil] at hlen
      simp at hlen
      omega
    rw [do_allocate_n_after_succ base size_before Ts n hne]
    have := do_allocate_n_body_length (Ts.map (fun T => T.align)) (Ts.map (fun T => T.size))
      size_before _ hne
    omega

/-- Once the loop has ended, more fuel changes nothing. -/
theorem do_allocate_n_after_ge (base size_before : Nat) (Ts : List TypeInfo) :
    ∀ k, Ts.length ≤ k →
      do_allocate_n_after base size_before Ts k =
        do_allocate_n_after base size_before Ts Ts.length := by
  intro k hk
  obtain ⟨d, rfl⟩ := Nat.exists_eq_add_of_le hk
  induction d with
  | zero => rfl
  | succ n ih =>
    have hnil : (do_allocate_n_after base size_before Ts Ts.length).indices = [] := by
      have := do_allocate_n_after_length base size_before Ts Ts.length (le_refl _)
      simpa using this
    have hprev := ih (by omega)
    have : do_allocate_n_after base size_before Ts (Ts.length + (n + 1)) =
        do_allocate_n_after base size_before Ts (Ts.length + n) := by
      unfold do_allocate_n_after at hprev hnil ⊢
      rw [← Nat.add_assoc, do_allocate_n_loop_succ, hprev, hnil]
      simp
    rw [this, hprev]

/-- The pending indices only shrink. -/
theorem do_allocate_n_after_subset (base size_before : Nat) (Ts : List TypeInfo) (k : Nat) :
    ∀ i ∈ (do_allocate_n_after base size_before Ts (k + 1)).indices,
      i ∈ (do_allocate_n_after base size_before Ts k).indices := by
  intro i hi
  by_cases hne : (do_allocate_n_after base size_before Ts k).indices = []
  · unfold do_allocate_n_after at hne hi ⊢
    rw [do_allocate_n_loop_succ, hne] at hi
    simp only [List.isEmpty_nil, if_true] at hi
    exact hi
  · rw [do_allocate_n_after_succ base size_before Ts k hne] at hi
    obtain ⟨id, -, -, -, heq⟩ := do_allocate_n_body_spec (Ts.map (fun T => T.align))
      (Ts.map (fun T => T.size)) size_before _ hne
    rw [heq] at hi
    exact List.mem_of_mem_erase hi

theorem do_allocate_n_after_mono (base size_before : Nat) (Ts : List TypeInfo) (i : Nat) :
    ∀ k d, i ∈ (do_allocate_n_after base size_before Ts (k + d)).indices →
      i ∈ (do_allocate_n_after base size_before Ts k).indices := by
  intro k d
  induction d with
  | zero => intro h; exact h
  | succ n ih =>
    intro h
    exact ih (do_allocate_n_after_subset base size_before Ts (k + n) i h)

/-- A predicate on the iterations that holds at the start, fails at the end and, once
it fails, fails for good, changes at one iteration. -/
theorem exists_unique_drop (P : Nat → Prop) (n : Nat) (h0 : P 0) (hn : ¬ P n)
    (hanti : ∀ k, P (k + 1) → P k) :
    ∃ k, (k < n ∧ P k ∧ ¬ P (k + 1)) ∧ ∀ j, (j < n ∧ P j ∧ ¬ P (j + 1)) → j = k := by
  have hle : ∀ a d, P (a + d) → P a := by
    intro a d
    induction d with
    | zero => intro h; exact h
    | succ m ih => intro h; exact ih (hanti _ h)
  have hex : ∀ m, ¬ P m → ∃ k, k < m ∧ P k ∧ ¬ P (k + 1) := by
    intro m
    induction m with
    | zero => intro h; exact absurd h0 h
    | succ m ih =>
      intro h
      by_cases hm : P m
      · exact ⟨m, Nat.lt_succ_self m, hm, h⟩
      · obtain ⟨k, hk, h1, h2⟩ := ih hm
        exact ⟨k, Nat.lt_succ_of_lt hk, h1, h2⟩
  obtain ⟨k, hk, h1, h2⟩ := hex n hn
  refine ⟨k, ⟨hk, h1, h2⟩, ?_⟩
  rintro j ⟨-, hj1, hj2⟩
  rcases Nat.lt_trichotomy j k with hlt | heq | hgt
  · obtain ⟨d, hd⟩ := Nat.exists_eq_add_of_le (Nat.succ_le_of_lt hlt)
    exact absurd (hle (j + 1) d (by rw [← Nat.succ_eq_add_one, ← hd]; exact h1)) hj2
  · exact heq
  · obtain ⟨d, hd⟩ := Nat.exists_eq_add_of_le (Nat.succ_le_of_lt hgt)
    exact absurd (hle (k + 1) d (by rw [← Nat.succ_eq_add_one, ← hd]; exact hj1)) h2

/-- What one iteration of the loop of `do_allocate_n` finds: `min_element` returns a
pending index, the candidates with its padding are not empty, `max_element` returns a
candidate, and the candidate is pending, so that `find` before `erase` succeeds. -/
theorem do_allocate_n_body_select (alignments sizes : List Nat) (size_before : Nat)
    (st : AllocState) (h : st.indices ≠ []) :
    ∃ i_min id,
      min_element (fun i j => decide (padding_of st.ptr_end (alignments.getD i 0) <
        padding_of st.ptr_end (alignments.getD j 0))) st.indices = some i_min ∧
      i_min ∈ st.indices ∧
      st.indices.filter (fun id => padding_of st.ptr_end (alignments.getD id 0) ==
        padding_of st.ptr_end (alignments.getD i_min 0)) ≠ [] ∧
      max_element (fun i j => decide (sizes.getD i 0 < sizes.getD j 0))
        (st.indices.filter (fun id => padding_of st.ptr_end (alignments.getD id 0) ==
          padding_of st.ptr_end (alignments.getD i_min 0))) = some id ∧
      id ∈ st.indices ∧
      do_allocate_n_body alignments sizes size_before st =
        { output := st.output.set id (to_offset_t (to_size_t
            (size_before + st.to_allocate + padding_of st.ptr_end (alignments.getD id 0))))
          to_allocate := to_size_t (st.to_allocate +
            (padding_of st.ptr_end (alignments.getD id 0) + sizes.getD id 0))
          ptr_end := to_size_t (st.ptr_end +
            (padding_of st.ptr_end (alignments.getD id 0) + sizes.getD id 0))
          indices := st.indices.erase id } := by
  obtain ⟨m, hm, hmem, -⟩ :=
    min_element_spec (fun i => padding_of st.ptr_end (alignments.getD i 0)) h
  have hcand : st.indices.filter (fun id => padding_of st.ptr_end (alignments.getD id 0) ==
      padding_of st.ptr_end (alignments.getD m 0)) ≠ [] := by
    intro hnil
    have : m ∈ st.indices.filter (fun id => padding_of st.ptr_end (alignments.getD id 0) ==
      padding_of st.ptr_end (alignments.getD m 0)) := by
      simp [List.mem_filter, hmem]
    rw [hnil] at this
    exact absurd this (List.not_mem_nil _)
  obtain ⟨e, he, hemem, -⟩ := max_element_spec (fun i => sizes.getD i 0) hcand
  have hemem2 := List.mem_filter.1 hemem
  have hpe : padding_of st.ptr_end (alignments.getD e 0) =
      padding_of st.ptr_end (alignments.getD m 0) := by simpa using hemem2.2
  refine ⟨m, e, hm, hmem, hcand, he, hemem2.1, ?_⟩
  simp only [do_allocate_n_body, hm, he, hpe]

/-- C37. For every batch of `N` types the loop of `do_allocate_n` runs `N` iterations:
after `k ≤ N` iterations `N - k` indices are pending, and after `N` none is, so the loop
is left. At each of the `N` iterations `min_element` finds a pending index, the
candidates with the minimal padding are not empty, `max_element` returns a candidate
`id` that is pending and below `N`, the iteration writes `output[id]` and erases `id`
and no other index. Every index is erased at one iteration and at no other, so every
type receives one offset. -/
theorem batch_loop_terminates (base size_before : Nat) (Ts : List TypeInfo) :
    (∀ k, k ≤ Ts.length →
      (do_allocate_n_after base size_before Ts k).indices.length = Ts.length - k) ∧
    (∀ k, k < Ts.length →
      (do_allocate_n_after base size_before Ts k).indices ≠ [] ∧
      ∃ i_min id,
        min_element (fun i j => decide
          (padding_of (do_allocate_n_after base size_before Ts k).ptr_end
              ((Ts.map (fun T => T.align)).getD i 0) <
            padding_of (do_allocate_n_after base size_before Ts k).ptr_end
              ((Ts.map (fun T => T.align)).getD j 0)))
          (do_allocate_n_after base size_before Ts k).indices = some i_min ∧
        (do_allocate_n_after base size_before Ts k).indices.filter (fun id =>
          padding_of (do_allocate_n_after base size_before Ts k).ptr_end
              ((Ts.map (fun T => T.align)).getD id 0) ==
            padding_of (do_allocate_n_after base size_before Ts k).ptr_end
              ((Ts.map (fun T => T.align)).getD i_min 0)) ≠ [] ∧
        max_element (fun i j => decide ((Ts.map (fun T => T.size)).getD i 0 <
            (Ts.map (fun T => T.size)).getD j 0))
          ((do_allocate_n_after base size_before Ts k).indices.filter (fun id =>
            padding_of (do_allocate_n_after base size_before Ts k).ptr_end
                ((Ts.map (fun T => T.align)).getD id 0) ==
              padding_of (do_allocate_n_after base size_before Ts k).ptr_end
                ((Ts.map (fun T => T.align)).getD i_min 0))) = some id ∧
        id ∈ (do_allocate_n_after base size_before Ts k).indices ∧ id < Ts.length ∧
        do_allocate_n_after base size_before Ts (k + 1) =
          do_allocate_n_body (Ts.map (fun T => T.align)) (Ts.map (fun T => T.size))
            size_before (do_allocate_n_after base size_before Ts k) ∧
        (do_allocate_n_after base size_before Ts (k + 1)).indices =
          (do_allocate_n_after base size_before Ts k).indices.erase id ∧
        id ∉ (do_allocate_n_after base size_before Ts (k + 1)).indices ∧
        (∀ j ∈ (do_allocate_n_after base size_before Ts k).indices, j ≠ id →
          j ∈ (do_allocate_n_after base size_before Ts (k + 1)).indices) ∧
        (∀ j, j ≠ id → (do_allocate_n_after base size_before Ts (k + 1)).output.getD j 0 =
          (do_allocate_n_after base size_before Ts k).output.getD j 0)) ∧
    (∀ k, Ts.length ≤ k →
      do_allocate_n_after base size_before Ts k =
        do_allocate_n_after base size_before Ts Ts.length) ∧
    (do_allocate_n_after base size_before Ts Ts.length).indices = [] ∧
    do_allocate_n_final base size_before Ts =
      do_allocate_n_after base size_before Ts Ts.length ∧
    (do_allocate_n_final base size_before Ts).output.length = Ts.length ∧
    (∀ i, i < Ts.length →
      ∃ k, (k < Ts.length ∧ i ∈ (do_allocate_n_after base size_before Ts k).indices ∧
          i ∉ (do_allocate_n_after base size_before Ts (k + 1)).indices) ∧
        ∀ j, (j < Ts.length ∧ i ∈ (do_allocate_n_after base size_before Ts j).indices ∧
          i ∉ (do_allocate_n_after base size_before Ts (j + 1)).indices) → j = k) := by
  have hlen := do_allocate_n_after_length base size_before Ts
  have hnil : (do_allocate_n_after base size_before Ts Ts.length).indices = [] := by
    have := hlen Ts.length (le_refl _)
    simpa using this
  refine ⟨hlen, ?_, do_allocate_n_after_ge base size_before Ts, hnil, rfl,
    (do_allocate_n_after_shaped base size_before Ts Ts.length).1, ?_⟩
  · intro k hk
    have hne : (do_allocate_n_after base size_before Ts k).indices ≠ [] := by
      intro h
      have := hlen k (le_of_lt hk)
      rw [h] at this
      simp at this
      omega
    have hsh := do_allocate_n_after_shaped base size_before Ts k
    obtain ⟨i_min, id, h1, -, h3, h4, h5, h6⟩ := do_allocate_n_body_select
      (Ts.map (fun T => T.align)) (Ts.map (fun T => T.size)) size_before _ hne
    have hsucc := do_allocate_n_after_succ base size_before Ts k hne
    refine ⟨hne, i_min, id, h1, h3, h4, h5, hsh.2.2 id h5, hsucc, ?_, ?_, ?_, ?_⟩
    · rw [hsucc, h6]
    · rw [hsucc, h6]
      exact fun hm => ((List.Nodup.mem_erase_iff hsh.2.1).1 hm).1 rfl
    · intro j hj hjid
      rw [hsucc, h6]
      exact (List.mem_erase_of_ne hjid).2 hj
    · intro j hjid
      rw [hsucc, h6]
      exact getD_set_ne (Ne.symm hjid) _ _
  · intro i hi
    apply exists_unique_drop (fun k => i ∈ (do_allocate_n_after base size_before Ts k).indices)
    · simp [do_allocate_n_after, do_allocate_n_loop, do_allocate_n_init, hi]
    · rw [hnil]
      exact List.not_mem_nil _
    · intro k hk
      exact do_allocate_n_after_subset base size_before Ts k i hk

/-! ### Ties are broken by the argument order (C38) -/

/-- On a list of increasing indices `std::max_element` returns the largest element
that comes first: among the elements with the largest key, the smallest index. -/
theorem foldl_max_first (key : Nat → Nat) (rest : List Nat) :
    ∀ (first : Nat), (first :: rest).Pairwise (fun a b => a < b) →
      (rest.foldl (fun largest x => if decide (key largest < key x) then x else largest) first
        ∈ first :: rest) ∧
      ∀ j ∈ first :: rest,
        key j ≤ key (rest.foldl
          (fun largest x => if decide (key largest < key x) then x else largest) first) ∧
        (key j = key (rest.foldl
          (fun largest x => if decide (key largest < key x) then x else largest) first) →
          rest.foldl (fun largest x => if decide (key largest < key x) then x else largest)
            first ≤ j) := by
  induction rest with
  | nil =>
    intro first _
    simp
  | cons y ys ih =>
    intro first hs
    simp only [List.foldl_cons]
    have hfy : first < y := (List.pairwise_cons.1 hs).1 y (List.mem_cons_self _ _)
    have htail : (y :: ys).Pairwise (fun a b => a < b) := (List.pairwise_cons.1 hs).2
    by_cases hlt : key first < key y
    · simp only [hlt, decide_True, if_true]
      obtain ⟨h1, h2⟩ := ih y htail
      refine ⟨List.mem_cons_of_mem _ h1, ?_⟩
      intro j hj
      rcases List.mem_cons.1 hj with h | h
      · subst h
        have := (h2 y (List.mem_cons_self _ _)).1
        exact ⟨by omega, fun heq => by omega⟩
      · exact h2 j h
    · simp only [hlt, decide_False, Bool.false_eq_true, if_false]
      have hs2 : (first :: ys).Pairwise (fun a b => a < b) := by
        refine List.pairwise_cons.2 ⟨?_, (List.pairwise_cons.1 htail).2⟩
        intro z hz
        exact (List.pairwise_cons.1 hs).1 z (List.mem_cons_of_mem _ hz)
      obtain ⟨h1, h2⟩ := ih first hs2
      have hfirst := h2 first (List.mem_cons_self _ _)
      refine ⟨?_, ?_⟩
      · rcases List.mem_cons.1 h1 with h | h
        · rw [h]; exact List.mem_cons_self _ _
        · exact List.mem_cons_of_mem _ (List.mem_cons_of_mem _ h)
      · intro j hj
        rcases List.mem_cons.1 hj with h | h
        · subst h; exact hfirst
        · rcases List.mem_cons.1 h with h3 | h3
          · subst h3
            refine ⟨by omega, ?_⟩
            intro heq
            rcases List.mem_cons.1 h1 with h4 | h4
            · rw [h4]; omega
            · have hfm := (List.pairwise_cons.1 hs2).1 _ h4
              have := hfirst.2 (by omega)
              omega
          · exact h2 j (List.mem_cons_of_mem _ h3)

theorem max_element_first (key : Nat → Nat) {l : List Nat} (h : l ≠ [])
    (hs : l.Pairwise (fun a b => a < b)) :
    ∃ m, max_element (fun i j => decide (key i < key j)) l = some m ∧ m ∈ l ∧
      ∀ j ∈ l, key j ≤ key m ∧ (key j = key m → m ≤ j) := by
  cases l with
  | nil => exact absurd rfl h
  | cons x xs => exact ⟨_, rfl, (foldl_max_first key xs x hs).1, (foldl_max_first key xs x hs).2⟩

/-- The pending indices stay in increasing order: `iota` fills them in that order and
`erase` keeps the order. -/
theorem do_allocate_n_after_sorted (base size_before : Nat) (Ts : List TypeInfo) (k : Nat) :
    (do_allocate_n_after base size_before Ts k).indices.Pairwise (fun a b => a < b) := by
  unfold do_allocate_n_after
  apply do_allocate_n_loop_induct _ _ _ (fun st => st.indices.Pairwise (fun a b => a < b))
  · intro st hst hne
    obtain ⟨id, -, -, -, heq⟩ := do_allocate_n_body_spec (Ts.map (fun T => T.align))
      (Ts.map (fun T => T.size)) size_before st hne
    rw [heq]
    exact hst.sublist (List.erase_sublist _ _)
  · exact List.pairwise_lt_range Ts.length

/-- One iteration of the loop of `do_allocate_n` on pending indices in increasing
order: the index placed has the minimal padding, the maximal size among the indices with
that padding, and is the smallest index among those with that padding and that size. -/
theorem do_allocate_n_body_first (alignments sizes : List Nat) (size_before : Nat)
    (st : AllocState) (h : st.indices ≠ [])
    (hs : st.indices.Pairwise (fun a b => a < b)) :
    ∃ id, id ∈ st.indices ∧
      (∀ j ∈ st.indices, padding_of st.ptr_end (alignments.getD id 0) ≤
        padding_of st.ptr_end (alignments.getD j 0)) ∧
      (∀ j ∈ st.indices, padding_of st.ptr_end (alignments.getD j 0) =
        padding_of st.ptr_end (alignments.getD id 0) → sizes.getD j 0 ≤ sizes.getD id 0) ∧
      (∀ j ∈ st.indices, padding_of st.ptr_end (alignments.getD j 0) =
        padding_of st.ptr_end (alignments.getD id 0) → sizes.getD j 0 = sizes.getD id 0 →
        id ≤ j) ∧
      do_allocate_n_body alignments sizes size_before st =
        { output := st.output.set id (to_offset_t (to_size_t
            (size_before + st.to_allocate + padding_of st.ptr_end (alignments.getD id 0))))
          to_allocate := to_size_t (st.to_allocate +
            (padding_of st.ptr_end (alignments.getD id 0) + sizes.getD id 0))
          ptr_end := to_size_t (st.ptr_end +
            (padding_of st.ptr_end (alignments.getD id 0) + sizes.getD id 0))
          indices := st.indices.erase id } := by
  obtain ⟨m, hm, hmem, hmin⟩ :=
    min_element_spec (fun i => padding_of st.ptr_end (alignments.getD i 0)) h
  have hcand : st.indices.filter (fun id => padding_of st.ptr_end (alignments.getD id 0) ==
      padding_of st.ptr_end (alignments.getD m 0)) ≠ [] := by
    intro hnil
    have : m ∈ st.indices.filter (fun id => padding_of st.ptr_end (alignments.getD id 0) ==
      padding_of st.ptr_end (alignments.getD m 0)) := by
      simp [List.mem_filter, hmem]
    rw [hnil] at this
    exact absurd this (List.not_mem_nil _)
  obtain ⟨e, he, hemem, hmax⟩ := max_element_first (fun i => sizes.getD i 0) hcand
    (hs.sublist (List.filter_sublist _))
  have hemem2 := List.mem_filter.1 hemem
  have hpe : padding_of st.ptr_end (alignments.getD e 0) =
      padding_of st.ptr_end (alignments.getD m 0) := by simpa using hemem2.2
  have hin : ∀ j ∈ st.indices, padding_of st.ptr_end (alignments.getD j 0) =
      padding_of st.ptr_end (alignments.getD e 0) →
      j ∈ st.indices.filter (fun id => padding_of st.ptr_end (alignments.getD id 0) ==
        padding_of st.ptr_end (alignments.getD m 0)) := by
    intro j hj hjp
    refine List.mem_filter.2 ⟨hj, ?_⟩
    simp only [hjp, hpe, beq_self_eq_true]
  refine ⟨e, hemem2.1, ?_, ?_, ?_, ?_⟩
  · intro j hj; rw [hpe]; exact hmin j hj
  · intro j hj hjp
    exact (hmax j (hin j hj hjp)).1
  · intro j hj hjp hjs
    exact (hmax j (hin j hj hjp)).2 hjs
  · simp only [do_allocate_n_body, hm, he, hpe]

/-- C38. At every iteration of the loop of `do_allocate_n`, the pending indices are in
the order of the arguments, and the type that is placed is, among the pending types
with the minimal padding and the maximal size for that padding, the one that comes
first in the argument order. On a fresh store the batch `char`, `double`, `bool` places
the `double` at 0, the `char` at 8 and the `bool` at 9. -/
theorem batch_tie_break (base size_before : Nat) (Ts : List TypeInfo) (k : Nat)
    (hk : k < Ts.length) :
    (do_allocate_n_after base size_before Ts k).indices.Pairwise (fun a b => a < b) ∧
    (∃ id, id ∈ (do_allocate_n_after base size_before Ts k).indices ∧
      (∀ j ∈ (do_allocate_n_after base size_before Ts k).indices,
        padding_of (do_allocate_n_after base size_before Ts k).ptr_end
            ((Ts.map (fun T => T.align)).getD id 0) ≤
          padding_of (do_allocate_n_after base size_before Ts k).ptr_end
            ((Ts.map (fun T => T.align)).getD j 0)) ∧
      (∀ j ∈ (do_allocate_n_after base size_before Ts k).indices,
        padding_of (do_allocate_n_after base size_before Ts k).ptr_end
            ((Ts.map (fun T => T.align)).getD j 0) =
          padding_of (do_allocate_n_after base size_before Ts k).ptr_end
            ((Ts.map (fun T => T.align)).getD id 0) →
        (Ts.map (fun T => T.size)).getD j 0 ≤ (Ts.map (fun T => T.size)).getD id 0) ∧
      (∀ j ∈ (do_allocate_n_after base size_before Ts k).indices,
        padding_of (do_allocate_n_after base size_before Ts k).ptr_end
            ((Ts.map (fun T => T.align)).getD j 0) =
          padding_of (do_allocate_n_after base size_before Ts k).ptr_end
            ((Ts.map (fun T => T.align)).getD id 0) →
        (Ts.map (fun T => T.size)).getD j 0 = (Ts.map (fun T => T.size)).getD id 0 →
        id ≤ j) ∧
      (do_allocate_n_after base size_before Ts (k + 1)).indices =
        (do_allocate_n_after base size_before Ts k).indices.erase id ∧
      (do_allocate_n_after base size_before Ts (k + 1)).output.getD id 0 =
        to_offset_t (to_size_t (size_before +
          (do_allocate_n_after base size_before Ts k).to_allocate +
          padding_of (do_allocate_n_after base size_before Ts k).ptr_end
            ((Ts.map (fun T => T.align)).getD id 0)))) ∧
    returned (HeterogeneousArray.empty.reserve 0 [char_t, double_t, bool_t]) =
      some [8, 0, 9] := by
  have hsorted := do_allocate_n_after_sorted base size_before Ts k
  have hne : (do_allocate_n_after base size_before Ts k).indices ≠ [] := by
    intro h
    have := do_allocate_n_after_length base size_before Ts k (le_of_lt hk)
    rw [h] at this
    simp at this
    omega
  have hsh := do_allocate_n_after_shaped base size_before Ts k
  obtain ⟨id, h1, h2, h3, h4, h5⟩ := do_allocate_n_body_first (Ts.map (fun T => T.align))
    (Ts.map (fun T => T.size)) size_before _ hne hsorted
  have hsucc := do_allocate_n_after_succ base size_before Ts k hne
  refine ⟨hsorted, ⟨id, h1, h2, h3, h4, ?_, ?_⟩, by decide⟩
  · rw [hsucc, h5]
  · rw [hsucc, h5]
    exact getD_set_self (by rw [hsh.1]; exact hsh.2.2 id h1) _ _

/-- C38 at the second iteration of the batch `char`, `double`, `bool` on a fresh store:
the `char` and the `bool` are pending, both need no padding and have the size 1, and the
`char`, the first of the two arguments, is placed. -/
theorem batch_tie_break_witness :
    1 < [char_t, double_t, bool_t].length ∧
    ((do_allocate_n_after 0 0 [char_t, double_t, bool_t] 1).indices.Pairwise
      (fun a b => a < b) ∧
    (∃ id, id ∈ (do_allocate_n_after 0 0 [char_t, double_t, bool_t] 1).indices ∧
      (∀ j ∈ (do_allocate_n_after 0 0 [char_t, double_t, bool_t] 1).indices,
        padding_of (do_allocate_n_after 0 0 [char_t, double_t, bool_t] 1).ptr_end
            (([char_t, double_t, bool_t].map (fun T => T.align)).getD id 0) ≤
          padding_of (do_allocate_n_after 0 0 [char_t, double_t, bool_t] 1).ptr_end
            (([char_t, double_t, bool_t].map (fun T => T.align)).getD j 0)) ∧
      (∀ j ∈ (do_allocate_n_after 0 0 [char_t, double_t, bool_t] 1).indices,
        padding_of (do_allocate_n_after 0 0 [char_t, double_t, bool_t] 1).ptr_end
            (([char_t, double_t, bool_t].map (fun T => T.align)).getD j 0) =
          padding_of (do_allocate_n_after 0 0 [char_t, double_t, bool_t] 1).ptr_end
            (([char_t, double_t, bool_t].map (fun T => T.align)).getD id 0) →
        ([char_t, double_t, bool_t].map (fun T => T.size)).getD j 0 ≤
          ([char_t, double_t, bool_t].map (fun T => T.size)).getD id 0) ∧
      (∀ j ∈ (do_allocate_n_after 0 0 [char_t, double_t, bool_t] 1).indices,
        padding_of (do_allocate_n_after 0 0 [char_t, double_t, bool_t] 1).ptr_end
            (([char_t, double_t, bool_t].map (fun T => T.align)).getD j 0) =
          padding_of (do_allocate_n_after 0 0 [char_t, double_t, bool_t] 1).ptr_end
            (([char_t, double_t, bool_t].map (fun T => T.align)).getD id 0) →
        ([char_t, double_t, bool_t].map (fun T => T.size)).getD j 0 =
          ([char_t, double_t, bool_t].map (fun T => T.size)).getD id 0 →
        id ≤ j) ∧
      (do_allocate_n_after 0 0 [char_t, double_t, bool_t] (1 + 1)).indices =
        (do_allocate_n_after 0 0 [char_t, double_t, bool_t] 1).indices.erase id ∧
      (do_allocate_n_after 0 0 [char_t, double_t, bool_t] (1 + 1)).output.getD id 0 =
        to_offset_t (to_size_t (0 +
          (do_allocate_n_after 0 0 [char_t, double_t, bool_t] 1).to_allocate +
          padding_of (do_allocate_n_after 0 0 [char_t, double_t, bool_t] 1).ptr_end
            (([char_t, double_t, bool_t].map (fun T => T.align)).getD id 0)))) ∧
    returned (HeterogeneousArray.empty.reserve 0 [char_t, double_t, bool_t]) =
      some [8, 0, 9]) :=
  ⟨by decide, batch_tie_break 0 0 [char_t, double_t, bool_t] 1 (by decide)⟩

/-! ## Monotonicity of the bump allocator (C31) -/

theorem do_allocate_n_body_bounded (alignments sizes : List Nat) (size_before B : Nat)
    (hal : ∀ a ∈ alignments, valid_align a)
    (st : AllocState) (hs : st.bounded alignments sizes B) (h : st.indices ≠ []) :
    (do_allocate_n_body alignments sizes size_before st).bounded alignments sizes B := by
  have hshape := do_allocate_n_body_shaped alignments sizes size_before _ st hs.1 h
  obtain ⟨id, hmem, -, -, heq⟩ := do_allocate_n_body_spec alignments sizes size_before st h
  rw [heq] at hshape ⊢
  obtain ⟨hsh, hsum⟩ := hs
  have hid : id < alignments.length := hsh.2.2 id hmem
  have hpad := padding_of_lt (hal _ (getD_mem hid 0)) st.ptr_end
  have hsplit := List.sum_map_erase (fun i => sizes.getD i 0 + alignments.getD i 0) hmem
  simp only at hsplit
  refine ⟨hshape, ?_⟩
  dsimp only
  generalize padding_of st.ptr_end (alignments.getD id 0) = pad at *
  generalize (List.map (fun i => sizes.getD i 0 + alignments.getD i 0)
    (st.indices.erase id)).sum = rest at *
  generalize (List.map (fun i => sizes.getD i 0 + alignments.getD i 0) st.indices).sum =
    total at *
  simp only [to_size_t]
  omega

theorem do_allocate_n_final_bounded (base size_before : Nat) (Ts : List TypeInfo)
    (hal : ∀ T ∈ Ts, valid_align T.align) :
    (do_allocate_n_final base size_before Ts).to_allocate ≤
      (Ts.map (fun T => T.size + T.align)).sum := by
  have h : (do_allocate_n_final base size_before Ts).bounded (Ts.map (fun T => T.align))
      (Ts.map (fun T => T.size)) (Ts.map (fun T => T.size + T.align)).sum := by
    unfold do_allocate_n_final
    apply do_allocate_n_loop_induct (Ts.map (fun T => T.align)) (Ts.map (fun T => T.size))
      size_before (fun st => st.bounded (Ts.map (fun T => T.align))
        (Ts.map (fun T => T.size)) (Ts.map (fun T => T.size + T.align)).sum)
    · intro st hst hne
      exact do_allocate_n_body_bounded _ _ size_before _ (valid_align_map hal) st hst hne
    · have hsh := do_allocate_n_init_shaped base size_before Ts.length
      refine ⟨by rw [List.length_map]; exact hsh, ?_⟩
      simp only [do_allocate_n_init, range_map_weights, Nat.zero_add, le_refl]
  have := h.2
  omega

/-- A `reserve<Ts...>()` that returns and does not wrap the 64-bit arithmetic grows
the arena, by at most the sizes and alignments of the types. -/
theorem reserve_grows {base : Nat} {c c1 : HeterogeneousArray} {Ts : List TypeInfo}
    {r : List Nat} (hal : ∀ T ∈ Ts, valid_align T.align) (hB : no_wrap c Ts)
    (h : c.reserve base Ts = .ok (c1, r)) :
    c.data.size ≤ c1.data.size ∧
      c1.data.size ≤ c.data.size + (Ts.map (fun T => T.size + T.align)).sum := by
  obtain ⟨hle, hnot, -, -, -⟩ := reserve_ok h
  unfold no_wrap at hB
  by_cases hN : Ts.length = 1
  · obtain ⟨T, rfl⟩ := List.length_eq_one.1 hN
    have h1 := reserve_single_eq base c T (hle T (List.mem_singleton_self T))
      (hnot T (List.mem_singleton_self T))
    rw [h1] at h
    simp only [Except.ok.injEq, Prod.mk.injEq] at h
    obtain ⟨hc1, -⟩ := h
    subst hc1
    have hpad := padding_of_lt (hal T (List.mem_singleton_self T))
      (to_size_t (base + c.data.size))
    simp only [List.map_cons, List.map_nil, List.sum_cons, List.sum_nil, Nat.add_zero] at hB ⊢
    simp only [HeterogeneousArray.do_allocate_1, Arena.resize, to_size_t] at hpad ⊢
    generalize padding_of ((base + c.data.size) % 2 ^ 64) T.align = pad at hpad ⊢
    omega
  · have h1 := reserve_batch_eq base c Ts hN hle hnot
    rw [h1] at h
    simp only [Except.ok.injEq, Prod.mk.injEq] at h
    obtain ⟨hc1, -⟩ := h
    subst hc1
    have hta := do_allocate_n_final_bounded base c.data.size Ts hal
    simp only [HeterogeneousArray.do_allocate_n, Arena.resize, to_size_t]
    omega

theorem no_wrap_of_sublist {c : HeterogeneousArray} {Rs Ts : List TypeInfo}
    (hsub : Rs.Sublist Ts) (h : no_wrap c Ts) : no_wrap c Rs := by
  unfold no_wrap at h ⊢
  have := (hsub.map (fun T => T.size + T.align)).sum_le_sum (fun a _ => Nat.zero_le a)
  omega

/-- Along the steps no entry of the offset directory is removed or changed. -/
theorem arena_steps.directory_kept {U : TypeInfo → Prop} {c c1 : HeterogeneousArray}
    {Rs Is : List TypeInfo} (h : arena_steps U c Rs Is c1) : directory_kept c c1 := by
  induction h with
  | refl => exact fun k off hk => hk
  | frame _ ho hs ih =>
    intro k off hk
    rw [ho]; exact ih k off hk
  | reserve _ hU hr ih =>
    obtain ⟨-, -, -, ho, -⟩ := reserve_ok hr
    intro k off hk
    rw [ho]
    exact emplace_offsets_of_some _ _ _ _ _ (ih k off hk)
  | record_type _ hU he ho hs ih =>
    intro k off hk
    rw [ho]
    exact map_find_emplace_of_some _ _ _ (ih k off hk)
  | @index c1 c2 Rs Is T _ hU ha ho hs ih =>
    intro k off hk
    rw [ho]
    have h1 := ih k off hk
    have hne : T.id ≠ k := by
      intro heq
      simp only [HeterogeneousArray.is_allocated, map_count, heq, h1, Option.isSome_some]
        at ha
      exact absurd ha (by simp)
    simp only [map_find, hne, if_false]
    exact h1

/-- Along steps that do not wrap the 64-bit arithmetic the arena does not shrink. -/
theorem arena_steps.grows {U : TypeInfo → Prop} (hU : ∀ T, U T → valid_align T.align)
    {c c1 : HeterogeneousArray} {Rs Is : List TypeInfo} (h : arena_steps U c Rs Is c1) :
    no_wrap c Rs →
      c.data.size ≤ c1.data.size ∧
        c1.data.size ≤ c.data.size + (Rs.map (fun T => T.size + T.align)).sum := by
  induction h with
  | refl => intro _; exact ⟨le_refl _, by simp⟩
  | frame _ ho hs ih =>
    intro hB
    obtain ⟨h1, h2⟩ := ih hB
    exact ⟨by omega, by omega⟩
  | @reserve c1 c2 Rs Is base Ts r _ hTs hr ih =>
    intro hB
    obtain ⟨h1, h2⟩ := ih (no_wrap_of_sublist (List.sublist_append_left Rs Ts) hB)
    have hB2 : no_wrap c1 Ts := by
      unfold no_wrap at hB ⊢
      simp only [List.map_append, List.sum_append] at hB
      omega
    obtain ⟨h3, h4⟩ := reserve_grows (fun T hT => hU T (hTs T hT)) hB2 hr
    refine ⟨by omega, ?_⟩
    simp only [List.map_append, List.sum_append]
    omega
  | record_type _ hD he ho hs ih =>
    intro hB
    obtain ⟨h1, h2⟩ := ih hB
    exact ⟨by omega, by omega⟩
  | index _ hT ha ho hs ih =>
    intro hB
    obtain ⟨h1, h2⟩ := ih hB
    exact ⟨by omega, by omega⟩

theorem assign_n_size (args : List (TypeInfo × Val)) :
    ∀ {c c1 : HeterogeneousArray} {r : List Nat}, c.assign_n args = .ok (c1, r) →
      c1.data.size = c.data.size := by
  induction args with
  | nil =>
    intro c c1 r h
    simp only [HeterogeneousArray.assign_n, Except.ok.injEq, Prod.mk.injEq] at h
    rw [← h.1]
  | cons a rest ih =>
    intro c c1 r h
    obtain ⟨T, v⟩ := a
    unfold HeterogeneousArray.assign_n at h
    cases h1 : c.assign_1 T v with
    | error e => rw [h1] at h; simp at h
    | ok p =>
      obtain ⟨c2, r2⟩ := p
      rw [h1] at h
      cases h3 : c2.assign_n rest with
      | error e => simp only [h3] at h; simp at h
      | ok q =>
        obtain ⟨c3, r3⟩ := q
        simp only [h3, Except.ok.injEq, Prod.mk.injEq] at h
        rw [← h.1, ih h3, (assign_1_frame h1).2]

/-- `assign` leaves the arena length as it is. -/
theorem assign_size {c c1 : HeterogeneousArray} {args : List (TypeInfo × Val)}
    {r : List Nat} (h : c.assign args = .ok (c1, r)) : c1.data.size = c.data.size := by
  rcases args with _ | ⟨⟨T, v⟩, _ | ⟨b, rest⟩⟩
  · simp [HeterogeneousArray.assign] at h
  · simp only [HeterogeneousArray.assign] at h
    cases h1 : c.assign_1 T v with
    | error e => rw [h1] at h; simp at h
    | ok p =>
      obtain ⟨c2, r2⟩ := p
      simp only [h1, Except.ok.injEq, Prod.mk.injEq] at h
      rw [← h.1]
      exact (assign_1_frame h1).2
  · simp only [HeterogeneousArray.assign] at h
    split at h
    · simp at h
    · exact assign_n_size _ h

/-- C31, as amended. For every store and every call of `reserve`, `construct`,
`insert`, `assign`, `insert_or_assign` and `destruct` that returns, on types with
power-of-two alignments of at most 64: no entry of the offset directory is removed and
the offset recorded for a type does not change; `construct`, `assign` and `destruct`
leave the arena length as it is; `reserve`, `insert` and `insert_or_assign` do not
shrink the arena when the arena length plus the sizes and alignments of the types given
is below `2 ^ 64`. -/
theorem bump_allocator_monotone {U : TypeInfo → Prop}
    (hU : ∀ T, U T → valid_align T.align) (c : HeterogeneousArray) :
    (∀ base Ts c1 r, (∀ T ∈ Ts, U T) → c.reserve base Ts = .ok (c1, r) →
      directory_kept c c1 ∧ (no_wrap c Ts → c.data.size ≤ c1.data.size)) ∧
    (∀ args c1 r, c.construct args = .ok (c1, r) →
      directory_kept c c1 ∧ c1.offsets = c.offsets ∧ c1.data.size = c.data.size) ∧
    (∀ base args c1 r, well_typed U args → c.insert base args = .ok (c1, r) →
      directory_kept c c1 ∧
        (no_wrap c (args.map (fun a => a.1)) → c.data.size ≤ c1.data.size)) ∧
    (∀ args c1 r, well_typed U args → c.assign args = .ok (c1, r) →
      directory_kept c c1 ∧ c1.data.size = c.data.size) ∧
    (∀ base args c1 r, well_typed U args → c.insert_or_assign base args = .ok (c1, r) →
      directory_kept c c1 ∧
        (no_wrap c (args.map (fun a => a.1)) → c.data.size ≤ c1.data.size)) ∧
    (∀ Ts c1 called, c.destruct Ts = .ok (c1, called) →
      directory_kept c c1 ∧ c1.offsets = c.offsets ∧ c1.data.size = c.data.size) := by
  refine ⟨?_, ?_, ?_, ?_, ?_, ?_⟩
  · intro base Ts c1 r hTs h
    have s : arena_steps U c Ts [] c1 := arena_steps.refl.reserve hTs h
    exact ⟨s.directory_kept, fun hB => (s.grows hU hB).1⟩
  · intro args c1 r h
    obtain ⟨ho, hs⟩ := construct_frame h
    exact ⟨fun k off hk => by rw [ho]; exact hk, ho, hs⟩
  · intro base args c1 r hw h
    obtain ⟨Rs, hsub, s⟩ := arena_steps_insert (fun a ha => (hw a ha).1) h
    exact ⟨s.directory_kept, fun hB => (s.grows hU (no_wrap_of_sublist hsub hB)).1⟩
  · intro args c1 r hw h
    obtain ⟨Is, -, s⟩ := arena_steps_assign (fun a ha => (hw a ha).1) h
    exact ⟨s.directory_kept, assign_size h⟩
  · intro base args c1 r hw h
    obtain ⟨Rs, hsub, s⟩ := arena_steps_insert_or_assign _ (fun a ha => (hw a ha).1) h
    exact ⟨s.directory_kept, fun hB => (s.grows hU (no_wrap_of_sublist hsub hB)).1⟩
  · intro Ts c1 called h
    obtain ⟨ho, hd⟩ := destruct_offsets_data _ h
    exact ⟨fun k off hk => by rw [ho]; exact hk, ho, by rw [hd]⟩

/-- C31 fails for `reserve<H1, H2>()` on the store that holds an `int`, where `H1` and
`H2` have `2 ^ 63 - 2` bytes each: `to_allocate` is `2 ^ 64 - 4`, the new length
`4 + 2 ^ 64 - 4` wraps to 0 in `size_t`, `data.resize(0)` is called and the arena
shrinks from 4 bytes to 0 while the `int` stays recorded at the offset 0. -/
theorem bump_allocator_monotone_counterexample :
    int_store.data.size = 4 ∧
      returned (int_store.reserve 0 [huge1_t, huge2_t]) = some [4, 2] ∧
      (store_after int_store (int_store.reserve 0 [huge1_t, huge2_t])).data.size = 0 ∧
      map_find int_t.id
        (store_after int_store (int_store.reserve 0 [huge1_t, huge2_t])).offsets = some 0 := by
  decide

/-- C31, as amended, at the store that holds an `int`, for the program whose types are
`int` and `double`. -/
theorem bump_allocator_monotone_witness :
    (∀ T, (T = int_t ∨ T = double_t) → valid_align T.align) ∧
    ((∀ base Ts c1 r, (∀ T ∈ Ts, T = int_t ∨ T = double_t) →
      int_store.reserve base Ts = .ok (c1, r) →
      directory_kept int_store c1 ∧
        (no_wrap int_store Ts → int_store.data.size ≤ c1.data.size)) ∧
    (∀ args c1 r, int_store.construct args = .ok (c1, r) →
      directory_kept int_store c1 ∧ c1.offsets = int_store.offsets ∧
        c1.data.size = int_store.data.size) ∧
    (∀ base args c1 r, well_typed (fun T => T = int_t ∨ T = double_t) args →
      int_store.insert base args = .ok (c1, r) →
      directory_kept int_store c1 ∧
        (no_wrap int_store (args.map (fun a => a.1)) →
          int_store.data.size ≤ c1.data.size)) ∧
    (∀ args c1 r, well_typed (fun T => T = int_t ∨ T = double_t) args →
      int_store.assign args = .ok (c1, r) →
      directory_kept int_store c1 ∧ c1.data.size = int_store.data.size) ∧
    (∀ base args c1 r, well_typed (fun T => T = int_t ∨ T = double_t) args →
      int_store.insert_or_assign base args = .ok (c1, r) →
      directory_kept int_store c1 ∧
        (no_wrap int_store (args.map (fun a => a.1)) →
          int_store.data.size ≤ c1.data.size)) ∧
    (∀ Ts c1 called, int_store.destruct Ts = .ok (c1, called) →
      directory_kept int_store c1 ∧ c1.offsets = int_store.offsets ∧
        c1.data.size = int_store.data.size)) :=
  have hU : ∀ T, (T = int_t ∨ T = double_t) → valid_align T.align := by
    rintro T (rfl | rfl)
    · exact valid_align_pow 2 (by decide)
    · exact valid_align_pow 3 (by decide)
  ⟨hU, bump_allocator_monotone hU int_store⟩

/-! ## `contains` of the second sparse-set container (C32) -/

/-- In `HeterogeneousContainer_SparseSet2` the comparison of a cell with `-1` is always
true, so `contains<T>()` only says whether `sparse` is longer than `type_id<T>()`. -/
theorem sparse_set2_contains_eq (c : HeterogeneousContainer_SparseSet2) (T : TypeInfo) :
    c.contains [T] = decide (T.id < c.sparse.length) := by
  have h : ((c.sparse.getD T.id 0 : Nat) : Int) ≠ -1 := by omega
  simp [HeterogeneousContainer_SparseSet2.contains, h]

/-- After `insert_1<T>` the container contains `T`. -/
theorem sparse_set2_contains_inserted (c : HeterogeneousContainer_SparseSet2)
    (T : TypeInfo) (v : Val) (hid : T.id + 1 < 2 ^ 32) :
    (c.insert_1 T v).contains [T] = true := by
  rw [sparse_set2_contains_eq]
  simp only [HeterogeneousContainer_SparseSet2.insert_1, List.length_set, decide_eq_true_eq]
  split
  · simp only [vector_resize, to_type_id_t, List.length_append, List.length_take,
      List.length_replicate]
    omega
  · omega

/-- C32 fails in `HeterogeneousContainer_SparseSet2` after the single `insert` of a
`double`, with the type ids `char` 0, `int` 1, `double` 2, `bool` 3: `sparse` is
`[255, 255, 0]`, and `contains<int>()` and `contains<char>()` are true although neither
type was inserted, because a cell, promoted to `int`, is never `-1`. They are false in
`HeterogeneousContainer_SparseSet1`, which compares with `index(-1)`. -/
theorem sparse_set2_contains_uninserted :
    (HeterogeneousContainer_SparseSet2.empty.insert_1 double_t [1, 2, 3, 4, 5, 6, 7, 8]).tags =
        [double_t.id] ∧
      (HeterogeneousContainer_SparseSet2.empty.insert_1 double_t
        [1, 2, 3, 4, 5, 6, 7, 8]).sparse = [255, 255, 0] ∧
      int_t.id < double_t.id ∧
      (HeterogeneousContainer_SparseSet2.empty.insert_1 double_t
        [1, 2, 3, 4, 5, 6, 7, 8]).contains [double_t] = true ∧
      (HeterogeneousContainer_SparseSet2.empty.insert_1 double_t
        [1, 2, 3, 4, 5, 6, 7, 8]).contains [int_t] = true ∧
      (HeterogeneousContainer_SparseSet2.empty.insert_1 double_t
        [1, 2, 3, 4, 5, 6, 7, 8]).contains [char_t] = true ∧
      (HeterogeneousContainer_SparseSet2.empty.insert_1 double_t
        [1, 2, 3, 4, 5, 6, 7, 8]).contains [bool_t] = false ∧
      (HeterogeneousContainer_SparseSet1.empty.insert_1 double_t
        [1, 2, 3, 4, 5, 6, 7, 8]).sparse = [255, 255, 0] ∧
      (HeterogeneousContainer_SparseSet1.empty.insert_1 double_t
        [1, 2, 3, 4, 5, 6, 7, 8]).contains [double_t] = true ∧
      (HeterogeneousContainer_SparseSet1.empty.insert_1 double_t
        [1, 2, 3, 4, 5, 6, 7, 8]).contains [int_t] = false := by
  decide

end heco
